import Mathlib

/-!
Verification of the gf256 repository against its specification.

The repository ships its field arithmetic and Reed-Solomon codec as
compile-time macro instantiations; the files under scrutiny (src/src/rs.rs,
src/benches/gfmul.rs, src/examples/lfsr.rs) only declare the instances,
exercise them in tests, and wrap them in examples.  The arithmetic and codec
bodies are therefore modelled here from the specification (spec.md sections
3, 4.1-4.3), instantiated at the parameters the source files use:
GF(2^8) with POLYNOMIAL = 0x11d and GENERATOR = 0x02, and the Reed-Solomon
instances rs(block, data) over that field.
-/

/-- Modelled from the spec: one shift-and-reduce step of the naive bit-serial
carry-less multiply (spec 4.1, strategy 1) for GF(2^p) with irreducible
polynomial P: shift left one bit, and reduce by P whenever the degree-p bit
is set. -/
def gfStepP (p P a : Nat) : Nat :=
  if (a <<< 1) &&& (1 <<< p) = 0 then a <<< 1 else (a <<< 1) ^^^ P

/-- Modelled from the spec: the shift-and-xor accumulation loop of the naive
bit-serial multiply.  The loop runs while b is nonzero; fuel bounds the
number of iterations and equals p at top level (b has at most p bits). -/
def gfmulAuxP (p P : Nat) : Nat → Nat → Nat → Nat
  | 0, _, _ => 0
  | fuel+1, a, b =>
    if b = 0 then 0
    else (if b % 2 = 1 then a else 0) ^^^ gfmulAuxP p P fuel (gfStepP p P a) (b / 2)

/-- Modelled from the spec: naive bit-serial multiplication in GF(2^p)
(spec 4.1, strategy 1; naive_mul in the source). -/
def gfmulNatP (p P a b : Nat) : Nat := gfmulAuxP p P p a b

/-- GF(2^8) multiplication with the polynomial 0x11d used throughout the
source. -/
def gfmulNat (a b : Nat) : Nat := gfmulNatP 8 0x11d a b

theorem gfmulAuxP_zero_right (p P : Nat) (f a : Nat) : gfmulAuxP p P f a 0 = 0 := by
  cases f <;> simp [gfmulAuxP]

theorem gfmulAuxP_succ (p P : Nat) (f a b : Nat) :
    gfmulAuxP p P (f+1) a b =
      (if b % 2 = 1 then a else 0) ^^^ gfmulAuxP p P f (gfStepP p P a) (b / 2) := by
  by_cases hb : b = 0
  · subst hb
    simp [gfmulAuxP, gfmulAuxP_zero_right]
  · simp [gfmulAuxP, hb]

theorem gfStepP_zero (p P : Nat) : gfStepP p P 0 = 0 := by
  simp [gfStepP]

theorem gfmulAuxP_zero_left (p P : Nat) (f b : Nat) : gfmulAuxP p P f 0 b = 0 := by
  induction f generalizing b with
  | zero => simp [gfmulAuxP]
  | succ f ih => rw [gfmulAuxP_succ, gfStepP_zero, ih]; simp

theorem shiftLeft_one_xor (a b : Nat) : (a ^^^ b) <<< 1 = a <<< 1 ^^^ b <<< 1 := by
  apply Nat.eq_of_testBit_eq
  intro i
  simp [Nat.testBit_shiftLeft, Nat.testBit_xor, Bool.and_xor_distrib_left]

theorem and_pow_ne_zero {x p : Nat} (hx : x &&& 1 <<< p ≠ 0) : x &&& 1 <<< p = 1 <<< p := by
  rw [Nat.one_shiftLeft] at hx ⊢
  rw [Nat.and_two_pow] at hx ⊢
  cases h : x.testBit p
  · rw [h] at hx; simp at hx
  · simp

theorem xor_left_comm (a b c : Nat) : a ^^^ (b ^^^ c) = b ^^^ (a ^^^ c) := by
  rw [← Nat.xor_assoc, Nat.xor_comm a b, Nat.xor_assoc]

theorem xor_cancel_left (a b : Nat) : a ^^^ (a ^^^ b) = b := by
  rw [← Nat.xor_assoc, Nat.xor_self, Nat.zero_xor]

/-- The shift-and-reduce step distributes over xor: the reduction only looks
at the degree-p bit, which is xor-additive. -/
theorem gfStepP_xor (p P a b : Nat) :
    gfStepP p P (a ^^^ b) = gfStepP p P a ^^^ gfStepP p P b := by
  unfold gfStepP
  rw [shiftLeft_one_xor]
  rw [Nat.and_xor_distrib_right]
  by_cases ha : a <<< 1 &&& 1 <<< p = 0 <;> by_cases hb : b <<< 1 &&& 1 <<< p = 0
  · simp [ha, hb]
  · simp [ha, hb, Nat.xor_assoc]
  · simp [ha, hb, Nat.xor_assoc, Nat.xor_comm, xor_left_comm]
  · have h2a := and_pow_ne_zero ha
    have h2b := and_pow_ne_zero hb
    have hp : ¬(1 <<< p = 0) := by
      rw [Nat.one_shiftLeft]
      exact (Nat.two_pow_pos p).ne'
    simp [h2a, h2b, hp, ha, hb, Nat.xor_assoc, Nat.xor_comm, xor_left_comm,
      xor_cancel_left]

theorem xor_mod_two (b c : Nat) : (b ^^^ c) % 2 = b % 2 ^^^ c % 2 := by
  rw [← Nat.and_one_is_mod, ← Nat.and_one_is_mod, ← Nat.and_one_is_mod,
    Nat.and_xor_distrib_right]

theorem xor_div_two (b c : Nat) : (b ^^^ c) / 2 = b / 2 ^^^ c / 2 := by
  have h : ∀ x : Nat, x / 2 = x >>> 1 := fun x => by
    rw [Nat.shiftRight_eq_div_pow, Nat.pow_one]
  rw [h, h, h]
  apply Nat.eq_of_testBit_eq
  intro i
  simp [Nat.testBit_shiftRight, Nat.testBit_xor]

/-- The accumulation loop is xor-linear in the multiplier b. -/
theorem gfmulAuxP_xor_right (p P : Nat) (f a b c : Nat) :
    gfmulAuxP p P f a (b ^^^ c) = gfmulAuxP p P f a b ^^^ gfmulAuxP p P f a c := by
  induction f generalizing a b c with
  | zero => simp [gfmulAuxP]
  | succ f ih =>
    rw [gfmulAuxP_succ, gfmulAuxP_succ, gfmulAuxP_succ, xor_mod_two, xor_div_two, ih]
    rcases Nat.mod_two_eq_zero_or_one b with hb | hb <;>
      rcases Nat.mod_two_eq_zero_or_one c with hc | hc <;>
        simp [hb, hc, Nat.xor_assoc, Nat.xor_comm, xor_left_comm, xor_cancel_left]

/-- The accumulation loop is xor-linear in the multiplicand a. -/
theorem gfmulAuxP_xor_left (p P : Nat) (f a b c : Nat) :
    gfmulAuxP p P f (a ^^^ b) c = gfmulAuxP p P f a c ^^^ gfmulAuxP p P f b c := by
  induction f generalizing a b c with
  | zero => simp [gfmulAuxP]
  | succ f ih =>
    rw [gfmulAuxP_succ, gfmulAuxP_succ, gfmulAuxP_succ, gfStepP_xor, ih]
    by_cases hc : c % 2 = 1 <;>
      simp [hc, Nat.xor_assoc, Nat.xor_comm, xor_left_comm, xor_cancel_left]

theorem two_pow_xor_eq_add {n r : Nat} (h : r < 2 ^ n) : 2 ^ n ^^^ r = 2 ^ n + r := by
  apply Nat.eq_of_testBit_eq
  intro i
  rw [Nat.testBit_xor]
  rcases Nat.lt_trichotomy i n with hi | hi | hi
  · rw [Nat.testBit_two_pow_of_ne (by omega)]
    have hsplit : (2:Nat) ^ n = 2 ^ (i+1) * 2 ^ (n - (i+1)) := by
      rw [← pow_add]
      congr 1
      omega
    have h2 : (2 ^ n + r) % 2 ^ (i+1) = r % 2 ^ (i+1) := by
      rw [hsplit, Nat.mul_add_mod]
    have e1 : ((2 ^ n + r) % 2 ^ (i+1)).testBit i = (2 ^ n + r).testBit i := by
      rw [Nat.testBit_mod_two_pow]
      simp
    have e2 : (r % 2 ^ (i+1)).testBit i = r.testBit i := by
      rw [Nat.testBit_mod_two_pow]
      simp
    rw [← e1, h2, e2, Bool.false_xor]
  · subst hi
    rw [Nat.testBit_two_pow_self, Nat.testBit_lt_two_pow h, Bool.xor_false]
    rw [Nat.testBit_to_div_mod]
    rw [Nat.add_comm, Nat.add_div_right _ (Nat.two_pow_pos i), Nat.div_eq_of_lt h]
    simp
  · have hr2 : r < 2 ^ i := lt_trans h (Nat.pow_lt_pow_right (by norm_num) hi)
    rw [Nat.testBit_two_pow_of_ne (by omega), Nat.testBit_lt_two_pow hr2, Bool.xor_false]
    have hlt : 2 ^ n + r < 2 ^ i := by
      have h1 : 2 ^ n + r < 2 ^ (n + 1) := by
        rw [pow_succ]
        omega
      have h2 : (2:Nat) ^ (n + 1) ≤ 2 ^ i := Nat.pow_le_pow_right (by norm_num) (by omega)
      omega
    rw [Nat.testBit_lt_two_pow hlt]

/-- Two xor-linear maps out of Nat that agree on the bit basis below n agree
on every value below 2 to the n. -/
theorem xorFunExt (g h : Nat → Nat) (hg0 : g 0 = 0) (hh0 : h 0 = 0)
    (hg : ∀ x y, g (x ^^^ y) = g x ^^^ g y) (hh : ∀ x y, h (x ^^^ y) = h x ^^^ h y) :
    ∀ n, (∀ i < n, g (2 ^ i) = h (2 ^ i)) → ∀ b < 2 ^ n, g b = h b := by
  intro n
  induction n with
  | zero =>
    intro _ b hb
    interval_cases b
    rw [hg0, hh0]
  | succ n ih =>
    intro hbasis b hb
    by_cases hlt : b < 2 ^ n
    · exact ih (fun i hi => hbasis i (by omega)) b hlt
    · have hr : b - 2 ^ n < 2 ^ n := by
        rw [pow_succ] at hb
        omega
      have hbeq : b = 2 ^ n ^^^ (b - 2 ^ n) := by
        rw [two_pow_xor_eq_add hr]
        omega
      rw [hbeq, hg, hh, hbasis n (by omega),
        ih (fun i hi => hbasis i (by omega)) (b - 2 ^ n) hr]

theorem gfStep8_lt {a : Nat} (h : a < 256) : gfStepP 8 0x11d a < 256 := by
  have hs : a <<< 1 < 512 := by
    rw [Nat.shiftLeft_eq]
    omega
  unfold gfStepP
  by_cases hc : (a <<< 1) &&& (1 <<< 8) = 0
  · rw [if_pos hc]
    have hbit : (a <<< 1).testBit 8 = false := by
      rw [Nat.one_shiftLeft, Nat.and_two_pow] at hc
      cases hb : (a <<< 1).testBit 8
      · rfl
      · rw [hb] at hc
        norm_num at hc
    rw [Nat.testBit_to_div_mod] at hbit
    have h8 : (2:Nat) ^ 8 = 256 := by norm_num
    rw [h8] at hbit
    simp only [decide_eq_false_iff_not] at hbit
    omega
  · rw [if_neg hc]
    have hge : 256 ≤ a <<< 1 := by
      by_contra hlt
      push_neg at hlt
      apply hc
      rw [Nat.one_shiftLeft, Nat.and_two_pow,
        Nat.testBit_lt_two_pow (show a <<< 1 < 2 ^ 8 by norm_num; omega)]
      rfl
    obtain ⟨r, hr256, hsr⟩ : ∃ r, r < 256 ∧ a <<< 1 = 256 + r :=
      ⟨a <<< 1 - 256, by omega, by omega⟩
    have hr2 : r < 2 ^ 8 := by
      norm_num
      omega
    rw [hsr]
    have h1 : (256 + r) ^^^ 0x11d = r ^^^ 29 := by
      have e : (256:Nat) + r = 2 ^ 8 ^^^ r := by
        rw [two_pow_xor_eq_add hr2]
        norm_num
      rw [e, show (0x11d:Nat) = 2 ^ 8 ^^^ 29 by decide,
        Nat.xor_assoc, xor_left_comm r (2 ^ 8) 29, xor_cancel_left]
    rw [h1]
    have := Nat.xor_lt_two_pow hr2 (show (29:Nat) < 2 ^ 8 by norm_num)
    norm_num at this
    exact this

theorem gfmulAuxP8_lt (f : Nat) : ∀ a b, a < 256 → gfmulAuxP 8 0x11d f a b < 256 := by
  induction f with
  | zero =>
    intro a b _
    simp [gfmulAuxP]
  | succ f ih =>
    intro a b ha
    rw [gfmulAuxP_succ]
    have hacc : (if b % 2 = 1 then a else 0) < 2 ^ 8 := by
      norm_num
      split <;> omega
    have hrec : gfmulAuxP 8 0x11d f (gfStepP 8 0x11d a) (b / 2) < 2 ^ 8 := by
      norm_num
      exact ih _ _ (gfStep8_lt ha)
    have := Nat.xor_lt_two_pow hacc hrec
    norm_num at this
    exact this

theorem gfmulNat_lt {a : Nat} (b : Nat) (ha : a < 256) : gfmulNat a b < 256 :=
  gfmulAuxP8_lt 8 a b ha

theorem gfmulNat_zero_left (b : Nat) : gfmulNat 0 b = 0 :=
  gfmulAuxP_zero_left ..

theorem gfmulNat_zero_right (a : Nat) : gfmulNat a 0 = 0 :=
  gfmulAuxP_zero_right ..

theorem gfmulNat_xor_left (a b c : Nat) :
    gfmulNat (a ^^^ b) c = gfmulNat a c ^^^ gfmulNat b c :=
  gfmulAuxP_xor_left ..

theorem gfmulNat_xor_right (a b c : Nat) :
    gfmulNat a (b ^^^ c) = gfmulNat a b ^^^ gfmulNat a c :=
  gfmulAuxP_xor_right ..

theorem gfmulNat_pow_basis_comm :
    ∀ i < 8, ∀ j < 8, gfmulNat (2 ^ i) (2 ^ j) = gfmulNat (2 ^ j) (2 ^ i) := by decide

theorem gfmulNat_pow_comm {i : Nat} (hi : i < 8) :
    ∀ a < 256, gfmulNat a (2 ^ i) = gfmulNat (2 ^ i) a := by
  intro a ha
  exact xorFunExt (fun x => gfmulNat x (2 ^ i)) (fun x => gfmulNat (2 ^ i) x)
    (gfmulNat_zero_left _) (gfmulNat_zero_right _)
    (fun x y => gfmulNat_xor_left x y _) (fun x y => gfmulNat_xor_right _ x y)
    8 (fun j hj => gfmulNat_pow_basis_comm j hj i hi) a (by norm_num; omega)

theorem gfmulNat_comm {a b : Nat} (ha : a < 256) (hb : b < 256) :
    gfmulNat a b = gfmulNat b a := by
  exact xorFunExt (fun x => gfmulNat a x) (fun x => gfmulNat x a)
    (gfmulNat_zero_right _) (gfmulNat_zero_left _)
    (fun x y => gfmulNat_xor_right _ x y) (fun x y => gfmulNat_xor_left x y _)
    8 (fun i hi => gfmulNat_pow_comm hi a ha) b (by norm_num; omega)

theorem gfmulNat_pow_basis_assoc :
    ∀ i < 8, ∀ j < 8, ∀ k < 8,
      gfmulNat (gfmulNat (2 ^ i) (2 ^ j)) (2 ^ k) =
        gfmulNat (2 ^ i) (gfmulNat (2 ^ j) (2 ^ k)) := by decide

theorem gfmulNat_assoc_lv1 {j k : Nat} (hj : j < 8) (hk : k < 8) :
    ∀ a < 256, gfmulNat (gfmulNat a (2 ^ j)) (2 ^ k) =
      gfmulNat a (gfmulNat (2 ^ j) (2 ^ k)) := by
  intro a ha
  exact xorFunExt (fun x => gfmulNat (gfmulNat x (2 ^ j)) (2 ^ k))
    (fun x => gfmulNat x (gfmulNat (2 ^ j) (2 ^ k)))
    (by simp only [gfmulNat_zero_left]) (gfmulNat_zero_left _)
    (fun x y => by simp only [gfmulNat_xor_left])
    (fun x y => gfmulNat_xor_left x y _)
    8 (fun i hi => gfmulNat_pow_basis_assoc i hi j hj k hk) a (by norm_num; omega)

theorem gfmulNat_assoc_lv2 {k : Nat} (hk : k < 8) :
    ∀ a < 256, ∀ b < 256, gfmulNat (gfmulNat a b) (2 ^ k) =
      gfmulNat a (gfmulNat b (2 ^ k)) := by
  intro a ha b hb
  exact xorFunExt (fun x => gfmulNat (gfmulNat a x) (2 ^ k))
    (fun x => gfmulNat a (gfmulNat x (2 ^ k)))
    (by simp only [gfmulNat_zero_right, gfmulNat_zero_left])
    (by simp only [gfmulNat_zero_left, gfmulNat_zero_right])
    (fun x y => by simp only [gfmulNat_xor_right, gfmulNat_xor_left])
    (fun x y => by simp only [gfmulNat_xor_left, gfmulNat_xor_right])
    8 (fun j hj => gfmulNat_assoc_lv1 hj hk a ha) b (by norm_num; omega)

theorem gfmulNat_assoc {a b c : Nat} (ha : a < 256) (hb : b < 256) (hc : c < 256) :
    gfmulNat (gfmulNat a b) c = gfmulNat a (gfmulNat b c) := by
  exact xorFunExt (fun x => gfmulNat (gfmulNat a b) x)
    (fun x => gfmulNat a (gfmulNat b x))
    (by simp only [gfmulNat_zero_right]) (by simp only [gfmulNat_zero_right])
    (fun x y => gfmulNat_xor_right _ x y)
    (fun x y => by simp only [gfmulNat_xor_right])
    8 (fun k hk => gfmulNat_assoc_lv2 hk a ha b hb) c (by norm_num; omega)

theorem gfmulNat_one_right (a : Nat) : gfmulNat a 1 = a := by
  show gfmulAuxP 8 0x11d 8 a 1 = a
  rw [gfmulAuxP_succ]
  norm_num [gfmulAuxP_zero_right]

theorem gfmulNat_one_left {a : Nat} (ha : a < 256) : gfmulNat 1 a = a := by
  rw [gfmulNat_comm (by norm_num) ha, gfmulNat_one_right]

/-- The gf256 type of the source: GF(2^8) symbols, the low 8 bits of a u8
(spec section 3).  Represented as Fin 256 with the bespoke field structure
below; the Fin arithmetic instances are not inherited. -/
def gf256 := Fin 256

instance : DecidableEq gf256 := instDecidableEqFin 256

instance : Fintype gf256 := Fin.fintype 256

theorem xor_lt_256 {a b : Nat} (ha : a < 256) (hb : b < 256) : a ^^^ b < 256 := by
  have := Nat.xor_lt_two_pow (show a < 2 ^ 8 by norm_num; omega)
    (show b < 2 ^ 8 by norm_num; omega)
  norm_num at this
  exact this

theorem gf256.extv {a b : gf256} (h : a.val = b.val) : a = b :=
  show @Eq (Fin 256) a b from Fin.eq_of_val_eq h

/-- Construct a gf256 symbol from its Nat representation.  Using this rather
than an inline anonymous constructor keeps the expression at type gf256, so
that the bespoke field instances below are used and never the modular Fin
arithmetic. -/
def gf256.mk (v : Nat) (h : v < 256) : gf256 := ⟨v, h⟩

/-- Modelled from the spec: addition in GF(2^p) is bitwise xor (spec 4.1). -/
instance : Add gf256 := ⟨fun a b => ⟨a.val ^^^ b.val, xor_lt_256 a.isLt b.isLt⟩⟩

/-- Multiplication of gf256 symbols is the naive bit-serial carry-less
multiply modulo 0x11d. -/
instance : Mul gf256 := ⟨fun a b => ⟨gfmulNat a.val b.val, gfmulNat_lt b.val a.isLt⟩⟩

instance : Zero gf256 := ⟨⟨0, by norm_num⟩⟩

instance : One gf256 := ⟨⟨1, by norm_num⟩⟩

instance : Neg gf256 := ⟨fun a => a⟩

theorem gf256.add_val (a b : gf256) : (a + b).val = a.val ^^^ b.val := rfl

theorem gf256.mul_val (a b : gf256) : (a * b).val = gfmulNat a.val b.val := rfl

theorem gf256.zero_val : (0 : gf256).val = 0 := rfl

theorem gf256.one_val : (1 : gf256).val = 1 := rfl

theorem gf256.neg_val (a : gf256) : (-a).val = a.val := rfl

instance : CommRing gf256 where
  add := (· + ·)
  zero := 0
  one := 1
  mul := (· * ·)
  neg := Neg.neg
  nsmul := nsmulRec
  zsmul := zsmulRec
  add_assoc a b c := by
    apply gf256.extv
    simp only [gf256.add_val]
    exact Nat.xor_assoc ..
  zero_add a := by
    apply gf256.extv
    simp only [gf256.add_val, gf256.zero_val]
    exact Nat.zero_xor _
  add_zero a := by
    apply gf256.extv
    simp only [gf256.add_val, gf256.zero_val]
    exact Nat.xor_zero _
  add_comm a b := by
    apply gf256.extv
    simp only [gf256.add_val]
    exact Nat.xor_comm ..
  neg_add_cancel a := by
    apply gf256.extv
    simp only [gf256.add_val, gf256.neg_val, gf256.zero_val]
    exact Nat.xor_self _
  mul_assoc a b c := by
    apply gf256.extv
    simp only [gf256.mul_val]
    exact gfmulNat_assoc a.isLt b.isLt c.isLt
  one_mul a := by
    apply gf256.extv
    simp only [gf256.mul_val, gf256.one_val]
    exact gfmulNat_one_left a.isLt
  mul_one a := by
    apply gf256.extv
    simp only [gf256.mul_val, gf256.one_val]
    exact gfmulNat_one_right _
  mul_comm a b := by
    apply gf256.extv
    simp only [gf256.mul_val]
    exact gfmulNat_comm a.isLt b.isLt
  left_distrib a b c := by
    apply gf256.extv
    simp only [gf256.mul_val, gf256.add_val]
    exact gfmulNat_xor_right ..
  right_distrib a b c := by
    apply gf256.extv
    simp only [gf256.mul_val, gf256.add_val]
    exact gfmulNat_xor_left ..
  zero_mul a := by
    apply gf256.extv
    simp only [gf256.mul_val, gf256.zero_val]
    exact gfmulNat_zero_left _
  mul_zero a := by
    apply gf256.extv
    simp only [gf256.mul_val, gf256.zero_val]
    exact gfmulNat_zero_right _


/-- Modelled from the spec: exponentiation by square-and-multiply (spec 4.1),
on the Nat representation, with a fuel argument bounding recursion depth. -/
def gfpowNatAux : Nat → Nat → Nat → Nat
  | 0, _, _ => 1
  | f+1, a, n =>
    if n = 0 then 1
    else
      if n % 2 = 1 then gfmulNat (gfpowNatAux f (gfmulNat a a) (n / 2)) a
      else gfpowNatAux f (gfmulNat a a) (n / 2)

/-- Modelled from the spec: exponentiation, a^0 = 1 for all a (spec 4.1). -/
def gfpowNat (a n : Nat) : Nat := gfpowNatAux n a n

theorem gfpowNatAux_lt (f : Nat) : ∀ a n, a < 256 → gfpowNatAux f a n < 256 := by
  induction f with
  | zero =>
    intro a n _
    norm_num [gfpowNatAux]
  | succ f ih =>
    intro a n ha
    unfold gfpowNatAux
    by_cases h0 : n = 0
    · rw [if_pos h0]
      norm_num
    · rw [if_neg h0]
      have hrec : gfpowNatAux f (gfmulNat a a) (n / 2) < 256 :=
        ih (gfmulNat a a) (n / 2) (gfmulNat_lt a ha)
      by_cases hp : n % 2 = 1
      · rw [if_pos hp]
        exact gfmulNat_lt a hrec
      · rw [if_neg hp]
        exact hrec

theorem gfpowNat_lt {a : Nat} (n : Nat) (ha : a < 256) : gfpowNat a n < 256 :=
  gfpowNatAux_lt n a n ha

/-- Exponentiation packaged on gf256 symbols. -/
def gfpow (a : gf256) (n : Nat) : gf256 := ⟨gfpowNat a.val n, gfpowNat_lt n a.isLt⟩

theorem gfpowNatAux_val (f : Nat) :
    ∀ (a : gf256) (n : Nat), n ≤ f → gfpowNatAux f a.val n = (a ^ n).val := by
  induction f with
  | zero =>
    intro a n hn
    interval_cases n
    rfl
  | succ f ih =>
    intro a n hn
    by_cases h0 : n = 0
    · subst h0
      rfl
    · have hd : n / 2 ≤ f := by omega
      have hh : gfpowNatAux f (gfmulNat a.val a.val) (n / 2) = ((a * a) ^ (n / 2)).val := by
        rw [← gf256.mul_val]
        exact ih (a * a) (n / 2) hd
      have hsq : ((a * a) ^ (n / 2)) = a ^ (2 * (n / 2)) := by
        rw [← pow_two, ← pow_mul]
      unfold gfpowNatAux
      rw [if_neg h0]
      by_cases hp : n % 2 = 1
      · rw [if_pos hp, hh, ← gf256.mul_val]
        have he : ((a * a) ^ (n / 2)) * a = a ^ n := by
          rw [hsq]
          calc a ^ (2 * (n / 2)) * a = a ^ (2 * (n / 2)) * a ^ 1 := by rw [pow_one]
            _ = a ^ (2 * (n / 2) + 1) := (pow_add a _ 1).symm
            _ = a ^ n := by congr 1; omega
        rw [he]
      · rw [if_neg hp, hh]
        have he : ((a * a) ^ (n / 2)) = a ^ n := by
          rw [hsq]
          congr 1
          omega
        rw [he]

/-- Square-and-multiply exponentiation agrees with the monoid power. -/
theorem gfpow_eq_pow (a : gf256) (n : Nat) : gfpow a n = a ^ n :=
  gf256.extv (gfpowNatAux_val n a n le_rfl)

set_option maxHeartbeats 1600000 in
set_option maxRecDepth 100000 in
/-- Every non-zero symbol multiplied by its 254th power yields one; checked
exhaustively over the 255 non-zero symbols. -/
theorem gfmulNat_powNat_inv : ∀ v < 256, v ≠ 0 → gfmulNat v (gfpowNat v 254) = 1 := by
  decide

set_option maxRecDepth 8192 in
/-- Modelled from the spec: inversion is a^(2^p - 2) by Fermat (spec 4.1);
inverse of 0 is fixed to 0 so the operation is total. -/
instance : Field gf256 where
  inv a := gfpow a 254
  exists_pair_ne := ⟨0, 1, by decide⟩
  mul_inv_cancel a ha := by
    apply gf256.extv
    have hval : a.val ≠ 0 := by
      intro h
      exact ha (gf256.extv (h.trans gf256.zero_val.symm))
    rw [gf256.mul_val, gf256.one_val]
    exact gfmulNat_powNat_inv a.val a.isLt hval
  inv_zero := by
    apply gf256.extv
    decide
  nnqsmul := _
  qsmul := _

/-- The generator 0x02 of the multiplicative group, as instantiated by the
source (polynomial=0x11d, generator=0x02). -/
def gf256.GENERATOR : gf256 := ⟨2, by norm_num⟩

/-- Modelled from the spec: the canonical LFSR traversal (spec 4.1), repeatedly
multiplying a running accumulator by the generator; the list collects the
successive states x, xG, xG^2, ... for the given number of steps. -/
def powListAuxP (p P G : Nat) : Nat → Nat → List Nat
  | 0, _ => []
  | k+1, x => x :: powListAuxP p P G k (gfmulNatP p P x G)

/-- Modelled from the spec: the sequence G^0, G^1, ..., G^(n-1) of generator
powers, as produced by the accumulator loop started at 1. -/
def powListP (p P G n : Nat) : List Nat := powListAuxP p P G n 1

theorem powListAuxP_length (p P G : Nat) (k x : Nat) :
    (powListAuxP p P G k x).length = k := by
  induction k generalizing x with
  | zero => rfl
  | succ k ih => simp [powListAuxP, ih]

theorem powListAuxP_getD (p P G : Nat) (k : Nat) :
    ∀ x i, i < k →
      (powListAuxP p P G k x).getD i 0 = (fun y => gfmulNatP p P y G)^[i] x := by
  induction k with
  | zero => omega
  | succ k ih =>
    intro x i hi
    cases i with
    | zero => rfl
    | succ i =>
      rw [powListAuxP, List.getD_cons_succ, ih _ i (by omega),
        Function.iterate_succ_apply]

theorem powListAuxP_mem (p P G : Nat) (k : Nat) :
    ∀ x y, (y ∈ powListAuxP p P G k x ↔ ∃ i < k, y = (fun z => gfmulNatP p P z G)^[i] x) := by
  induction k with
  | zero => simp [powListAuxP]
  | succ k ih =>
    intro x y
    rw [powListAuxP, List.mem_cons, ih]
    constructor
    · rintro (rfl | ⟨i, hi, rfl⟩)
      · exact ⟨0, by omega, rfl⟩
      · exact ⟨i + 1, by omega, (Function.iterate_succ_apply _ i x).symm⟩
    · rintro ⟨i, hi, rfl⟩
      cases i with
      | zero => exact Or.inl rfl
      | succ i => exact Or.inr ⟨i, by omega, Function.iterate_succ_apply ..⟩

/-- Over GF(2^p) with a valid primitive generator -- stated via a right
inverse witness H for multiplication by G, closure of the domain under that
multiplication, and the order condition that no proper power of G returns to
1 -- the accumulator loop of 2^p - 1 steps visits every non-zero field
element exactly once. -/
theorem powListP_count_eq_one
    (p P G H : Nat)
    (hp : 0 < 2 ^ p - 1)
    (hinvH : ∀ a < 2 ^ p, gfmulNatP p P (gfmulNatP p P a G) H = a)
    (hclosed : ∀ a < 2 ^ p, gfmulNatP p P a G < 2 ^ p)
    (hord : ((powListP p P G (2 ^ p - 1)).drop 1).all (fun x => x != 1) = true) :
    ∀ y, 0 < y → y < 2 ^ p → (powListP p P G (2 ^ p - 1)).count y = 1 := by
  set n := 2 ^ p - 1 with hn
  set f : Nat → Nat := fun z => gfmulNatP p P z G with hf
  have hone : 1 < 2 ^ p := by omega
  -- iterates of the accumulator stay in the domain
  have hiter_lt : ∀ i, ∀ x < 2 ^ p, f^[i] x < 2 ^ p := by
    intro i
    induction i with
    | zero => intro x hx; simpa using hx
    | succ i ih =>
      intro x hx
      rw [Function.iterate_succ_apply]
      exact ih _ (hclosed x hx)
  -- multiplication by G is injective on the domain
  have hinj : ∀ a < 2 ^ p, ∀ b < 2 ^ p, f a = f b → a = b := by
    intro a ha b hb hab
    have := hinvH a ha
    rw [show gfmulNatP p P a G = f a from rfl, hab] at this
    rw [← this, hinvH b hb]
  -- iterated cancellation
  have hcancel : ∀ i, ∀ a < 2 ^ p, ∀ b < 2 ^ p, f^[i] a = f^[i] b → a = b := by
    intro i
    induction i with
    | zero => intro a _ b _ h; simpa using h
    | succ i ih =>
      intro a ha b hb h
      rw [Function.iterate_succ_apply, Function.iterate_succ_apply] at h
      exact hinj a ha b hb (ih _ (hclosed a ha) _ (hclosed b hb) h)
  -- the order condition, in pointwise form
  have hord2 : ∀ m, 0 < m → m < n → f^[m] 1 ≠ 1 := by
    intro m hm hmn
    obtain ⟨k, hk⟩ : ∃ k, n = k + 1 := ⟨n - 1, by omega⟩
    have hdrop : (powListP p P G n).drop 1 = powListAuxP p P G k (f 1) := by
      rw [powListP, hk]
      rfl
    have hmem : f^[m] 1 ∈ (powListP p P G n).drop 1 := by
      rw [hdrop, powListAuxP_mem]
      exact ⟨m - 1, by omega, by
        rw [← Function.iterate_succ_apply]
        congr 1
        omega⟩
    have := List.all_eq_true.mp hord _ hmem
    simpa using this
  -- the list is duplicate-free
  have hlen : (powListP p P G n).length = n := powListAuxP_length ..
  have hnodup : (powListP p P G n).Nodup := by
    rw [List.nodup_iff_injective_get]
    rintro ⟨i, hi⟩ ⟨j, hj⟩ hij
    rw [hlen] at hi hj
    simp only [List.get_eq_getElem] at hij
    rw [← List.getD_eq_getElem _ 0, ← List.getD_eq_getElem _ 0] at hij
    rw [powListP, powListAuxP_getD p P G n 1 i hi, powListAuxP_getD p P G n 1 j hj,
      ← hf] at hij
    rcases Nat.lt_trichotomy i j with hlt | heq | hlt
    · exfalso
      obtain ⟨m, hm⟩ : ∃ m, j = i + m := ⟨j - i, by omega⟩
      rw [hm, Function.iterate_add_apply] at hij
      have h1 : f^[m] 1 = 1 :=
        (hcancel i 1 hone _ (hiter_lt m 1 hone) hij).symm
      exact hord2 m (by omega) (by omega) h1
    · exact Fin.eq_of_val_eq heq
    · exfalso
      obtain ⟨m, hm⟩ : ∃ m, i = j + m := ⟨i - j, by omega⟩
      rw [hm, Function.iterate_add_apply] at hij
      have h1 : f^[m] 1 = 1 :=
        hcancel j _ (hiter_lt m 1 hone) 1 hone hij
      exact hord2 m (by omega) (by omega) h1
  -- every element of the list is a non-zero domain element
  have hsub : (powListP p P G n).toFinset ⊆ Finset.Ioo 0 (2 ^ p) := by
    intro y hy
    rw [List.mem_toFinset, powListP, powListAuxP_mem] at hy
    obtain ⟨i, hi, rfl⟩ := hy
    have hlt : f^[i] 1 < 2 ^ p := hiter_lt i 1 hone
    have hnz : ∀ j, f^[j] 1 ≠ 0 := by
      intro j
      induction j with
      | zero => simp
      | succ j ih =>
        rw [Function.iterate_succ_apply']
        intro h0
        have hz : f 0 = 0 := gfmulAuxP_zero_left ..
        have := hinj _ (hiter_lt j 1 hone) 0 (by omega) (by rw [h0, hz])
        exact ih this
    rw [Finset.mem_Ioo]
    exact ⟨Nat.pos_of_ne_zero (hnz i), hlt⟩
  -- pigeonhole: the toFinset is all of the non-zero domain
  have hcard : (powListP p P G n).toFinset.card = n := by
    rw [List.toFinset_card_of_nodup hnodup, hlen]
  have hIoo : (Finset.Ioo 0 (2 ^ p)).card = n := by
    rw [Nat.card_Ioo]
    omega
  have hfin : (powListP p P G n).toFinset = Finset.Ioo 0 (2 ^ p) :=
    Finset.eq_of_subset_of_card_le hsub (by omega)
  intro y hy0 hyp
  have hymem : y ∈ powListP p P G n := by
    rw [← List.mem_toFinset, hfin, Finset.mem_Ioo]
    exact ⟨hy0, hyp⟩
  have hle := List.nodup_iff_count_le_one.mp hnodup y
  have hpos := List.count_pos_iff.mpr hymem
  omega

theorem iterG_val (i : Nat) :
    (fun z => gfmulNatP 8 0x11d z 2)^[i] 1 = (gf256.GENERATOR ^ i).val := by
  induction i with
  | zero => rfl
  | succ i ih =>
    rw [Function.iterate_succ_apply', ih, pow_succ, gf256.mul_val]
    rfl

theorem powList256_getD {i : Nat} (hi : i < 255) :
    (powListP 8 0x11d 2 255).getD i 0 = (gf256.GENERATOR ^ i).val := by
  rw [powListP, powListAuxP_getD 8 0x11d 2 255 1 i hi, iterG_val]

set_option maxRecDepth 100000 in
set_option maxHeartbeats 1600000 in
theorem powList256_count : ∀ y, 0 < y → y < 256 → (powListP 8 0x11d 2 255).count y = 1 := by
  intro y hy0 hy
  have h := powListP_count_eq_one 8 0x11d 2 0x8e (by norm_num) (by decide) (by decide)
    (by decide) y hy0 (by norm_num; omega)
  norm_num at h
  exact h

theorem gf256_card : Fintype.card gf256 = 256 := Fintype.card_fin 256

theorem GENERATOR_pow_card : gf256.GENERATOR ^ 255 = 1 := by
  have h := FiniteField.pow_card_sub_one_eq_one gf256.GENERATOR
    (show gf256.GENERATOR ≠ 0 by decide)
  rw [gf256_card] at h
  norm_num at h
  exact h

/-- Modelled from the spec: the antilog table exp with exp[k] = G^k for
k in [0, 2(2^p - 1)), stored as two concatenated copies of the power list
so that index sums up to 508 need no reduction (spec 4.1, strategy 2). -/
def gfexpTable : List Nat := powListP 8 0x11d 2 255 ++ powListP 8 0x11d 2 255

/-- Modelled from the spec: the log table, log[x] = k such that G^k = x for
non-zero x (spec 4.1, strategy 2), realized as index search in the power
list. -/
def gflog (x : Nat) : Nat := (powListP 8 0x11d 2 255).indexOf x

/-- Modelled from the spec: log/antilog table multiplication, a mul b =
exp[log a + log b] with zero operands handled explicitly (spec 4.1,
strategy 2; table_gfmul in the source bench). -/
def table_gfmul (a b : Nat) : Nat :=
  if a = 0 ∨ b = 0 then 0 else gfexpTable.getD (gflog a + gflog b) 0

/-- Modelled from the spec: the naive strategy as exposed by the bench
(naive_gfmul wraps naive_mul). -/
def naive_gfmul (a b : Nat) : Nat := gfmulNat a b

theorem powList256_length : (powListP 8 0x11d 2 255).length = 255 :=
  powListAuxP_length ..

theorem gflog_spec {a : gf256} (ha : a ≠ 0) :
    gflog a.val < 255 ∧ gf256.GENERATOR ^ gflog a.val = a := by
  have hv0 : 0 < a.val := by
    rcases Nat.eq_zero_or_pos a.val with h | h
    · exact absurd (gf256.extv (h.trans gf256.zero_val.symm)) ha
    · exact h
  have hmem : a.val ∈ powListP 8 0x11d 2 255 := by
    have := powList256_count a.val hv0 a.isLt
    exact List.count_pos_iff.mp (by omega)
  have hlt : gflog a.val < 255 := by
    have := List.indexOf_lt_length.mpr hmem
    rwa [powList256_length] at this
  constructor
  · exact hlt
  · apply gf256.extv
    rw [← powList256_getD hlt]
    rw [gflog, List.getD_eq_getElem _ 0 (by rw [powList256_length]; exact hlt)]
    have := List.indexOf_lt_length.mpr hmem
    simp [List.getElem_indexOf]

theorem table_gfmul_eq (a b : gf256) : table_gfmul a.val b.val = (a * b).val := by
  by_cases ha : a = 0
  · subst ha
    simp [table_gfmul, gf256.zero_val]
  · by_cases hb : b = 0
    · subst hb
      simp [table_gfmul, gf256.zero_val]
    · have hva : a.val ≠ 0 := fun h => ha (gf256.extv (h.trans gf256.zero_val.symm))
      have hvb : b.val ≠ 0 := fun h => hb (gf256.extv (h.trans gf256.zero_val.symm))
      obtain ⟨hla, hga⟩ := gflog_spec ha
      obtain ⟨hlb, hgb⟩ := gflog_spec hb
      rw [table_gfmul, if_neg (by push_neg; exact ⟨hva, hvb⟩)]
      have hab : a * b = gf256.GENERATOR ^ (gflog a.val + gflog b.val) := by
        rw [pow_add, hga, hgb]
      by_cases hlt : gflog a.val + gflog b.val < 255
      · rw [gfexpTable,
          List.getD_append _ _ _ _ (by rw [powList256_length]; exact hlt),
          powList256_getD hlt, hab]
      · have h2 : gflog a.val + gflog b.val - 255 < 255 := by omega
        have hpow : gf256.GENERATOR ^ (gflog a.val + gflog b.val - 255) =
            gf256.GENERATOR ^ (gflog a.val + gflog b.val) := by
          conv_rhs => rw [show gflog a.val + gflog b.val =
            (gflog a.val + gflog b.val - 255) + 255 from by omega]
          rw [pow_add, GENERATOR_pow_card, mul_one]
        rw [gfexpTable,
          List.getD_append_right _ _ _ _ (by rw [powList256_length]; omega),
          powList256_length, powList256_getD h2, hpow, hab]

/-- Modelled from the spec: carry-less multiplication (polynomial
multiplication over GF(2)), as a shift-and-xor loop over the bits of b with
a fuel bound on the iteration count. -/
def clmulAux : Nat → Nat → Nat → Nat
  | 0, _, _ => 0
  | f+1, a, b =>
    if b = 0 then 0
    else (if b % 2 = 1 then a else 0) ^^^ clmulAux f (a <<< 1) (b / 2)

/-- Modelled from the spec: carry-less multiplication of two operands
(spec 4.1); the loop runs while b is non-zero. -/
def clmul (a b : Nat) : Nat := clmulAux b a b

theorem clmulAux_zero_right (f a : Nat) : clmulAux f a 0 = 0 := by
  cases f <;> simp [clmulAux]

theorem clmulAux_succ (f a b : Nat) :
    clmulAux (f+1) a b = (if b % 2 = 1 then a else 0) ^^^ clmulAux f (a <<< 1) (b / 2) := by
  by_cases hb : b = 0
  · subst hb
    simp [clmulAux, clmulAux_zero_right]
  · simp [clmulAux, hb]

theorem clmulAux_zero_left (f b : Nat) : clmulAux f 0 b = 0 := by
  induction f generalizing b with
  | zero => simp [clmulAux]
  | succ f ih =>
    rw [clmulAux_succ]
    have h0 : (0:Nat) <<< 1 = 0 := rfl
    rw [h0, ih]
    simp

theorem clmulAux_xor_left (f a b c : Nat) :
    clmulAux f (a ^^^ b) c = clmulAux f a c ^^^ clmulAux f b c := by
  induction f generalizing a b c with
  | zero => simp [clmulAux]
  | succ f ih =>
    rw [clmulAux_succ, clmulAux_succ, clmulAux_succ, shiftLeft_one_xor, ih]
    by_cases hc : c % 2 = 1 <;>
      simp [hc, Nat.xor_assoc, Nat.xor_comm, xor_left_comm, xor_cancel_left]

theorem clmulAux_xor_right (f a b c : Nat) :
    clmulAux f a (b ^^^ c) = clmulAux f a b ^^^ clmulAux f a c := by
  induction f generalizing a b c with
  | zero => simp [clmulAux]
  | succ f ih =>
    rw [clmulAux_succ, clmulAux_succ, clmulAux_succ, xor_mod_two, xor_div_two, ih]
    rcases Nat.mod_two_eq_zero_or_one b with hb | hb <;>
      rcases Nat.mod_two_eq_zero_or_one c with hc | hc <;>
        simp [hb, hc, Nat.xor_assoc, Nat.xor_comm, xor_left_comm, xor_cancel_left]

theorem clmulAux_fuel_eq : ∀ f g a b, b < 2 ^ f → b < 2 ^ g → clmulAux f a b = clmulAux g a b := by
  intro f
  induction f with
  | zero =>
    intro g a b hbf _
    interval_cases b
    rw [clmulAux_zero_right, clmulAux_zero_right]
  | succ f ih =>
    intro g a b hbf hbg
    by_cases hb0 : b = 0
    · subst hb0
      rw [clmulAux_zero_right, clmulAux_zero_right]
    · cases g with
      | zero =>
        exfalso
        norm_num at hbg
        omega
      | succ g =>
        rw [clmulAux_succ, clmulAux_succ]
        congr 1
        have hf2 : b / 2 < 2 ^ f := by
          rw [pow_succ] at hbf
          omega
        have hg2 : b / 2 < 2 ^ g := by
          rw [pow_succ] at hbg
          omega
        exact ih (g) (a <<< 1) (b / 2) hf2 hg2

theorem clmul_eq_fuel16 {b : Nat} (a : Nat) (hb : b < 65536) : clmul a b = clmulAux 16 a b :=
  clmulAux_fuel_eq b 16 a b (Nat.lt_two_pow b) (by norm_num; omega)

/-- Modelled from the spec: the Barrett magic constant derived from the
polynomial 0x11d -- the carry-less quotient of x^16 by 0x11d (spec 4.1,
strategy 3). -/
def BARRET_CONSTANT : Nat := 0x11c

/-- The Barrett constant is the carry-less quotient of x^16 by the
polynomial: multiplying back and subtracting leaves a remainder of degree
below 8. -/
theorem BARRET_CONSTANT_spec : clmul BARRET_CONSTANT 0x11d ^^^ (1 <<< 16) < 256 := by decide

/-- Modelled from the spec: Barrett folding reduction of a 16-bit carry-less
product to 8 bits using the magic constant, branch-free (spec 4.1,
strategy 3). -/
def barret_reduce (x : Nat) : Nat :=
  (x ^^^ clmul (clmul (x >>> 8) BARRET_CONSTANT >>> 8) 0x11d) &&& 0xff

/-- Modelled from the spec: Barrett multiplication, carry-less multiply to a
2p-bit product followed by Barrett reduction (spec 4.1, strategy 3;
barret_gfmul in the source bench). -/
def barret_gfmul (a b : Nat) : Nat := barret_reduce (clmul a b)

theorem shiftRight_xor (a b n : Nat) : (a ^^^ b) >>> n = a >>> n ^^^ b >>> n := by
  apply Nat.eq_of_testBit_eq
  intro i
  simp [Nat.testBit_shiftRight, Nat.testBit_xor]

theorem barret_reduce_xor (x y : Nat) :
    barret_reduce (x ^^^ y) = barret_reduce x ^^^ barret_reduce y := by
  unfold barret_reduce
  rw [shiftRight_xor]
  rw [show clmul (x >>> 8 ^^^ y >>> 8) BARRET_CONSTANT =
      clmul (x >>> 8) BARRET_CONSTANT ^^^ clmul (y >>> 8) BARRET_CONSTANT from
    clmulAux_xor_left ..]
  rw [shiftRight_xor]
  rw [show clmul (clmul (x >>> 8) BARRET_CONSTANT >>> 8 ^^^
        clmul (y >>> 8) BARRET_CONSTANT >>> 8) 0x11d =
      clmul (clmul (x >>> 8) BARRET_CONSTANT >>> 8) 0x11d ^^^
        clmul (clmul (y >>> 8) BARRET_CONSTANT >>> 8) 0x11d from
    clmulAux_xor_left ..]
  rw [← Nat.and_xor_distrib_right]
  congr 1
  rw [Nat.xor_assoc, Nat.xor_assoc]
  congr 1
  rw [xor_left_comm]

theorem barret_reduce_zero : barret_reduce 0 = 0 := by decide

theorem barret_basis : ∀ i < 8, ∀ j < 8,
    barret_reduce (clmulAux 16 (2 ^ i) (2 ^ j)) = gfmulNat (2 ^ i) (2 ^ j) := by decide

theorem barret_lv1 {i : Nat} (hi : i < 8) :
    ∀ b < 256, barret_gfmul (2 ^ i) b = gfmulNat (2 ^ i) b := by
  intro b hb
  have h16 : clmul (2 ^ i) b = clmulAux 16 (2 ^ i) b := clmul_eq_fuel16 _ (by omega)
  rw [barret_gfmul, h16]
  exact xorFunExt (fun x => barret_reduce (clmulAux 16 (2 ^ i) x))
    (fun x => gfmulNat (2 ^ i) x)
    (by simp only [clmulAux_zero_right, barret_reduce_zero])
    (gfmulNat_zero_right _)
    (fun x y => by simp only [clmulAux_xor_right, barret_reduce_xor])
    (fun x y => gfmulNat_xor_right _ x y)
    8 (fun j hj => barret_basis i hi j hj) b (by norm_num; omega)

theorem barret_eq_naive : ∀ a < 256, ∀ b < 256, barret_gfmul a b = gfmulNat a b := by
  intro a ha b hb
  have h := xorFunExt (fun x => barret_reduce (clmulAux b x b))
    (fun x => gfmulNat x b)
    (by simp only [clmulAux_zero_left, barret_reduce_zero])
    (gfmulNat_zero_left _)
    (fun x y => by simp only [clmulAux_xor_left, barret_reduce_xor])
    (fun x y => gfmulNat_xor_left x y _)
    8 (fun i hi => barret_lv1 hi b hb) a (by norm_num; omega)
  exact h

/-- Claim C4: the naive bit-serial multiplication, the log/antilog table
multiplication, and the Barrett-reduction multiplication agree on every pair
of GF(2^8) field elements. -/
theorem gfmul_strategies_agree (a b : gf256) :
    table_gfmul a.val b.val = naive_gfmul a.val b.val ∧
    barret_gfmul a.val b.val = naive_gfmul a.val b.val := by
  constructor
  · rw [table_gfmul_eq, naive_gfmul, gf256.mul_val]
  · rw [barret_eq_naive a.val a.isLt b.val b.isLt, naive_gfmul]

/-- Claim C8: in GF(2^8) with POLYNOMIAL = 0x11d and GENERATOR = 0x02, field
multiplication satisfies mul(0xcc, 0x02) = 0x85 and mul(0xcc, 0x06) = 0x92. -/
theorem gf256_mul_concrete :
    (gf256.mk 0xcc (by norm_num) * gf256.mk 0x02 (by norm_num)).val = 0x85 ∧
    (gf256.mk 0xcc (by norm_num) * gf256.mk 0x06 (by norm_num)).val = 0x92 := by decide

/-- Claim C5: over GF(2^p) with a valid primitive GENERATOR -- validity
stated as: multiplication by G has a right inverse H on the 2^p-element
domain, keeps the domain closed, and no proper power of G below 2^p - 1
returns to 1 -- the sequence of powers G^0, G^1, ..., G^(2^p - 2), produced
by repeatedly multiplying a running accumulator by G for 2^p - 1 steps,
contains every non-zero field element exactly once. -/
theorem generator_powers_visit_all_nonzero
    (p P G H : Nat) (hp : 0 < 2 ^ p - 1)
    (hinvH : ∀ a < 2 ^ p, gfmulNatP p P (gfmulNatP p P a G) H = a)
    (hclosed : ∀ a < 2 ^ p, gfmulNatP p P a G < 2 ^ p)
    (hord : ((powListP p P G (2 ^ p - 1)).drop 1).all (fun x => x != 1) = true) :
    ∀ y, 0 < y → y < 2 ^ p → (powListP p P G (2 ^ p - 1)).count y = 1 :=
  powListP_count_eq_one p P G H hp hinvH hclosed hord

set_option maxRecDepth 100000 in
set_option maxHeartbeats 1600000 in
/-- Witness for C5 at the source's field GF(2^8), polynomial 0x11d and
generator 2: the element 0xcc appears exactly once among the 255 generator
powers. -/
theorem generator_powers_visit_all_nonzero_witness :
    (powListP 8 0x11d 2 (2 ^ 8 - 1)).count 0xcc = 1 :=
  generator_powers_visit_all_nonzero 8 0x11d 2 0x8e (by norm_num) (by decide) (by decide)
    (by decide) 0xcc (by norm_num) (by norm_num)

/-- Claim C10: a gf256 element multiplied by the generator is zero exactly
when the element is zero; consequently the LFSR state update keeps non-zero
states non-zero forever, and a zero state yields zero forever. -/
theorem mul_generator_zero_iff (a : gf256) :
    (a * gf256.GENERATOR = 0 ↔ a = 0) ∧
    (a ≠ 0 → ∀ k, (fun x => x * gf256.GENERATOR)^[k] a ≠ 0) ∧
    (a = 0 → ∀ k, (fun x => x * gf256.GENERATOR)^[k] a = 0) := by
  have hG : gf256.GENERATOR ≠ 0 := by decide
  have hiff : ∀ x : gf256, x * gf256.GENERATOR = 0 ↔ x = 0 := by
    intro x
    constructor
    · intro h
      rcases mul_eq_zero.mp h with h | h
      · exact h
      · exact absurd h hG
    · intro h
      rw [h, zero_mul]
  refine ⟨hiff a, ?_, ?_⟩
  · intro ha k
    induction k with
    | zero => simpa using ha
    | succ k ih =>
      rw [Function.iterate_succ_apply']
      intro h
      exact ih ((hiff _).mp h)
  · intro ha k
    induction k with
    | zero => simpa using ha
    | succ k ih =>
      rw [Function.iterate_succ_apply', ih, zero_mul]

/-- Witness for C10: iterating the generator update three times from the
non-zero state 5 stays non-zero. -/
theorem mul_generator_zero_iff_witness :
    (fun x => x * gf256.GENERATOR)^[3] (gf256.mk 5 (by norm_num)) ≠ 0 :=
  (mul_generator_zero_iff (gf256.mk 5 (by norm_num))).2.1 (by decide) 3

/-- Modelled from the spec: polynomial evaluation by Horner's rule (spec 4.2),
coefficients in descending degree order (buffer position 0 is the highest
degree, spec 4.3.2 orientation). -/
def polyEvalD (l : List gf256) (x : gf256) : gf256 :=
  l.foldl (fun acc c => acc * x + c) 0

/-- Modelled from the spec: scale a polynomial by a field scalar (spec 4.2). -/
def scaleD (c : gf256) (q : List gf256) : List gf256 := q.map (fun a => c * a)

/-- Modelled from the spec: polynomial addition, coefficients xored pairwise
(spec 4.2); descending order, so the shorter operand is aligned at the low
end. -/
def polyAddD (a b : List gf256) : List gf256 :=
  let n := max a.length b.length
  List.zipWith (fun x y => x + y) (List.replicate (n - a.length) 0 ++ a)
    (List.replicate (n - b.length) 0 ++ b)

/-- Modelled from the spec: schoolbook polynomial multiplication (spec 4.2),
descending order, Horner-style accumulation. -/
def polyMulD (p q : List gf256) : List gf256 :=
  p.foldl (fun acc c => polyAddD (acc ++ [0]) (scaleD c q)) []

/-- Modelled from the spec: the generator polynomial with roots
G^0 ... G^(ECC-1) (spec 4.3.1), expanded in descending order; in
characteristic 2 the factor (x - G^i) is the coefficient list [1, G^i]. -/
def GENERATOR_POLY (ecc : Nat) : List gf256 :=
  (List.range ecc).foldl (fun g i => polyMulD g [1, gf256.GENERATOR ^ i]) [1]

/-- Modelled from the spec: polynomial long division returning quotient and
remainder (spec 4.2), descending order, with a fuel argument bounding the
number of division steps (one per dividend degree). -/
def polyDivModD : Nat → List gf256 → List gf256 → List gf256 × List gf256
  | 0, p, _ => ([], p)
  | f+1, p, g =>
    if p.length < g.length then ([], p)
    else
      match p with
      | [] => ([], [])
      | c0 :: rest =>
        let c := c0 * (g.headD 1)⁻¹
        let sub := scaleD c (g.tail) ++ List.replicate (p.length - g.length) 0
        let r := List.zipWith (fun x y => x + y) rest sub
        let qr := polyDivModD f r g
        (c :: qr.1, qr.2)

/-- Modelled from the spec: divide with enough fuel for every step. -/
def polyDivMod (p g : List gf256) : List gf256 × List gf256 :=
  polyDivModD p.length p g

/-- Modelled from the spec: the remainder of polynomial long division. -/
def polyModD (p g : List gf256) : List gf256 := (polyDivMod p g).2

/-- Modelled from the spec: systematic encoding (spec 4.3.2): the first
n - ECC buffer positions are the message; the remainder of M(x) x^ECC by the
generator polynomial is written into the trailing ECC positions. -/
def encode (ecc : Nat) (buf : List gf256) : List gf256 :=
  let msg := buf.take (buf.length - ecc)
  let r := polyModD (msg ++ List.replicate ecc 0) (GENERATOR_POLY ecc)
  msg ++ (List.replicate (ecc - r.length) 0 ++ r)

/-- Modelled from the spec: the ECC syndromes S_i = C(G^i) for i < ECC
(spec 4.3.3), where C is the received buffer read as a descending-order
polynomial (leading zeros of a shortened buffer do not affect the values). -/
def syndromes (ecc : Nat) (buf : List gf256) : List gf256 :=
  (List.range ecc).map (fun i => polyEvalD buf (gf256.GENERATOR ^ i))

/-- Modelled from the spec: a buffer is correct iff all syndromes vanish
(spec 4.3.3). -/
def is_correct (ecc : Nat) (buf : List gf256) : Bool :=
  (syndromes ecc buf).all (fun s => decide (s = 0))

/-- Failure conditions of the codec (spec 4.3.8). -/
inductive RsError
  | TooManyErasures
  | TooManyErrors
  | InconsistentResult
deriving DecidableEq

/-- Modelled from the spec: evaluation of an ascending-order polynomial
(spec 4.3.4 uses S(x) = sum of S_i x^i, ascending). -/
def polyEvalA (l : List gf256) (x : gf256) : gf256 :=
  l.foldr (fun c acc => c + acc * x) 0

/-- Modelled from the spec: addition of ascending-order polynomials. -/
def polyAddA (a b : List gf256) : List gf256 :=
  let n := max a.length b.length
  List.zipWith (fun x y => x + y) (a ++ List.replicate (n - a.length) 0)
    (b ++ List.replicate (n - b.length) 0)

/-- Modelled from the spec: multiplication of ascending-order polynomials. -/
def polyMulA : List gf256 → List gf256 → List gf256
  | [], _ => []
  | c :: rest, q => polyAddA (scaleD c q) (0 :: polyMulA rest q)

/-- Modelled from the spec: the formal derivative in characteristic 2
(spec 4.2): coefficient i of the derivative is coefficient i+1 of the input
when i+1 is odd, and 0 otherwise. -/
def derivA (l : List gf256) : List gf256 :=
  (l.drop 1).enum.map (fun ic => if ic.1 % 2 = 0 then ic.2 else 0)

/-- Modelled from the spec: the erasure locator (spec 4.3.4); ascending order,
one factor (1 - X_j x) = [1, X_j] per erasure position, X_j = G^(n-1-j). -/
def erasureLocator (n : Nat) (E : List Nat) : List gf256 :=
  E.foldl (fun lam j => polyMulA lam [1, gf256.GENERATOR ^ (n - 1 - j)]) [1]

/-- Modelled from the spec: Forney magnitudes applied at the root indices
(spec 4.3.4 step 4 and 4.3.5 step 6): for a root index i, the buffer position
is j = n-1-i with X = G^i, and Y = X * Omega(X^-1) / LamDeriv(X^-1) is xored
into position j.  The factor X in the magnitude is forced by the spec's own
syndrome convention S_i = C(G^i) starting at i = 0 and by its test vectors
(section 8, scenarios 2-4); the bare ratio formula printed in 4.3.4 fails
those vectors. -/
def forneyApply (ecc n : Nat) (S lam : List gf256) (roots : List Nat)
    (buf : List gf256) : List gf256 :=
  let omega := (polyMulA S lam).take ecc
  let lamP := derivA lam
  roots.foldl (fun b i =>
    let j := n - 1 - i
    let X := gf256.GENERATOR ^ i
    let Y := polyEvalA omega X⁻¹ * (polyEvalA lamP X⁻¹)⁻¹ * X
    b.set j (b.getD j 0 + Y)) buf

/-- Modelled from the spec: erasure correction (spec 4.3.4): reject more than
ECC positions, compute syndromes, build the erasure locator, apply Forney
magnitudes at every given position, and fail if the recomputed syndromes are
not all zero; on success return the number of corrections applied and the
corrected buffer (the source mutates the buffer in place). -/
def correct_erasures (ecc : Nat) (buf : List gf256) (E : List Nat) :
    Except RsError (Nat × List gf256) :=
  if E.length > ecc then Except.error RsError.TooManyErasures
  else
    let n := buf.length
    let S := syndromes ecc buf
    let lam := erasureLocator n E
    let buf2 := forneyApply ecc n S lam (E.map (fun j => n - 1 - j)) buf
    if is_correct ecc buf2 then Except.ok (E.length, buf2)
    else Except.error RsError.InconsistentResult

/-- Modelled from the spec: one Berlekamp-Massey step (spec 4.3.5 step 3).
State is (L, Lam, B); the discrepancy sums Lam_k S_(i-k) over k up to L. -/
def bmStep (S : List gf256) (st : Nat × List gf256 × List gf256) (i : Nat) :
    Nat × List gf256 × List gf256 :=
  let L := st.1
  let lam := st.2.1
  let B := st.2.2
  let d := (List.range (L + 1)).foldl
    (fun acc k => acc + (if k ≤ i then lam.getD k 0 * S.getD (i - k) 0 else 0)) 0
  if d = 0 then (L, lam, 0 :: B)
  else
    let lam2 := polyAddA lam (scaleD d (0 :: B))
    if 2 * L ≤ i then (i + 1 - L, lam2, scaleD d⁻¹ lam)
    else (L, lam2, 0 :: B)

/-- Modelled from the spec: Berlekamp-Massey synthesis of the error locator
over the ECC syndromes (spec 4.3.5 step 3); returns the claimed error count
L and the locator. -/
def bm (ecc : Nat) (S : List gf256) : Nat × List gf256 :=
  let st := (List.range ecc).foldl (bmStep S) (0, [1], [1])
  (st.1, st.2.1)

/-- Modelled from the spec: Chien search (spec 4.3.5 step 5): the root
indices i in [0, n) with Lam(G^-i) = 0, each naming the buffer position
n-1-i. -/
def chienRoots (n : Nat) (lam : List gf256) : List Nat :=
  (List.range n).filter (fun i => decide (polyEvalA lam (gf256.GENERATOR ^ i)⁻¹ = 0))

/-- Modelled from the spec: error correction with unknown positions
(spec 4.3.5): if all syndromes vanish return 0; otherwise run
Berlekamp-Massey, reject a claimed error count above ECC/2, run the Chien
search and reject a root count different from the claimed count, apply
Forney magnitudes, and fail unless the recomputed syndromes all vanish. -/
def correct_errors (ecc : Nat) (buf : List gf256) :
    Except RsError (Nat × List gf256) :=
  let S := syndromes ecc buf
  if S.all (fun s => decide (s = 0)) then Except.ok (0, buf)
  else
    let e := (bm ecc S).1
    let lam := (bm ecc S).2
    if e > ecc / 2 then Except.error RsError.TooManyErrors
    else
      let roots := chienRoots buf.length lam
      if roots.length ≠ e then Except.error RsError.TooManyErrors
      else
        let buf2 := forneyApply ecc buf.length S lam roots buf
        if is_correct ecc buf2 then Except.ok (e, buf2)
        else Except.error RsError.InconsistentResult

theorem polyAddD_length (a b : List gf256) :
    (polyAddD a b).length = max a.length b.length := by
  unfold polyAddD
  rw [List.length_zipWith, List.length_append, List.length_append,
    List.length_replicate, List.length_replicate]
  omega

theorem polyMulD_foldl_length (q : List gf256) (hq : q.length ≤ 2) :
    ∀ (p acc : List gf256), 1 ≤ acc.length →
      (p.foldl (fun acc c => polyAddD (acc ++ [0]) (scaleD c q)) acc).length =
        acc.length + p.length := by
  intro p
  induction p with
  | nil =>
    intro acc _
    simp
  | cons c rest ih =>
    intro acc hacc
    rw [List.foldl_cons]
    have hstep : (polyAddD (acc ++ [0]) (scaleD c q)).length = acc.length + 1 := by
      rw [polyAddD_length, List.length_append]
      have hs : (scaleD c q).length = q.length := List.length_map ..
      rw [hs]
      simp
      omega
    rw [ih _ (by omega), hstep, List.length_cons]
    omega

theorem polyMulD_binom_length (p : List gf256) (c : gf256) (hp : 1 ≤ p.length) :
    (polyMulD p [1, c]).length = p.length + 1 := by
  match p, hp with
  | c0 :: rest, _ =>
    unfold polyMulD
    have h0 : (polyAddD ([] ++ [0]) (scaleD c0 [1, c])).length = 2 := by
      rw [polyAddD_length]
      have hs : (scaleD c0 [1, c]).length = 2 := by simp [scaleD]
      rw [hs]
      simp
    have hfold := polyMulD_foldl_length [1, c] (by norm_num) rest
      (polyAddD ([] ++ [0]) (scaleD c0 [1, c])) (by rw [h0]; norm_num)
    rw [List.foldl_cons, hfold, h0, List.length_cons]
    omega

theorem GENERATOR_POLY_length (ecc : Nat) : (GENERATOR_POLY ecc).length = ecc + 1 := by
  induction ecc with
  | zero => rfl
  | succ e ih =>
    unfold GENERATOR_POLY at ih ⊢
    rw [List.range_succ, List.foldl_append, List.foldl_cons, List.foldl_nil]
    rw [polyMulD_binom_length _ _ (by rw [ih]; omega), ih]

theorem polyDivModD_snd_length :
    ∀ (f : Nat) (p g : List gf256), p.length ≤ f → 1 ≤ g.length →
      ((polyDivModD f p g).2).length < g.length := by
  intro f
  induction f with
  | zero =>
    intro p g hp hg
    show p.length < g.length
    omega
  | succ f ih =>
    intro p g hp hg
    unfold polyDivModD
    by_cases hlt : p.length < g.length
    · rw [if_pos hlt]
      exact hlt
    · rw [if_neg hlt]
      match p, hp, hlt with
      | [], hp, hlt => exact absurd (by simpa using hg) hlt
      | c0 :: rest, hp, hlt =>
        have hr : (List.zipWith (fun x y => x + y) rest
            (scaleD (c0 * (g.headD 1)⁻¹) g.tail ++
              List.replicate ((c0 :: rest).length - g.length) 0)).length =
            rest.length := by
          rw [List.length_zipWith, List.length_append, List.length_replicate]
          have hs : (scaleD (c0 * (g.headD 1)⁻¹) g.tail).length = g.length - 1 := by
            rw [scaleD, List.length_map, List.length_tail]
          rw [hs, List.length_cons]
          simp at hlt
          omega
        have := ih _ g (by rw [hr]; simp at hp; omega) hg
        simpa using this

theorem encode_parity_length (ecc : Nat) (buf : List gf256) :
    (List.replicate (ecc - (polyModD (buf.take (buf.length - ecc) ++
        List.replicate ecc 0) (GENERATOR_POLY ecc)).length) 0 ++
      polyModD (buf.take (buf.length - ecc) ++ List.replicate ecc 0)
        (GENERATOR_POLY ecc)).length = ecc := by
  have hrem : (polyModD (buf.take (buf.length - ecc) ++ List.replicate ecc 0)
      (GENERATOR_POLY ecc)).length < ecc + 1 := by
    have h := polyDivModD_snd_length
      (buf.take (buf.length - ecc) ++ List.replicate ecc 0).length
      (buf.take (buf.length - ecc) ++ List.replicate ecc 0)
      (GENERATOR_POLY ecc) le_rfl (by rw [GENERATOR_POLY_length]; omega)
    rw [GENERATOR_POLY_length] at h
    exact h
  rw [List.length_append, List.length_replicate]
  omega

/-- Claim C9: for a buffer with more than ECC symbols, encode keeps the
length, leaves the first length - ECC message symbols unchanged, and (being a
total function) signals no error; only the trailing ECC positions are
rewritten. -/
theorem encode_mutates_only_parity (ecc : Nat) (buf : List gf256)
    (h : ecc < buf.length) :
    (encode ecc buf).length = buf.length ∧
    (encode ecc buf).take (buf.length - ecc) = buf.take (buf.length - ecc) := by
  have hmsg : (buf.take (buf.length - ecc)).length = buf.length - ecc := by
    rw [List.length_take]
    omega
  constructor
  · rw [encode, List.length_append, hmsg, encode_parity_length]
    omega
  · rw [encode]
    exact List.take_left' hmsg

/-- Witness for C9 at the rs26w16 instance: a 26-symbol buffer keeps its
first 16 symbols under encoding. -/
theorem encode_mutates_only_parity_witness :
    ((encode 10 (List.replicate 26 (gf256.mk 7 (by norm_num)))).length = 26 ∧
      (encode 10 (List.replicate 26 (gf256.mk 7 (by norm_num)))).take 16 =
        (List.replicate 26 (gf256.mk 7 (by norm_num))).take 16) := by
  have h := encode_mutates_only_parity 10
    (List.replicate 26 (gf256.mk 7 (by norm_num))) (by simp)
  simpa using h

theorem getD_zero_of_all_zero (S : List gf256) (h : ∀ s ∈ S, s = 0) :
    ∀ i, S.getD i 0 = 0 := by
  induction S with
  | nil => intro i; rfl
  | cons s rest ih =>
    intro i
    cases i with
    | zero => exact h s (List.mem_cons_self ..)
    | succ i =>
      rw [List.getD_cons_succ]
      exact ih (fun x hx => h x (List.mem_cons_of_mem _ hx)) i

theorem bmStep_zero (S : List gf256) (h : ∀ s ∈ S, s = 0) (B : List gf256) (i : Nat) :
    bmStep S (0, [1], B) i = (0, [1], 0 :: B) := by
  have hr : List.range 1 = [0] := rfl
  have hS : ∀ j : Nat, (S[j]? : Option gf256).getD 0 = 0 := by
    intro j
    rw [← List.getD_eq_getElem?_getD]
    exact getD_zero_of_all_zero S h j
  simp [bmStep, hr, hS, Nat.zero_le]

theorem bm_zero (ecc : Nat) (S : List gf256) (h : ∀ s ∈ S, s = 0) :
    bm ecc S = (0, [1]) := by
  have key : ∀ (l : List Nat) (B : List gf256),
      ∃ B2, l.foldl (bmStep S) (0, [1], B) = (0, [1], B2) := by
    intro l
    induction l with
    | nil => intro B; exact ⟨B, rfl⟩
    | cons i rest ih =>
      intro B
      rw [List.foldl_cons, bmStep_zero S h]
      exact ih (0 :: B)
  obtain ⟨B2, hB2⟩ := key (List.range ecc) [1]
  rw [bm, hB2]

theorem chien_one (n : Nat) : chienRoots n [1] = [] := by
  rw [chienRoots, List.filter_eq_nil_iff]
  intro i _
  simp [polyEvalA]

set_option maxHeartbeats 800000 in
/-- Claim C7: correct_errors never returns Ok when the Berlekamp-Massey step
yields a claimed error count above ECC/2, or the Chien search finds a root
count different from that claimed count, or the post-correction syndromes are
not all zero. -/
theorem correct_errors_never_ok_on_failure (ecc : Nat) (buf : List gf256)
    (h : (bm ecc (syndromes ecc buf)).1 > ecc / 2 ∨
      (chienRoots buf.length (bm ecc (syndromes ecc buf)).2).length ≠
        (bm ecc (syndromes ecc buf)).1 ∨
      is_correct ecc (forneyApply ecc buf.length (syndromes ecc buf)
        (bm ecc (syndromes ecc buf)).2
        (chienRoots buf.length (bm ecc (syndromes ecc buf)).2) buf) = false) :
    (correct_errors ecc buf).isOk = false := by
  by_cases hz : ((syndromes ecc buf).all fun s => decide (s = 0)) = true
  · exfalso
    have hall : ∀ s ∈ syndromes ecc buf, s = 0 := by
      intro s hs
      have := List.all_eq_true.mp hz s hs
      simpa using this
    have hbm : bm ecc (syndromes ecc buf) = (0, [1]) := bm_zero _ _ hall
    rcases h with h | h | h
    · rw [hbm] at h
      simp at h
    · rw [hbm] at h
      simp [chien_one] at h
    · rw [hbm] at h
      simp only [] at h
      rw [chien_one] at h
      have hfa : forneyApply ecc buf.length (syndromes ecc buf) [1] [] buf = buf := rfl
      rw [hfa, is_correct, hz] at h
      simp at h
  · simp only [correct_errors]
    rw [if_neg hz]
    by_cases h1 : (bm ecc (syndromes ecc buf)).1 > ecc / 2
    · rw [if_pos h1]
      rfl
    · rw [if_neg h1]
      by_cases h2 : (chienRoots buf.length (bm ecc (syndromes ecc buf)).2).length ≠
          (bm ecc (syndromes ecc buf)).1
      · rw [if_pos h2]
        rfl
      · rw [if_neg h2]
        by_cases h3 : is_correct ecc (forneyApply ecc buf.length (syndromes ecc buf)
            (bm ecc (syndromes ecc buf)).2
            (chienRoots buf.length (bm ecc (syndromes ecc buf)).2) buf) = true
        · exfalso
          rcases h with h | h | h
          · exact h1 h
          · exact h2 h
          · simp [h] at h3
        · rw [if_neg h3]
          rfl

set_option maxRecDepth 40000 in
/-- Witness for C7 at a tiny instance (ECC = 2, a corrupted 3-symbol
codeword): two errors make Berlekamp-Massey claim e = 2 above ECC/2 = 1, and
correct_errors returns a failure. -/
theorem correct_errors_never_ok_on_failure_witness :
    (correct_errors 2 [gf256.mk 4 (by norm_num), gf256.mk 14 (by norm_num),
      gf256.mk 10 (by norm_num)]).isOk = false :=
  correct_errors_never_ok_on_failure 2 _ (Or.inl (by decide))

theorem gf256.add_self (a : gf256) : a + a = 0 := by
  apply gf256.extv
  rw [gf256.add_val, gf256.zero_val]
  exact Nat.xor_self _

theorem gf256.two_eq_zero : (2 : gf256) = 0 := by
  rw [← one_add_one_eq_two]
  exact gf256.add_self 1

theorem polyEvalD_nil (x : gf256) : polyEvalD [] x = 0 := rfl

theorem polyEvalD_foldl (l : List gf256) (x acc : gf256) :
    l.foldl (fun acc c => acc * x + c) acc = acc * x ^ l.length + polyEvalD l x := by
  induction l generalizing acc with
  | nil => simp [polyEvalD]
  | cons c l ih =>
    have h2 : polyEvalD (c :: l) x = (0 * x + c) * x ^ l.length + polyEvalD l x := by
      rw [polyEvalD, List.foldl_cons]
      exact ih _
    rw [List.foldl_cons, ih _, h2, List.length_cons]
    ring

theorem polyEvalD_cons (c : gf256) (l : List gf256) (x : gf256) :
    polyEvalD (c :: l) x = c * x ^ l.length + polyEvalD l x := by
  rw [polyEvalD, List.foldl_cons, polyEvalD_foldl]
  ring

theorem polyEvalD_append (a b : List gf256) (x : gf256) :
    polyEvalD (a ++ b) x = polyEvalD a x * x ^ b.length + polyEvalD b x := by
  rw [polyEvalD, List.foldl_append, polyEvalD_foldl]
  rfl

theorem polyEvalD_replicate_zero (k : Nat) (x : gf256) :
    polyEvalD (List.replicate k 0) x = 0 := by
  induction k with
  | zero => rfl
  | succ k ih =>
    rw [List.replicate_succ, polyEvalD_cons, ih]
    ring

theorem polyEvalD_scaleD (c : gf256) (q : List gf256) (x : gf256) :
    polyEvalD (scaleD c q) x = c * polyEvalD q x := by
  induction q with
  | nil =>
    rw [scaleD, List.map_nil, polyEvalD_nil, mul_zero]
  | cons a q ih =>
    simp only [scaleD, List.map_cons] at ih ⊢
    rw [polyEvalD_cons, polyEvalD_cons, ih, List.length_map]
    ring

theorem polyEvalD_zipAdd :
    ∀ (a b : List gf256), a.length = b.length → ∀ x : gf256,
      polyEvalD (List.zipWith (fun u v => u + v) a b) x =
        polyEvalD a x + polyEvalD b x := by
  intro a
  induction a with
  | nil =>
    intro b hb x
    have hb0 : b = [] := List.eq_nil_of_length_eq_zero hb.symm
    subst hb0
    show polyEvalD [] x = polyEvalD [] x + polyEvalD [] x
    rw [polyEvalD_nil, add_zero]
  | cons u a ih =>
    intro b hb x
    cases b with
    | nil => simp at hb
    | cons v b =>
      simp only [List.length_cons] at hb
      simp only [List.zipWith_cons_cons]
      rw [polyEvalD_cons, polyEvalD_cons, polyEvalD_cons]
      have hlen : (List.zipWith (fun u v => u + v) a b).length = a.length := by
        rw [List.length_zipWith]
        omega
      rw [hlen, ih b (by omega) x]
      have hab : b.length = a.length := by omega
      rw [hab]
      ring

theorem polyEvalD_polyAddD (a b : List gf256) (x : gf256) :
    polyEvalD (polyAddD a b) x = polyEvalD a x + polyEvalD b x := by
  simp only [polyAddD]
  rw [polyEvalD_zipAdd _ _ (by
    rw [List.length_append, List.length_append, List.length_replicate,
      List.length_replicate]
    omega) x]
  rw [polyEvalD_append, polyEvalD_append, polyEvalD_replicate_zero,
    polyEvalD_replicate_zero]
  ring

theorem polyMulD_foldl_eval (q : List gf256) (x : gf256) :
    ∀ (p acc : List gf256),
      polyEvalD (p.foldl (fun acc c => polyAddD (acc ++ [0]) (scaleD c q)) acc) x =
        polyEvalD acc x * x ^ p.length + polyEvalD p x * polyEvalD q x := by
  intro p
  induction p with
  | nil =>
    intro acc
    rw [List.foldl_nil, List.length_nil, polyEvalD_nil]
    ring
  | cons c p ih =>
    intro acc
    have h1 : polyEvalD [(0 : gf256)] x = 0 := by
      rw [polyEvalD_cons, polyEvalD_nil, List.length_nil]
      ring
    rw [List.foldl_cons, ih, polyEvalD_polyAddD, polyEvalD_append, h1,
      polyEvalD_scaleD, polyEvalD_cons]
    simp only [List.length_cons, List.length_nil]
    ring

theorem polyEvalD_polyMulD (p q : List gf256) (x : gf256) :
    polyEvalD (polyMulD p q) x = polyEvalD p x * polyEvalD q x := by
  rw [polyMulD, polyMulD_foldl_eval, polyEvalD_nil]
  ring

theorem GENERATOR_POLY_succ (e : Nat) :
    GENERATOR_POLY (e + 1) =
      polyMulD (GENERATOR_POLY e) [1, gf256.GENERATOR ^ e] := by
  rw [GENERATOR_POLY, GENERATOR_POLY, List.range_succ, List.foldl_append,
    List.foldl_cons, List.foldl_nil]

theorem polyAddD_long_left (a b : List gf256) (h : b.length ≤ a.length) :
    polyAddD a b = List.zipWith (fun u v => u + v) a
      (List.replicate (a.length - b.length) 0 ++ b) := by
  simp only [polyAddD]
  rw [Nat.max_eq_left h, Nat.sub_self, List.replicate_zero, List.nil_append]

theorem polyAddD_monic_step (b : gf256) (a : List gf256) (c : gf256)
    (ha : 1 ≤ a.length) :
    ∃ a3 : List gf256, polyAddD ((1 :: a) ++ [0]) (scaleD c [1, b]) = 1 :: a3 ∧
      1 ≤ a3.length := by
  obtain ⟨k, hk⟩ : ∃ k, a.length = k + 1 := ⟨a.length - 1, by omega⟩
  have hs : scaleD c [1, b] = [c, c * b] := by
    simp [scaleD]
  have hlen : (scaleD c [1, b]).length ≤ ((1 :: a) ++ [0]).length := by
    rw [hs]
    simp only [List.length_cons, List.length_append, List.length_nil]
    omega
  rw [polyAddD_long_left _ _ hlen, hs]
  have hL : ((1 :: a) ++ [0]).length - ([c, c * b] : List gf256).length = k + 1 := by
    simp only [List.length_cons, List.length_append, List.length_nil]
    omega
  rw [hL, List.replicate_succ, List.cons_append, List.cons_append]
  simp only [List.zipWith_cons_cons, add_zero]
  refine ⟨_, rfl, ?_⟩
  rw [List.length_zipWith, List.length_append, List.length_append,
    List.length_replicate]
  simp only [List.length_cons, List.length_nil]
  omega

theorem polyMulD_monic_fold (b : gf256) :
    ∀ (t a : List gf256), 1 ≤ a.length →
      ∃ a2, t.foldl (fun acc c => polyAddD (acc ++ [0]) (scaleD c [1, b]))
          (1 :: a) = 1 :: a2 ∧ 1 ≤ a2.length := by
  intro t
  induction t with
  | nil => exact fun a ha => ⟨a, rfl, ha⟩
  | cons c t ih =>
    intro a ha
    rw [List.foldl_cons]
    obtain ⟨a3, h3, h3len⟩ := polyAddD_monic_step b a c ha
    rw [h3]
    exact ih a3 h3len

theorem polyMulD_monic (t : List gf256) (b : gf256) :
    ∃ t2, polyMulD (1 :: t) [1, b] = 1 :: t2 := by
  rw [polyMulD, List.foldl_cons]
  have h1 : polyAddD (([] : List gf256) ++ [0]) (scaleD 1 [1, b]) = [1, b] := by
    simp [polyAddD, scaleD]
  rw [h1]
  obtain ⟨a2, h2, _⟩ := polyMulD_monic_fold b t [b] (by simp)
  exact ⟨a2, h2⟩

theorem GENERATOR_POLY_monic (ecc : Nat) :
    ∃ t : List gf256, GENERATOR_POLY ecc = 1 :: t := by
  induction ecc with
  | zero => exact ⟨[], rfl⟩
  | succ e ih =>
    obtain ⟨t, ht⟩ := ih
    rw [GENERATOR_POLY_succ, ht]
    exact polyMulD_monic t _

theorem GENERATOR_POLY_root (ecc i : Nat) (h : i < ecc) :
    polyEvalD (GENERATOR_POLY ecc) (gf256.GENERATOR ^ i) = 0 := by
  induction ecc with
  | zero => omega
  | succ e ih =>
    rw [GENERATOR_POLY_succ, polyEvalD_polyMulD]
    by_cases hie : i = e
    · subst hie
      have hfac : polyEvalD [1, gf256.GENERATOR ^ i] (gf256.GENERATOR ^ i) = 0 := by
        rw [polyEvalD_cons, polyEvalD_cons, polyEvalD_nil, List.length_nil,
          List.length_singleton]
        rw [pow_zero, pow_one, one_mul, mul_one, add_zero]
        exact gf256.add_self _
      rw [hfac, mul_zero]
    · rw [ih (by omega), zero_mul]

theorem char2_div_key (A T Q R c0 X1 X2 : gf256)
    (h : A + c0 * T * X1 = Q * (X2 + T) + R) :
    c0 * (X1 * X2) + A = (c0 * X1 + Q) * (X2 + T) + R := by
  linear_combination h - c0 * T * X1 * gf256.two_eq_zero

theorem polyDivModD_eval (t : List gf256) :
    ∀ (f : Nat) (p : List gf256), p.length < f + (1 :: t).length →
      (polyDivModD f p ((1 : gf256) :: t)).1.length = p.length - t.length ∧
      ∀ x : gf256, polyEvalD p x =
        polyEvalD (polyDivModD f p ((1 : gf256) :: t)).1 x *
          polyEvalD ((1 : gf256) :: t) x +
        polyEvalD (polyDivModD f p ((1 : gf256) :: t)).2 x := by
  intro f
  induction f with
  | zero =>
    intro p hp
    simp only [List.length_cons] at hp
    constructor
    · show ([] : List gf256).length = p.length - t.length
      simp only [List.length_nil]
      omega
    · intro x
      show polyEvalD p x = polyEvalD [] x * polyEvalD ((1 : gf256) :: t) x +
        polyEvalD p x
      rw [polyEvalD_nil, zero_mul, zero_add]
  | succ f ih =>
    intro p hp
    by_cases hlt : p.length < ((1 : gf256) :: t).length
    · have heq0 : polyDivModD (f + 1) p ((1 : gf256) :: t) = ([], p) := by
        unfold polyDivModD
        rw [if_pos hlt]
      rw [heq0]
      constructor
      · show ([] : List gf256).length = p.length - t.length
        simp only [List.length_cons] at hlt
        simp only [List.length_nil]
        omega
      · intro x
        show polyEvalD p x = polyEvalD [] x * polyEvalD ((1 : gf256) :: t) x +
          polyEvalD p x
        rw [polyEvalD_nil, zero_mul, zero_add]
    · match p, hp, hlt with
      | [], hp, hlt => exact absurd (by simp) hlt
      | c0 :: rest, hp, hlt =>
        have htle : t.length ≤ rest.length := by
          simp only [List.length_cons] at hlt
          omega
        set c : gf256 := c0 * ((((1 : gf256) :: t).headD 1)⁻¹) with hcdef
        set sub : List gf256 := scaleD c (((1 : gf256) :: t).tail) ++
          List.replicate ((c0 :: rest).length - ((1 : gf256) :: t).length) 0
          with hsubdef
        set r : List gf256 := List.zipWith (fun u v => u + v) rest sub with hrdef
        have heq : polyDivModD (f + 1) (c0 :: rest) ((1 : gf256) :: t) =
            (c :: (polyDivModD f r ((1 : gf256) :: t)).1,
              (polyDivModD f r ((1 : gf256) :: t)).2) := by
          rw [hrdef, hsubdef, hcdef]
          conv_lhs => rw [polyDivModD]
          rw [if_neg hlt]
        have hc0 : c = c0 := by
          rw [hcdef]
          simp only [List.headD_cons]
          rw [inv_one, mul_one]
        have lsub : sub.length = rest.length := by
          rw [hsubdef]
          simp only [List.tail_cons, List.length_append, List.length_replicate,
            scaleD, List.length_map, List.length_cons]
          omega
        have hrlen : r.length = rest.length := by
          rw [hrdef, List.length_zipWith, lsub]
          exact Nat.min_self _
        obtain ⟨hqlen, hev⟩ := ih r (by
          rw [hrlen]
          simp only [List.length_cons] at hp ⊢
          omega)
        constructor
        · rw [heq]
          simp only [List.length_cons]
          rw [hqlen, hrlen]
          omega
        · intro x
          rw [heq]
          have hsublen : (c0 :: rest).length - ((1 : gf256) :: t).length =
              rest.length - t.length := by
            simp only [List.length_cons]
            omega
          have hr_eval : polyEvalD r x = polyEvalD rest x +
              c0 * polyEvalD t x * x ^ (rest.length - t.length) := by
            rw [hrdef, polyEvalD_zipAdd rest sub lsub.symm x, hsubdef,
              polyEvalD_append, polyEvalD_replicate_zero, List.length_replicate,
              hsublen]
            simp only [List.tail_cons]
            rw [polyEvalD_scaleD, hc0]
            ring
          have hexp : rest.length - t.length + t.length = rest.length := by
            omega
          have hsplit : x ^ rest.length =
              x ^ (rest.length - t.length) * x ^ t.length := by
            rw [← pow_add, hexp]
          rw [hc0, polyEvalD_cons, polyEvalD_cons, polyEvalD_cons, one_mul]
          rw [hqlen, hrlen, hsplit]
          exact char2_div_key _ _ _ _ _ _ _ (by
            have h5 := hev x
            rw [polyEvalD_cons, one_mul, hr_eval] at h5
            exact h5)

theorem encode_eq (ecc : Nat) (buf : List gf256) :
    encode ecc buf = buf.take (buf.length - ecc) ++
      (List.replicate (ecc - (polyModD (buf.take (buf.length - ecc) ++
          List.replicate ecc 0) (GENERATOR_POLY ecc)).length) 0 ++
        polyModD (buf.take (buf.length - ecc) ++ List.replicate ecc 0)
          (GENERATOR_POLY ecc)) := rfl

/-- Encoding any buffer yields a valid codeword; core lemma shared by the
round-trip and shortened-code developments. -/
theorem encode_roundtrip_core (ecc : Nat) (buf : List gf256) :
    is_correct ecc (encode ecc buf) = true ∧
    correct_errors ecc (encode ecc buf) = Except.ok (0, encode ecc buf) ∧
    ∃ q : List gf256, ∀ x : gf256,
      polyEvalD (encode ecc buf) x =
        polyEvalD q x * polyEvalD (GENERATOR_POLY ecc) x := by
  obtain ⟨t, ht⟩ := GENERATOR_POLY_monic ecc
  have hdiv : ∀ x : gf256,
      polyEvalD (buf.take (buf.length - ecc) ++ List.replicate ecc 0) x =
        polyEvalD (polyDivMod (buf.take (buf.length - ecc) ++
            List.replicate ecc 0) (GENERATOR_POLY ecc)).1 x *
          polyEvalD (GENERATOR_POLY ecc) x +
        polyEvalD (polyModD (buf.take (buf.length - ecc) ++
          List.replicate ecc 0) (GENERATOR_POLY ecc)) x := by
    intro x
    have h := (polyDivModD_eval t
      (buf.take (buf.length - ecc) ++ List.replicate ecc 0).length
      (buf.take (buf.length - ecc) ++ List.replicate ecc 0)
      (by simp only [List.length_cons]; omega)).2 x
    rw [polyModD, polyDivMod, ht]
    exact h
  have henc : ∀ x : gf256,
      polyEvalD (encode ecc buf) x =
        polyEvalD (buf.take (buf.length - ecc) ++ List.replicate ecc 0) x +
        polyEvalD (polyModD (buf.take (buf.length - ecc) ++
          List.replicate ecc 0) (GENERATOR_POLY ecc)) x := by
    intro x
    rw [encode_eq, polyEvalD_append, polyEvalD_append, polyEvalD_append,
      polyEvalD_replicate_zero, polyEvalD_replicate_zero, encode_parity_length,
      List.length_replicate]
    ring
  have hdvd : ∀ x : gf256,
      polyEvalD (encode ecc buf) x =
        polyEvalD (polyDivMod (buf.take (buf.length - ecc) ++
            List.replicate ecc 0) (GENERATOR_POLY ecc)).1 x *
          polyEvalD (GENERATOR_POLY ecc) x := by
    intro x
    rw [henc x, hdiv x, add_assoc, gf256.add_self, add_zero]
  have hcor : is_correct ecc (encode ecc buf) = true := by
    rw [is_correct, List.all_eq_true]
    intro s hs
    rw [syndromes, List.mem_map] at hs
    obtain ⟨i, hi, hsi⟩ := hs
    rw [List.mem_range] at hi
    rw [← hsi, decide_eq_true_eq]
    rw [hdvd, GENERATOR_POLY_root ecc i hi, mul_zero]
  refine ⟨hcor, ?_, ⟨(polyDivMod (buf.take (buf.length - ecc) ++
    List.replicate ecc 0) (GENERATOR_POLY ecc)).1, hdvd⟩⟩
  simp only [correct_errors]
  rw [if_pos (show ((syndromes ecc (encode ecc buf)).all
    fun s => decide (s = 0)) = true from hcor)]


/-- Claim C1: encoding any buffer yields a valid codeword: every syndrome
vanishes (is_correct returns true), correct_errors immediately returns Ok 0
with the buffer unchanged, and the codeword polynomial is divisible by the
generator polynomial, witnessed by a quotient agreeing at every evaluation
point. -/
theorem encode_roundtrip (ecc : Nat) (buf : List gf256) :
    is_correct ecc (encode ecc buf) = true ∧
    correct_errors ecc (encode ecc buf) = Except.ok (0, encode ecc buf) ∧
    ∃ q : List gf256, ∀ x : gf256,
      polyEvalD (encode ecc buf) x =
        polyEvalD q x * polyEvalD (GENERATOR_POLY ecc) x :=
  encode_roundtrip_core ecc buf

theorem gf256.neg_eq_self (a : gf256) : -a = a := gf256.extv (gf256.neg_val a)

theorem gf256.natCast_eq (n : Nat) :
    (n : gf256) = if n % 2 = 1 then 1 else 0 := by
  have h2 : ((2 : Nat) : gf256) = 0 := by
    rw [Nat.cast_ofNat]
    exact gf256.two_eq_zero
  conv_lhs => rw [← Nat.mod_add_div n 2]
  rw [Nat.cast_add, Nat.cast_mul, h2, zero_mul, add_zero]
  rcases Nat.mod_two_eq_zero_or_one n with h | h
  · rw [h, if_neg (by omega)]
    exact Nat.cast_zero
  · rw [h, if_pos rfl]
    exact Nat.cast_one

theorem powList256_nodup : (powListP 8 0x11d 2 255).Nodup := by
  rw [List.nodup_iff_count_le_one]
  intro y
  by_cases hy : y ∈ powListP 8 0x11d 2 255
  · obtain ⟨i, hi, hget⟩ := List.mem_iff_getElem.mp hy
    have hi255 : i < 255 := by rwa [powList256_length] at hi
    have hgd : (powListP 8 0x11d 2 255).getD i 0 = y := by
      rw [List.getD_eq_getElem _ _ hi]
      exact hget
    rw [powList256_getD hi255] at hgd
    have hne : gf256.GENERATOR ^ i ≠ 0 := pow_ne_zero _ (by decide)
    have hpos : 0 < y := by
      rcases Nat.eq_zero_or_pos y with h0 | h
      · subst h0
        exact absurd (gf256.extv (hgd.trans gf256.zero_val.symm)) hne
      · exact h
    have hlt : y < 256 := by
      rw [← hgd]
      exact (gf256.GENERATOR ^ i).isLt
    rw [powList256_count y hpos hlt]
  · rw [List.count_eq_zero.mpr hy]
    omega

theorem GENERATOR_pow_inj {a b : Nat} (ha : a < 255) (hb : b < 255)
    (h : gf256.GENERATOR ^ a = gf256.GENERATOR ^ b) : a = b := by
  have hal : a < (powListP 8 0x11d 2 255).length := by
    rw [powList256_length]
    exact ha
  have hbl : b < (powListP 8 0x11d 2 255).length := by
    rw [powList256_length]
    exact hb
  have hval : (powListP 8 0x11d 2 255).getD a 0 = (powListP 8 0x11d 2 255).getD b 0 := by
    rw [powList256_getD ha, powList256_getD hb, h]
  rw [List.getD_eq_getElem _ _ hal, List.getD_eq_getElem _ _ hbl] at hval
  have hinj := List.nodup_iff_injective_get.mp powList256_nodup
  have hfin : (⟨a, hal⟩ : Fin _) = ⟨b, hbl⟩ := hinj (by
    simpa [List.get_eq_getElem] using hval)
  exact congrArg Fin.val hfin

theorem getD_scaleD (c : gf256) (q : List gf256) (i : Nat) :
    (scaleD c q).getD i 0 = c * q.getD i 0 := by
  by_cases h : i < q.length
  · rw [scaleD, List.getD_eq_getElem _ _ (by rw [List.length_map]; exact h),
      List.getD_eq_getElem _ _ h, List.getElem_map]
  · rw [List.getD_eq_default _ _ (by rw [scaleD, List.length_map]; omega),
      List.getD_eq_default _ _ (by omega), mul_zero]

theorem getD_zipAdd :
    ∀ (u v : List gf256), u.length = v.length → ∀ i,
      (List.zipWith (fun x y => x + y) u v).getD i 0 = u.getD i 0 + v.getD i 0 := by
  intro u
  induction u with
  | nil =>
    intro v hv i
    have hv0 : v = [] := List.eq_nil_of_length_eq_zero hv.symm
    subst hv0
    show (0 : gf256) = 0 + 0
    rw [add_zero]
  | cons x u ih =>
    intro v hv i
    cases v with
    | nil => simp at hv
    | cons y v =>
      simp only [List.length_cons] at hv
      simp only [List.zipWith_cons_cons]
      cases i with
      | zero => rw [List.getD_cons_zero, List.getD_cons_zero, List.getD_cons_zero]
      | succ i =>
        rw [List.getD_cons_succ, List.getD_cons_succ, List.getD_cons_succ]
        exact ih v (by omega) i

theorem getD_append_pad (a : List gf256) (k i : Nat) :
    (a ++ List.replicate k 0).getD i 0 = a.getD i 0 := by
  rw [List.getD_eq_getElem?_getD, List.getD_eq_getElem?_getD, List.getElem?_append]
  by_cases h : i < a.length
  · rw [if_pos h]
  · rw [if_neg h, List.getElem?_replicate, List.getElem?_eq_none (by omega)]
    by_cases h2 : i - a.length < k
    · rw [if_pos h2]
      rfl
    · rw [if_neg h2]

theorem getD_polyAddA (a b : List gf256) (i : Nat) :
    (polyAddA a b).getD i 0 = a.getD i 0 + b.getD i 0 := by
  simp only [polyAddA]
  rw [getD_zipAdd _ _ (by
    rw [List.length_append, List.length_append, List.length_replicate,
      List.length_replicate]
    omega) i]
  rw [getD_append_pad, getD_append_pad]

theorem getD_polyMulA :
    ∀ (p q : List gf256) (i : Nat),
      (polyMulA p q).getD i 0 =
        ∑ k ∈ Finset.range (i + 1), p.getD k 0 * q.getD (i - k) 0 := by
  intro p
  induction p with
  | nil =>
    intro q i
    show (List.getD [] i 0) = _
    simp
  | cons c p ih =>
    intro q i
    rw [show polyMulA (c :: p) q = polyAddA (scaleD c q) (0 :: polyMulA p q) from rfl]
    rw [getD_polyAddA, getD_scaleD]
    cases i with
    | zero =>
      rw [List.getD_cons_zero, Finset.range_one, Finset.sum_singleton]
      simp
    | succ n =>
      rw [List.getD_cons_succ, ih]
      conv_rhs => rw [Finset.sum_range_succ']
      simp only [List.getD_cons_succ, List.getD_cons_zero, Nat.succ_sub_succ,
        Nat.sub_zero]
      ring

theorem getD_derivA (l : List gf256) (i : Nat) :
    (derivA l).getD i 0 = if i % 2 = 0 then l.getD (i + 1) 0 else 0 := by
  rw [derivA, List.getD_eq_getElem?_getD, List.getElem?_map, List.getElem?_enum,
    List.getElem?_drop]
  have hidx : l.getD (i + 1) 0 = (l[1 + i]?).getD 0 := by
    rw [List.getD_eq_getElem?_getD, show i + 1 = 1 + i from by omega]
  rw [hidx]
  cases hcase : l[1 + i]? with
  | none => simp
  | some a => simp

theorem getD_take (l : List gf256) (k i : Nat) :
    (l.take k).getD i 0 = if i < k then l.getD i 0 else 0 := by
  rw [List.getD_eq_getElem?_getD, List.getElem?_take]
  by_cases h : i < k
  · rw [if_pos h, if_pos h, List.getD_eq_getElem?_getD]
  · rw [if_neg h, if_neg h]
    rfl

theorem syndromes_length (ecc : Nat) (buf : List gf256) :
    (syndromes ecc buf).length = ecc := by
  rw [syndromes, List.length_map, List.length_range]

theorem getD_syndromes (ecc : Nat) (buf : List gf256) (i : Nat) (h : i < ecc) :
    (syndromes ecc buf).getD i 0 = polyEvalD buf (gf256.GENERATOR ^ i) := by
  have hl : i < (List.range ecc).length := by rw [List.length_range]; exact h
  rw [syndromes, List.getD_eq_getElem _ 0 (by rw [List.length_map]; exact hl),
    List.getElem_map, List.getElem_range]

theorem polyEvalA_eq_sum (l : List gf256) (y : gf256) :
    polyEvalA l y = ∑ i ∈ Finset.range l.length, l.getD i 0 * y ^ i := by
  induction l with
  | nil => simp [polyEvalA]
  | cons c l ih =>
    rw [show polyEvalA (c :: l) y = c + polyEvalA l y * y from rfl, ih,
      List.length_cons]
    conv_rhs => rw [Finset.sum_range_succ']
    simp only [List.getD_cons_succ, List.getD_cons_zero, pow_zero, mul_one]
    rw [Finset.sum_mul]
    have hs : ∀ x ∈ Finset.range l.length,
        l.getD x 0 * y ^ x * y = l.getD x 0 * y ^ (x + 1) := by
      intro x _
      ring
    rw [Finset.sum_congr rfl hs]
    ring

theorem polyEvalD_eq_sum (l : List gf256) (x : gf256) :
    polyEvalD l x =
      ∑ j ∈ Finset.range l.length, l.getD j 0 * x ^ (l.length - 1 - j) := by
  induction l with
  | nil => simp [polyEvalD]
  | cons c l ih =>
    rw [polyEvalD_cons, ih, List.length_cons]
    conv_rhs => rw [Finset.sum_range_succ']
    simp only [List.getD_cons_succ, List.getD_cons_zero, Nat.sub_zero]
    have he : ∀ j, l.length + 1 - 1 - (j + 1) = l.length - 1 - j := by
      intro j
      omega
    simp only [he]
    have he2 : l.length + 1 - 1 = l.length := by omega
    rw [he2]
    ring

/-- Bridge into Mathlib polynomials: the polynomial with ascending-order
coefficient list l. -/
noncomputable def toPoly (l : List gf256) : Polynomial gf256 :=
  ∑ i ∈ Finset.range l.length, Polynomial.C (l.getD i 0) * Polynomial.X ^ i

theorem toPoly_coeff (l : List gf256) (n : Nat) :
    (toPoly l).coeff n = l.getD n 0 := by
  rw [toPoly, Polynomial.finset_sum_coeff]
  simp only [Polynomial.coeff_C_mul, Polynomial.coeff_X_pow, mul_ite, mul_one,
    mul_zero]
  rw [Finset.sum_ite_eq (Finset.range l.length) n (fun i => l.getD i 0)]
  by_cases h : n < l.length
  · rw [if_pos (Finset.mem_range.mpr h)]
  · rw [if_neg (fun hmem => h (Finset.mem_range.mp hmem)),
      List.getD_eq_default _ _ (by omega)]

theorem toPoly_eval (l : List gf256) (y : gf256) :
    (toPoly l).eval y = polyEvalA l y := by
  rw [toPoly, polyEvalA_eq_sum, Polynomial.eval_finset_sum]
  exact Finset.sum_congr rfl (fun i _ => by
    rw [Polynomial.eval_mul, Polynomial.eval_pow, Polynomial.eval_C,
      Polynomial.eval_X])

theorem toPoly_polyAddA (a b : List gf256) :
    toPoly (polyAddA a b) = toPoly a + toPoly b := by
  apply Polynomial.ext
  intro n
  rw [Polynomial.coeff_add, toPoly_coeff, toPoly_coeff, toPoly_coeff,
    getD_polyAddA]

theorem toPoly_polyMulA (p q : List gf256) :
    toPoly (polyMulA p q) = toPoly p * toPoly q := by
  apply Polynomial.ext
  intro n
  rw [Polynomial.coeff_mul, toPoly_coeff, getD_polyMulA,
    Finset.Nat.sum_antidiagonal_eq_sum_range_succ_mk]
  exact Finset.sum_congr rfl (fun k _ => by rw [toPoly_coeff, toPoly_coeff])

theorem toPoly_derivA (l : List gf256) :
    toPoly (derivA l) = Polynomial.derivative (toPoly l) := by
  apply Polynomial.ext
  intro n
  rw [toPoly_coeff, getD_derivA, Polynomial.coeff_derivative, toPoly_coeff]
  rw [show ((n : gf256) + 1) = ((n + 1 : Nat) : gf256) from by
    rw [Nat.cast_add, Nat.cast_one], gf256.natCast_eq]
  rcases Nat.mod_two_eq_zero_or_one n with h | h
  · have h1 : (n + 1) % 2 = 1 := by omega
    rw [h1, if_pos rfl, if_pos h, mul_one]
  · have h1 : (n + 1) % 2 = 0 := by omega
    rw [h1, if_neg (by omega), if_neg (by omega), mul_zero]

theorem toPoly_one : toPoly [1] = 1 := by
  rw [toPoly]
  simp

theorem toPoly_pair (a b : gf256) :
    toPoly [a, b] = Polynomial.C a + Polynomial.C b * Polynomial.X := by
  rw [toPoly]
  rw [show ([a, b] : List gf256).length = 2 from rfl, Finset.sum_range_succ,
    Finset.sum_range_one]
  simp

theorem polyGf_neg (Q : Polynomial gf256) : -Q = Q := by
  apply Polynomial.ext
  intro n
  rw [Polynomial.coeff_neg]
  exact gf256.neg_eq_self _

theorem toPoly_locator_fold (n : Nat) :
    ∀ (E : List Nat) (acc : List gf256),
      toPoly (E.foldl (fun lam j =>
          polyMulA lam [1, gf256.GENERATOR ^ (n - 1 - j)]) acc) =
        toPoly acc * (E.map (fun j => 1 +
          Polynomial.C (gf256.GENERATOR ^ (n - 1 - j)) * Polynomial.X)).prod := by
  intro E
  induction E with
  | nil =>
    intro acc
    simp
  | cons j E ih =>
    intro acc
    rw [List.foldl_cons, ih, toPoly_polyMulA, toPoly_pair, Polynomial.C_1,
      List.map_cons, List.prod_cons]
    ring

theorem toPoly_erasureLocator (n : Nat) (E : List Nat) :
    toPoly (erasureLocator n E) =
      (E.map (fun j => 1 +
        Polynomial.C (gf256.GENERATOR ^ (n - 1 - j)) * Polynomial.X)).prod := by
  rw [erasureLocator, toPoly_locator_fold, toPoly_one, one_mul]

theorem derivative_finset_prod (s : Finset Nat) (f : Nat → Polynomial gf256) :
    Polynomial.derivative (∏ i ∈ s, f i) =
      ∑ i ∈ s, (∏ k ∈ s.erase i, f k) * Polynomial.derivative (f i) := by
  induction s using Finset.induction_on with
  | empty => simp
  | insert hnot ih =>
    rename_i a s
    rw [Finset.prod_insert hnot, Polynomial.derivative_mul, ih,
      Finset.sum_insert hnot, Finset.erase_insert hnot, Finset.mul_sum]
    congr 1
    · ring
    · exact Finset.sum_congr rfl (fun i hi => by
        rw [Finset.erase_insert_of_ne (by rintro rfl; exact hnot hi),
          Finset.prod_insert (fun hmem => hnot (Finset.mem_of_mem_erase hmem))]
        ring)

theorem gf_geom_telescope (P : Polynomial gf256) (ecc : Nat) :
    (∑ i ∈ Finset.range ecc, P ^ i) * (1 + P) = 1 + P ^ ecc := by
  have h := geom_sum_mul P ecc
  rw [sub_eq_add_neg, sub_eq_add_neg, polyGf_neg] at h
  linear_combination h

theorem syndrome_as_sum (ecc : Nat) (c buf : List gf256) (E : List Nat)
    (hlen : buf.length = c.length)
    (hEpos : ∀ j ∈ E, j < c.length)
    (hc : is_correct ecc c = true)
    (hagree : ∀ j, j ∉ E → buf.getD j 0 = c.getD j 0)
    (i : Nat) (hi : i < ecc) :
    polyEvalD buf (gf256.GENERATOR ^ i) =
      ∑ j ∈ E.toFinset, (buf.getD j 0 + c.getD j 0) *
        (gf256.GENERATOR ^ (c.length - 1 - j)) ^ i := by
  have hceval : polyEvalD c (gf256.GENERATOR ^ i) = 0 := by
    rw [is_correct, List.all_eq_true] at hc
    have hmem : polyEvalD c (gf256.GENERATOR ^ i) ∈ syndromes ecc c := by
      rw [← getD_syndromes ecc c i hi,
        List.getD_eq_getElem _ 0 (by rw [syndromes_length]; exact hi)]
      exact List.getElem_mem _
    simpa using hc _ hmem
  have h1 : polyEvalD buf (gf256.GENERATOR ^ i) =
      ∑ j ∈ Finset.range c.length,
        buf.getD j 0 * (gf256.GENERATOR ^ i) ^ (c.length - 1 - j) := by
    rw [polyEvalD_eq_sum, hlen]
  have h2 : polyEvalD c (gf256.GENERATOR ^ i) =
      ∑ j ∈ Finset.range c.length,
        c.getD j 0 * (gf256.GENERATOR ^ i) ^ (c.length - 1 - j) :=
    polyEvalD_eq_sum c _
  have h3 : ∑ j ∈ Finset.range c.length,
      (buf.getD j 0 + c.getD j 0) * (gf256.GENERATOR ^ i) ^ (c.length - 1 - j) =
      polyEvalD buf (gf256.GENERATOR ^ i) := by
    have hsplit : ∀ j ∈ Finset.range c.length,
        (buf.getD j 0 + c.getD j 0) * (gf256.GENERATOR ^ i) ^ (c.length - 1 - j) =
        buf.getD j 0 * (gf256.GENERATOR ^ i) ^ (c.length - 1 - j) +
        c.getD j 0 * (gf256.GENERATOR ^ i) ^ (c.length - 1 - j) := by
      intro j _
      ring
    rw [Finset.sum_congr rfl hsplit, Finset.sum_add_distrib, ← h1, ← h2, hceval,
      add_zero]
  rw [← h3]
  have hsub : E.toFinset ⊆ Finset.range c.length := by
    intro j hj
    rw [Finset.mem_range]
    exact hEpos j (List.mem_toFinset.mp hj)
  rw [← Finset.sum_subset hsub (fun j _ hj => by
    rw [hagree j (fun hmem => hj (List.mem_toFinset.mpr hmem)), gf256.add_self,
      zero_mul])]
  exact Finset.sum_congr rfl (fun j _ => by rw [pow_right_comm])

theorem toPoly_syndromes_eq (ecc : Nat) (c buf : List gf256) (E : List Nat)
    (hlen : buf.length = c.length)
    (hEpos : ∀ j ∈ E, j < c.length)
    (hc : is_correct ecc c = true)
    (hagree : ∀ j, j ∉ E → buf.getD j 0 = c.getD j 0) :
    toPoly (syndromes ecc buf) =
      ∑ j ∈ E.toFinset, Polynomial.C (buf.getD j 0 + c.getD j 0) *
        ∑ i ∈ Finset.range ecc,
          (Polynomial.C (gf256.GENERATOR ^ (c.length - 1 - j)) *
            Polynomial.X) ^ i := by
  rw [toPoly, syndromes_length]
  rw [Finset.sum_congr rfl (fun i hi => by
    rw [getD_syndromes _ _ _ (Finset.mem_range.mp hi),
      syndrome_as_sum ecc c buf E hlen hEpos hc hagree i (Finset.mem_range.mp hi),
      map_sum, Finset.sum_mul])]
  rw [Finset.sum_comm]
  refine Finset.sum_congr rfl (fun j _ => ?_)
  rw [Finset.mul_sum]
  refine Finset.sum_congr rfl (fun i _ => ?_)
  rw [Polynomial.C_mul, Polynomial.C_pow, mul_pow]
  ring

theorem toPoly_take_of_bound (l : List gf256) (k : Nat) (Q R : Polynomial gf256)
    (hQdeg : ∀ n, k ≤ n → Q.coeff n = 0)
    (hsplit : toPoly l = Q + Polynomial.X ^ k * R) :
    toPoly (l.take k) = Q := by
  apply Polynomial.ext
  intro n
  rw [toPoly_coeff, getD_take]
  by_cases h : n < k
  · rw [if_pos h, ← toPoly_coeff l n, hsplit, Polynomial.coeff_add,
      mul_comm (Polynomial.X ^ k) R, Polynomial.coeff_mul_X_pow',
      if_neg (by omega), add_zero]
  · rw [if_neg h, hQdeg n (by omega)]

theorem omega_split (ecc : Nat) (c buf : List gf256) (E : List Nat)
    (hlen : buf.length = c.length)
    (hnodup : E.Nodup)
    (hEpos : ∀ j ∈ E, j < c.length)
    (hc : is_correct ecc c = true)
    (hagree : ∀ j, j ∉ E → buf.getD j 0 = c.getD j 0) :
    toPoly (polyMulA (syndromes ecc buf) (erasureLocator c.length E)) =
      (∑ j ∈ E.toFinset, Polynomial.C (buf.getD j 0 + c.getD j 0) *
        ∏ k ∈ E.toFinset.erase j, (1 +
          Polynomial.C (gf256.GENERATOR ^ (c.length - 1 - k)) * Polynomial.X)) +
      Polynomial.X ^ ecc *
      ∑ j ∈ E.toFinset,
        Polynomial.C (buf.getD j 0 + c.getD j 0) *
          Polynomial.C (gf256.GENERATOR ^ (c.length - 1 - j)) ^ ecc *
        ∏ k ∈ E.toFinset.erase j, (1 +
          Polynomial.C (gf256.GENERATOR ^ (c.length - 1 - k)) * Polynomial.X) := by
  have hterm : ∀ j ∈ E.toFinset,
      (Polynomial.C (buf.getD j 0 + c.getD j 0) *
        ∑ i ∈ Finset.range ecc,
          (Polynomial.C (gf256.GENERATOR ^ (c.length - 1 - j)) *
            Polynomial.X) ^ i) *
      ∏ k ∈ E.toFinset, (1 +
        Polynomial.C (gf256.GENERATOR ^ (c.length - 1 - k)) * Polynomial.X) =
      Polynomial.C (buf.getD j 0 + c.getD j 0) *
        (∏ k ∈ E.toFinset.erase j, (1 +
          Polynomial.C (gf256.GENERATOR ^ (c.length - 1 - k)) * Polynomial.X)) +
      Polynomial.X ^ ecc *
        (Polynomial.C (buf.getD j 0 + c.getD j 0) *
          Polynomial.C (gf256.GENERATOR ^ (c.length - 1 - j)) ^ ecc *
        ∏ k ∈ E.toFinset.erase j, (1 +
          Polynomial.C (gf256.GENERATOR ^ (c.length - 1 - k)) * Polynomial.X)) := by
    intro j hj
    rw [← Finset.mul_prod_erase E.toFinset (fun k => 1 +
      Polynomial.C (gf256.GENERATOR ^ (c.length - 1 - k)) * Polynomial.X) hj]
    have htel := gf_geom_telescope
      (Polynomial.C (gf256.GENERATOR ^ (c.length - 1 - j)) * Polynomial.X) ecc
    calc (Polynomial.C (buf.getD j 0 + c.getD j 0) *
          ∑ i ∈ Finset.range ecc,
            (Polynomial.C (gf256.GENERATOR ^ (c.length - 1 - j)) *
              Polynomial.X) ^ i) *
        ((1 + Polynomial.C (gf256.GENERATOR ^ (c.length - 1 - j)) *
            Polynomial.X) *
          ∏ k ∈ E.toFinset.erase j, (1 +
            Polynomial.C (gf256.GENERATOR ^ (c.length - 1 - k)) * Polynomial.X))
        = Polynomial.C (buf.getD j 0 + c.getD j 0) *
          ((∑ i ∈ Finset.range ecc,
            (Polynomial.C (gf256.GENERATOR ^ (c.length - 1 - j)) *
              Polynomial.X) ^ i) *
           (1 + Polynomial.C (gf256.GENERATOR ^ (c.length - 1 - j)) *
              Polynomial.X)) *
          ∏ k ∈ E.toFinset.erase j, (1 +
            Polynomial.C (gf256.GENERATOR ^ (c.length - 1 - k)) * Polynomial.X) := by
          ring
      _ = Polynomial.C (buf.getD j 0 + c.getD j 0) *
          (1 + (Polynomial.C (gf256.GENERATOR ^ (c.length - 1 - j)) *
            Polynomial.X) ^ ecc) *
          ∏ k ∈ E.toFinset.erase j, (1 +
            Polynomial.C (gf256.GENERATOR ^ (c.length - 1 - k)) * Polynomial.X) := by
          rw [htel]
      _ = Polynomial.C (buf.getD j 0 + c.getD j 0) *
          (∏ k ∈ E.toFinset.erase j, (1 +
            Polynomial.C (gf256.GENERATOR ^ (c.length - 1 - k)) * Polynomial.X)) +
          Polynomial.X ^ ecc *
          (Polynomial.C (buf.getD j 0 + c.getD j 0) *
            Polynomial.C (gf256.GENERATOR ^ (c.length - 1 - j)) ^ ecc *
          ∏ k ∈ E.toFinset.erase j, (1 +
            Polynomial.C (gf256.GENERATOR ^ (c.length - 1 - k)) * Polynomial.X)) := by
          rw [mul_pow]
          ring
  rw [toPoly_polyMulA, toPoly_syndromes_eq ecc c buf E hlen hEpos hc hagree,
    toPoly_erasureLocator,
    ← List.prod_toFinset (fun j => 1 +
      Polynomial.C (gf256.GENERATOR ^ (c.length - 1 - j)) * Polynomial.X) hnodup,
    Finset.sum_mul, Finset.sum_congr rfl hterm, Finset.sum_add_distrib,
    ← Finset.mul_sum]

theorem omegaTilde_coeff_zero (ecc : Nat) (c buf : List gf256) (E : List Nat)
    (hnodup : E.Nodup) (hEcount : E.length ≤ ecc) :
    ∀ n, ecc ≤ n →
      (∑ j ∈ E.toFinset, Polynomial.C (buf.getD j 0 + c.getD j 0) *
        ∏ k ∈ E.toFinset.erase j, (1 +
          Polynomial.C (gf256.GENERATOR ^ (c.length - 1 - k)) *
            Polynomial.X)).coeff n = 0 := by
  intro n hn2
  rw [Polynomial.finset_sum_coeff]
  apply Finset.sum_eq_zero
  intro j hj
  apply Polynomial.coeff_eq_zero_of_natDegree_lt
  have hElen : 1 ≤ E.length := by
    have hmem := List.mem_toFinset.mp hj
    cases E with
    | nil => simp at hmem
    | cons a E => simp
  have hcard : (E.toFinset.erase j).card = E.length - 1 := by
    rw [Finset.card_erase_of_mem hj, List.toFinset_card_of_nodup hnodup]
  have hdeg1 : ∀ k ∈ E.toFinset.erase j,
      (fun k => (1 + Polynomial.C (gf256.GENERATOR ^ (c.length - 1 - k)) *
        Polynomial.X).natDegree) k ≤ (fun _ => 1) k := by
    intro k _
    have heq : (1 : Polynomial gf256) +
        Polynomial.C (gf256.GENERATOR ^ (c.length - 1 - k)) * Polynomial.X =
        Polynomial.C (gf256.GENERATOR ^ (c.length - 1 - k)) * Polynomial.X +
          Polynomial.C 1 := by
      rw [Polynomial.C_1]
      ring
    show (1 + Polynomial.C (gf256.GENERATOR ^ (c.length - 1 - k)) *
        Polynomial.X).natDegree ≤ 1
    rw [heq]
    exact Polynomial.natDegree_linear_le
  have hsum := Finset.sum_le_sum hdeg1
  have hdeg : (∏ k ∈ E.toFinset.erase j, (1 +
      Polynomial.C (gf256.GENERATOR ^ (c.length - 1 - k)) *
        Polynomial.X)).natDegree ≤ E.length - 1 := by
    have hprodle := Polynomial.natDegree_prod_le (E.toFinset.erase j)
      (fun k => 1 + Polynomial.C (gf256.GENERATOR ^ (c.length - 1 - k)) *
        Polynomial.X)
    have hconst : ∑ _k ∈ E.toFinset.erase j, (1 : Nat) =
        (E.toFinset.erase j).card := by
      rw [Finset.sum_const, smul_eq_mul, mul_one]
    omega
  have hCdeg := Polynomial.natDegree_C_mul_le (buf.getD j 0 + c.getD j 0)
    (∏ k ∈ E.toFinset.erase j, (1 +
      Polynomial.C (gf256.GENERATOR ^ (c.length - 1 - k)) * Polynomial.X))
  omega

theorem omega_eval (ecc : Nat) (c buf : List gf256) (E : List Nat)
    (hlen : buf.length = c.length)
    (hnodup : E.Nodup)
    (hEpos : ∀ j ∈ E, j < c.length)
    (hEcount : E.length ≤ ecc)
    (hc : is_correct ecc c = true)
    (hagree : ∀ j, j ∉ E → buf.getD j 0 = c.getD j 0)
    (y : gf256) :
    polyEvalA ((polyMulA (syndromes ecc buf)
        (erasureLocator c.length E)).take ecc) y =
      ∑ j ∈ E.toFinset, (buf.getD j 0 + c.getD j 0) *
        ∏ k ∈ E.toFinset.erase j,
          (1 + gf256.GENERATOR ^ (c.length - 1 - k) * y) := by
  rw [← toPoly_eval,
    toPoly_take_of_bound _ ecc _ _ (omegaTilde_coeff_zero ecc c buf E hnodup hEcount)
      (omega_split ecc c buf E hlen hnodup hEpos hc hagree),
    Polynomial.eval_finset_sum]
  refine Finset.sum_congr rfl (fun j _ => ?_)
  rw [Polynomial.eval_mul, Polynomial.eval_C, Polynomial.eval_prod]
  refine congrArg _ (Finset.prod_congr rfl (fun k _ => ?_))
  rw [Polynomial.eval_add, Polynomial.eval_one, Polynomial.eval_mul,
    Polynomial.eval_C, Polynomial.eval_X]

theorem locator_eval (c : List gf256) (E : List Nat)
    (hnodup : E.Nodup) (y : gf256) :
    polyEvalA (erasureLocator c.length E) y =
      ∏ k ∈ E.toFinset, (1 + gf256.GENERATOR ^ (c.length - 1 - k) * y) := by
  rw [← toPoly_eval, toPoly_erasureLocator,
    ← List.prod_toFinset (fun j => 1 +
      Polynomial.C (gf256.GENERATOR ^ (c.length - 1 - j)) * Polynomial.X) hnodup,
    Polynomial.eval_prod]
  refine Finset.prod_congr rfl (fun k _ => ?_)
  rw [Polynomial.eval_add, Polynomial.eval_one, Polynomial.eval_mul,
    Polynomial.eval_C, Polynomial.eval_X]

theorem locator_deriv_eval (c : List gf256) (E : List Nat)
    (hnodup : E.Nodup) (y : gf256) :
    polyEvalA (derivA (erasureLocator c.length E)) y =
      ∑ j ∈ E.toFinset,
        (∏ k ∈ E.toFinset.erase j,
          (1 + gf256.GENERATOR ^ (c.length - 1 - k) * y)) *
        gf256.GENERATOR ^ (c.length - 1 - j) := by
  rw [← toPoly_eval, toPoly_derivA, toPoly_erasureLocator,
    ← List.prod_toFinset (fun j => 1 +
      Polynomial.C (gf256.GENERATOR ^ (c.length - 1 - j)) * Polynomial.X) hnodup,
    derivative_finset_prod, Polynomial.eval_finset_sum]
  refine Finset.sum_congr rfl (fun j _ => ?_)
  rw [Polynomial.derivative_add, Polynomial.derivative_one,
    Polynomial.derivative_C_mul, Polynomial.derivative_X, mul_one, zero_add,
    Polynomial.eval_mul, Polynomial.eval_C, Polynomial.eval_prod]
  refine congrArg (fun z => z * gf256.GENERATOR ^ (c.length - 1 - j))
    (Finset.prod_congr rfl (fun k _ => ?_))
  rw [Polynomial.eval_add, Polynomial.eval_one, Polynomial.eval_mul,
    Polynomial.eval_C, Polynomial.eval_X]

theorem forney_magnitude (ecc : Nat) (c buf : List gf256) (E : List Nat)
    (hn : c.length ≤ 255)
    (hlen : buf.length = c.length)
    (hnodup : E.Nodup)
    (hEpos : ∀ j ∈ E, j < c.length)
    (hEcount : E.length ≤ ecc)
    (hc : is_correct ecc c = true)
    (hagree : ∀ j, j ∉ E → buf.getD j 0 = c.getD j 0)
    (j0 : Nat) (hj0 : j0 ∈ E) :
    polyEvalA ((polyMulA (syndromes ecc buf)
        (erasureLocator c.length E)).take ecc)
        (gf256.GENERATOR ^ (c.length - 1 - j0))⁻¹ *
      (polyEvalA (derivA (erasureLocator c.length E))
        (gf256.GENERATOR ^ (c.length - 1 - j0))⁻¹)⁻¹ *
      gf256.GENERATOR ^ (c.length - 1 - j0) =
    buf.getD j0 0 + c.getD j0 0 := by
  have hG0 : gf256.GENERATOR ≠ 0 := by decide
  have hX0 : gf256.GENERATOR ^ (c.length - 1 - j0) ≠ 0 := pow_ne_zero _ hG0
  have hXy : gf256.GENERATOR ^ (c.length - 1 - j0) *
      (gf256.GENERATOR ^ (c.length - 1 - j0))⁻¹ = 1 := mul_inv_cancel₀ hX0
  have hy0 : (gf256.GENERATOR ^ (c.length - 1 - j0))⁻¹ ≠ 0 := inv_ne_zero hX0
  have hfac0 : 1 + gf256.GENERATOR ^ (c.length - 1 - j0) *
      (gf256.GENERATOR ^ (c.length - 1 - j0))⁻¹ = 0 := by
    rw [hXy]
    exact gf256.add_self 1
  have hfac_ne : ∀ k ∈ E, k ≠ j0 →
      1 + gf256.GENERATOR ^ (c.length - 1 - k) *
        (gf256.GENERATOR ^ (c.length - 1 - j0))⁻¹ ≠ 0 := by
    intro k hk hkj hzero
    have h1 : gf256.GENERATOR ^ (c.length - 1 - k) *
        (gf256.GENERATOR ^ (c.length - 1 - j0))⁻¹ = 1 := by
      linear_combination hzero - gf256.two_eq_zero
    have h2 : gf256.GENERATOR ^ (c.length - 1 - k) =
        gf256.GENERATOR ^ (c.length - 1 - j0) :=
      mul_right_cancel₀ hy0 (h1.trans hXy.symm)
    have hk_lt : k < c.length := hEpos k hk
    have hj0_lt : j0 < c.length := hEpos j0 hj0
    have hexp := GENERATOR_pow_inj (by omega) (by omega) h2
    exact hkj (by omega)
  have hP0 : (∏ k ∈ E.toFinset.erase j0,
      (1 + gf256.GENERATOR ^ (c.length - 1 - k) *
        (gf256.GENERATOR ^ (c.length - 1 - j0))⁻¹)) ≠ 0 := by
    rw [Finset.prod_ne_zero_iff]
    intro k hk
    have hk2 := Finset.mem_erase.mp hk
    exact hfac_ne k (List.mem_toFinset.mp hk2.2) hk2.1
  have hOm : polyEvalA ((polyMulA (syndromes ecc buf)
      (erasureLocator c.length E)).take ecc)
      (gf256.GENERATOR ^ (c.length - 1 - j0))⁻¹ =
      (buf.getD j0 0 + c.getD j0 0) *
      ∏ k ∈ E.toFinset.erase j0,
        (1 + gf256.GENERATOR ^ (c.length - 1 - k) *
          (gf256.GENERATOR ^ (c.length - 1 - j0))⁻¹) := by
    rw [omega_eval ecc c buf E hlen hnodup hEpos hEcount hc hagree]
    refine Finset.sum_eq_single_of_mem j0 (List.mem_toFinset.mpr hj0) ?_
    intro b hb hbne
    have hj0mem : j0 ∈ E.toFinset.erase b :=
      Finset.mem_erase.mpr ⟨hbne.symm, List.mem_toFinset.mpr hj0⟩
    rw [Finset.prod_eq_zero hj0mem hfac0, mul_zero]
  have hLd : polyEvalA (derivA (erasureLocator c.length E))
      (gf256.GENERATOR ^ (c.length - 1 - j0))⁻¹ =
      (∏ k ∈ E.toFinset.erase j0,
        (1 + gf256.GENERATOR ^ (c.length - 1 - k) *
          (gf256.GENERATOR ^ (c.length - 1 - j0))⁻¹)) *
      gf256.GENERATOR ^ (c.length - 1 - j0) := by
    rw [locator_deriv_eval c E hnodup]
    refine Finset.sum_eq_single_of_mem j0 (List.mem_toFinset.mpr hj0) ?_
    intro b hb hbne
    have hj0mem : j0 ∈ E.toFinset.erase b :=
      Finset.mem_erase.mpr ⟨hbne.symm, List.mem_toFinset.mpr hj0⟩
    rw [Finset.prod_eq_zero hj0mem hfac0, zero_mul]
  rw [hOm, hLd, mul_inv]
  have h3 : (∏ k ∈ E.toFinset.erase j0,
      (1 + gf256.GENERATOR ^ (c.length - 1 - k) *
        (gf256.GENERATOR ^ (c.length - 1 - j0))⁻¹)) *
      (∏ k ∈ E.toFinset.erase j0,
        (1 + gf256.GENERATOR ^ (c.length - 1 - k) *
          (gf256.GENERATOR ^ (c.length - 1 - j0))⁻¹))⁻¹ = 1 :=
    mul_inv_cancel₀ hP0
  have h4 : (gf256.GENERATOR ^ (c.length - 1 - j0))⁻¹ *
      gf256.GENERATOR ^ (c.length - 1 - j0) = 1 := inv_mul_cancel₀ hX0
  calc (buf.getD j0 0 + c.getD j0 0) *
      (∏ k ∈ E.toFinset.erase j0,
        (1 + gf256.GENERATOR ^ (c.length - 1 - k) *
          (gf256.GENERATOR ^ (c.length - 1 - j0))⁻¹)) *
      ((∏ k ∈ E.toFinset.erase j0,
        (1 + gf256.GENERATOR ^ (c.length - 1 - k) *
          (gf256.GENERATOR ^ (c.length - 1 - j0))⁻¹))⁻¹ *
        (gf256.GENERATOR ^ (c.length - 1 - j0))⁻¹) *
      gf256.GENERATOR ^ (c.length - 1 - j0)
      = (buf.getD j0 0 + c.getD j0 0) *
        ((∏ k ∈ E.toFinset.erase j0,
          (1 + gf256.GENERATOR ^ (c.length - 1 - k) *
            (gf256.GENERATOR ^ (c.length - 1 - j0))⁻¹)) *
         (∏ k ∈ E.toFinset.erase j0,
          (1 + gf256.GENERATOR ^ (c.length - 1 - k) *
            (gf256.GENERATOR ^ (c.length - 1 - j0))⁻¹))⁻¹) *
        ((gf256.GENERATOR ^ (c.length - 1 - j0))⁻¹ *
          gf256.GENERATOR ^ (c.length - 1 - j0)) := by
        ring
    _ = buf.getD j0 0 + c.getD j0 0 := by
        rw [h3, h4, mul_one, mul_one]

theorem fold_set_length (n : Nat) (Yv : Nat → gf256) :
    ∀ (roots : List Nat) (b : List gf256),
      (roots.foldl (fun b i => b.set (n - 1 - i)
        (b.getD (n - 1 - i) 0 + Yv i)) b).length = b.length := by
  intro roots
  induction roots with
  | nil => intro b; rfl
  | cons i roots ih =>
    intro b
    rw [List.foldl_cons, ih, List.length_set]

theorem fold_set_getD (n : Nat) (Yv : Nat → gf256) :
    ∀ (roots : List Nat) (b : List gf256) (t : Nat),
      (∀ i ∈ roots, n - 1 - i < b.length) →
      (roots.foldl (fun b i => b.set (n - 1 - i)
          (b.getD (n - 1 - i) 0 + Yv i)) b).getD t 0 =
        b.getD t 0 +
          ((roots.filter (fun i => decide (n - 1 - i = t))).map Yv).sum := by
  intro roots
  induction roots with
  | nil =>
    intro b t _
    simp
  | cons i roots ih =>
    intro b t hpos
    rw [List.foldl_cons, ih _ t (fun k hk => by
      rw [List.length_set]
      exact hpos k (List.mem_cons_of_mem _ hk))]
    by_cases hpt : n - 1 - i = t
    · subst hpt
      have hplt : n - 1 - i < b.length := hpos i (List.mem_cons_self ..)
      have hset : (b.set (n - 1 - i) (b.getD (n - 1 - i) 0 + Yv i)).getD
          (n - 1 - i) 0 = b.getD (n - 1 - i) 0 + Yv i := by
        rw [List.getD_eq_getElem _ _ (by rw [List.length_set]; exact hplt),
          List.getElem_set_self]
      rw [hset, List.filter_cons, if_pos (by simp), List.map_cons, List.sum_cons]
      ring
    · have hset : (b.set (n - 1 - i) (b.getD (n - 1 - i) 0 + Yv i)).getD t 0 =
          b.getD t 0 := by
        by_cases ht : t < b.length
        · rw [List.getD_eq_getElem _ _ (by rw [List.length_set]; exact ht),
            List.getElem_set_ne hpt, List.getD_eq_getElem _ _ ht]
        · rw [List.getD_eq_default _ _ (by rw [List.length_set]; omega),
            List.getD_eq_default _ _ (by omega)]
      rw [hset, List.filter_cons, if_neg (by simp [hpt])]

theorem filter_map_comm (f : Nat → Nat) (p : Nat → Bool) :
    ∀ (E : List Nat), (E.map f).filter p = (E.filter (fun j => p (f j))).map f := by
  intro E
  induction E with
  | nil => rfl
  | cons j E ih =>
    rw [List.map_cons, List.filter_cons, List.filter_cons]
    by_cases h : p (f j) = true
    · rw [if_pos h, if_pos h, List.map_cons, ih]
    · rw [if_neg h, if_neg h, ih]

theorem getD_set_zero_ne (l : List gf256) (v : gf256) (j : Nat) (hj : j ≠ 0) :
    (l.set 0 v).getD j 0 = l.getD j 0 := by
  cases l with
  | nil => rfl
  | cons a l =>
    match j, hj with
    | k + 1, _ =>
      rw [show (a :: l).set 0 v = v :: l from rfl, List.getD_cons_succ,
        List.getD_cons_succ]

/-- Erasure correction restores a valid codeword; core lemma shared by the
erasure-correction and shortened-code developments. -/
theorem correct_erasures_ok_core (ecc : Nat) (c buf : List gf256) (E : List Nat)
    (hn : c.length ≤ 255)
    (hlen : buf.length = c.length)
    (hnodup : E.Nodup)
    (hEpos : ∀ j ∈ E, j < c.length)
    (hEcount : E.length ≤ ecc)
    (hc : is_correct ecc c = true)
    (hagree : ∀ j, j ∉ E → buf.getD j 0 = c.getD j 0) :
    correct_erasures ecc buf E = Except.ok (E.length, c) := by
  have hbuf2 : forneyApply ecc buf.length (syndromes ecc buf)
      (erasureLocator buf.length E)
      (E.map (fun j => buf.length - 1 - j)) buf = c := by
    rw [hlen]
    have hfold : forneyApply ecc c.length (syndromes ecc buf)
        (erasureLocator c.length E)
        (E.map (fun j => c.length - 1 - j)) buf =
        (E.map (fun j => c.length - 1 - j)).foldl
          (fun b i => b.set (c.length - 1 - i) (b.getD (c.length - 1 - i) 0 +
            (polyEvalA ((polyMulA (syndromes ecc buf)
                (erasureLocator c.length E)).take ecc)
              (gf256.GENERATOR ^ i)⁻¹ *
            (polyEvalA (derivA (erasureLocator c.length E))
              (gf256.GENERATOR ^ i)⁻¹)⁻¹ *
            gf256.GENERATOR ^ i))) buf := rfl
    rw [hfold]
    have hposs : ∀ i ∈ E.map (fun j => c.length - 1 - j),
        c.length - 1 - i < buf.length := by
      intro i hi
      rw [List.mem_map] at hi
      obtain ⟨j, hjE, rfl⟩ := hi
      have := hEpos j hjE
      rw [hlen]
      omega
    apply List.ext_getElem
    · calc ((E.map (fun j => c.length - 1 - j)).foldl
          (fun b i => b.set (c.length - 1 - i) (b.getD (c.length - 1 - i) 0 +
            (polyEvalA ((polyMulA (syndromes ecc buf)
                (erasureLocator c.length E)).take ecc)
              (gf256.GENERATOR ^ i)⁻¹ *
            (polyEvalA (derivA (erasureLocator c.length E))
              (gf256.GENERATOR ^ i)⁻¹)⁻¹ *
            gf256.GENERATOR ^ i))) buf).length
          = buf.length :=
            fold_set_length c.length
              (fun i => polyEvalA ((polyMulA (syndromes ecc buf)
                  (erasureLocator c.length E)).take ecc)
                (gf256.GENERATOR ^ i)⁻¹ *
              (polyEvalA (derivA (erasureLocator c.length E))
                (gf256.GENERATOR ^ i)⁻¹)⁻¹ *
              gf256.GENERATOR ^ i)
              (E.map (fun j => c.length - 1 - j)) buf
        _ = c.length := hlen
    · intro t h1 h2
      have hgd := fold_set_getD c.length
        (fun i => polyEvalA ((polyMulA (syndromes ecc buf)
            (erasureLocator c.length E)).take ecc)
          (gf256.GENERATOR ^ i)⁻¹ *
        (polyEvalA (derivA (erasureLocator c.length E))
          (gf256.GENERATOR ^ i)⁻¹)⁻¹ *
        gf256.GENERATOR ^ i)
        (E.map (fun j => c.length - 1 - j)) buf t hposs
      rw [← List.getD_eq_getElem _ 0 h1, ← List.getD_eq_getElem _ 0 h2]
      refine Eq.trans hgd ?_
      rw [filter_map_comm]
      have hpred : ∀ j ∈ E,
          (decide (c.length - 1 - (c.length - 1 - j) = t)) =
          (decide (j = t)) := by
        intro j hj
        have hjlt := hEpos j hj
        have hjj : c.length - 1 - (c.length - 1 - j) = j := by omega
        rw [hjj]
      rw [show E.filter (fun j => decide (c.length - 1 - (c.length - 1 - j) = t)) =
          E.filter (fun j => decide (j = t)) from List.filter_congr hpred]
      rw [List.filter_eq]
      by_cases htE : t ∈ E
      · rw [List.count_eq_one_of_mem hnodup htE,
          show List.replicate 1 t = [t] from rfl, List.map_cons, List.map_nil,
          List.map_cons, List.map_nil, List.sum_cons, List.sum_nil, add_zero]
        have hY := forney_magnitude ecc c buf E hn hlen hnodup hEpos hEcount hc
          hagree t htE
        calc buf.getD t 0 +
            (polyEvalA ((polyMulA (syndromes ecc buf)
                (erasureLocator c.length E)).take ecc)
              (gf256.GENERATOR ^ (c.length - 1 - t))⁻¹ *
            (polyEvalA (derivA (erasureLocator c.length E))
              (gf256.GENERATOR ^ (c.length - 1 - t))⁻¹)⁻¹ *
            gf256.GENERATOR ^ (c.length - 1 - t))
            = buf.getD t 0 + (buf.getD t 0 + c.getD t 0) :=
              congrArg (fun z => buf.getD t 0 + z) hY
          _ = c.getD t 0 := by
              linear_combination buf.getD t 0 * gf256.two_eq_zero
      · rw [List.count_eq_zero.mpr htE,
          show List.replicate 0 t = ([] : List Nat) from rfl, List.map_nil,
          List.map_nil, List.sum_nil, add_zero]
        exact hagree t htE
  simp only [correct_erasures]
  rw [if_neg (show ¬E.length > ecc from by omega)]
  rw [hbuf2, if_pos hc]


/-- Claim C3: for a valid codeword c (of length at most the field order
minus one), corrupting a duplicate-free set E of at most ECC positions
arbitrarily and calling correct_erasures with the corrupted buffer and E
restores the codeword exactly and returns Ok with the erasure count. -/
theorem correct_erasures_ok (ecc : Nat) (c buf : List gf256) (E : List Nat)
    (hn : c.length ≤ 255)
    (hlen : buf.length = c.length)
    (hnodup : E.Nodup)
    (hEpos : ∀ j ∈ E, j < c.length)
    (hEcount : E.length ≤ ecc)
    (hc : is_correct ecc c = true)
    (hagree : ∀ j, j ∉ E → buf.getD j 0 = c.getD j 0) :
    correct_erasures ecc buf E = Except.ok (E.length, c) :=
  correct_erasures_ok_core ecc c buf E hn hlen hnodup hEpos hEcount hc hagree

set_option maxRecDepth 100000 in
/-- Witness for C3: a 3-symbol codeword with ECC = 2, position 0 erased and
overwritten, is restored exactly with Ok 1. -/
theorem correct_erasures_ok_witness :
    correct_erasures 2
      ((encode 2 [gf256.mk 5 (by norm_num), gf256.mk 0 (by norm_num),
        gf256.mk 0 (by norm_num)]).set 0 (gf256.mk 9 (by norm_num))) [0] =
    Except.ok (1, encode 2 [gf256.mk 5 (by norm_num), gf256.mk 0 (by norm_num),
      gf256.mk 0 (by norm_num)]) := by
  have h := correct_erasures_ok 2
    (encode 2 [gf256.mk 5 (by norm_num), gf256.mk 0 (by norm_num),
      gf256.mk 0 (by norm_num)])
    ((encode 2 [gf256.mk 5 (by norm_num), gf256.mk 0 (by norm_num),
      gf256.mk 0 (by norm_num)]).set 0 (gf256.mk 9 (by norm_num)))
    [0]
    (by decide)
    (by decide)
    (by decide)
    (by decide)
    (by decide)
    (by decide)
    (fun j hj => getD_set_zero_ne _ _ j (fun h0 => hj (by
      rw [h0]
      exact List.mem_cons_self ..)))
  exact h

/-- The convolution coefficient of the locator with the syndrome sequence:
the discrepancy tested by the Berlekamp-Massey loop at step t. -/
def bmDisc (S lam : List gf256) (t : Nat) : gf256 := (polyMulA lam S).getD t 0

/-- The locator lam of claimed length L generates the syndrome sequence on
[L, m): every discrepancy in that window vanishes. -/
def bmGen (S lam : List gf256) (L m : Nat) : Prop :=
  ∀ t, L ≤ t → t < m → bmDisc S lam t = 0

theorem foldl_range_sum (f : Nat → gf256) (n : Nat) :
    (List.range n).foldl (fun acc k => acc + f k) 0 = ∑ k ∈ Finset.range n, f k := by
  induction n with
  | zero => rfl
  | succ n ih =>
    rw [List.range_succ, List.foldl_append, List.foldl_cons, List.foldl_nil, ih,
      Finset.sum_range_succ]

theorem toPoly_scaleD (c : gf256) (l : List gf256) :
    toPoly (scaleD c l) = Polynomial.C c * toPoly l := by
  apply Polynomial.ext
  intro n
  rw [toPoly_coeff, getD_scaleD, Polynomial.coeff_C_mul, toPoly_coeff]

theorem getD_replicate_append (r : Nat) (q : List gf256) (n : Nat) :
    (List.replicate r (0 : gf256) ++ q).getD n 0 =
      if n < r then 0 else q.getD (n - r) 0 := by
  rw [List.getD_eq_getElem?_getD, List.getElem?_append, List.length_replicate]
  by_cases h : n < r
  · rw [if_pos h, if_pos h, List.getElem?_replicate, if_pos h]
    rfl
  · rw [if_neg h, if_neg h, List.getD_eq_getElem?_getD]

theorem toPoly_shift (r : Nat) (q : List gf256) :
    toPoly (List.replicate r (0 : gf256) ++ q) =
      Polynomial.X ^ r * toPoly q := by
  apply Polynomial.ext
  intro n
  rw [toPoly_coeff, getD_replicate_append, mul_comm, Polynomial.coeff_mul_X_pow']
  by_cases h : n < r
  · rw [if_pos h, if_neg (by omega)]
  · rw [if_neg h, if_pos (by omega), toPoly_coeff]

theorem bmDisc_polyAddA (S a b : List gf256) (t : Nat) :
    bmDisc S (polyAddA a b) t = bmDisc S a t + bmDisc S b t := by
  rw [bmDisc, bmDisc, bmDisc, ← toPoly_coeff, ← toPoly_coeff, ← toPoly_coeff,
    toPoly_polyMulA, toPoly_polyMulA, toPoly_polyMulA, toPoly_polyAddA, add_mul,
    Polynomial.coeff_add]

theorem bmDisc_scaleD (S : List gf256) (c : gf256) (l : List gf256) (t : Nat) :
    bmDisc S (scaleD c l) t = c * bmDisc S l t := by
  rw [bmDisc, bmDisc, ← toPoly_coeff, ← toPoly_coeff, toPoly_polyMulA,
    toPoly_polyMulA, toPoly_scaleD, mul_assoc, Polynomial.coeff_C_mul]

theorem bmDisc_shift (S : List gf256) (r : Nat) (q : List gf256) (t : Nat) :
    bmDisc S (List.replicate r (0 : gf256) ++ q) t =
      if r ≤ t then bmDisc S q (t - r) else 0 := by
  have hp : toPoly (polyMulA (List.replicate r (0 : gf256) ++ q) S) =
      toPoly q * toPoly S * Polynomial.X ^ r := by
    rw [toPoly_polyMulA, toPoly_shift]
    ring
  rw [bmDisc, ← toPoly_coeff, hp, Polynomial.coeff_mul_X_pow']
  by_cases h : r ≤ t
  · rw [if_pos h, if_pos h, ← toPoly_polyMulA, toPoly_coeff]
    rfl
  · rw [if_neg h, if_neg h]

theorem bmDisc_one (S : List gf256) (t : Nat) : bmDisc S [1] t = S.getD t 0 := by
  rw [bmDisc, ← toPoly_coeff, toPoly_polyMulA, toPoly_one, one_mul, toPoly_coeff]

theorem bmDisc_eq_sum (S lam : List gf256) (t : Nat) :
    bmDisc S lam t =
      ∑ k ∈ Finset.range (t + 1), lam.getD k 0 * S.getD (t - k) 0 := by
  rw [bmDisc, getD_polyMulA]

theorem bmStep_d_eq (S lam : List gf256) (L i : Nat) (hlen : lam.length ≤ L + 1) :
    (List.range (L + 1)).foldl
      (fun acc k => acc + (if k ≤ i then lam.getD k 0 * S.getD (i - k) 0 else 0))
      0 = bmDisc S lam i := by
  rw [foldl_range_sum, bmDisc_eq_sum]
  have hL : ∑ k ∈ Finset.range (L + 1),
      (if k ≤ i then lam.getD k 0 * S.getD (i - k) 0 else 0) =
      ∑ k ∈ Finset.range (max L i + 1),
      (if k ≤ i then lam.getD k 0 * S.getD (i - k) 0 else 0) := by
    apply Finset.sum_subset
    · intro k hk
      rw [Finset.mem_range] at hk ⊢
      omega
    · intro k hk hk2
      rw [Finset.mem_range] at hk hk2
      rw [List.getD_eq_default _ _ (by omega), zero_mul, ite_self]
  have hsub : ∑ k ∈ Finset.range (i + 1),
      (if k ≤ i then lam.getD k 0 * S.getD (i - k) 0 else 0) =
      ∑ k ∈ Finset.range (max L i + 1),
      (if k ≤ i then lam.getD k 0 * S.getD (i - k) 0 else 0) := by
    apply Finset.sum_subset
    · intro k hk
      rw [Finset.mem_range] at hk ⊢
      omega
    · intro k hk hk2
      rw [Finset.mem_range] at hk hk2
      rw [if_neg (by omega)]
  have hcong : ∑ k ∈ Finset.range (i + 1),
      (if k ≤ i then lam.getD k 0 * S.getD (i - k) 0 else 0) =
      ∑ k ∈ Finset.range (i + 1), lam.getD k 0 * S.getD (i - k) 0 :=
    Finset.sum_congr rfl (fun k hk => by
      rw [Finset.mem_range] at hk
      rw [if_pos (by omega)])
  rw [hL, ← hsub, hcong]

theorem gf256.eq_of_add_eq_zero {a b : gf256} (h : a + b = 0) : a = b := by
  linear_combination h - b * gf256.two_eq_zero

theorem massey_lower (S lam : List gf256) (L i : Nat)
    (hlen : lam.length ≤ L + 1)
    (hgen : bmGen S lam L i)
    (hd : bmDisc S lam i ≠ 0) :
    ∀ (lam2 : List gf256) (L2 : Nat), lam2.getD 0 0 = 1 →
      lam2.length ≤ L2 + 1 → bmGen S lam2 L2 (i + 1) → i + 1 - L ≤ L2 := by
  intro lam2 L2 h0 hlen2 hgen2
  by_contra hcon
  push_neg at hcon
  have hLL : L + L2 ≤ i := by omega
  apply hd
  rw [bmDisc_eq_sum]
  have hrestrict : ∑ k ∈ Finset.range (i + 1), lam.getD k 0 * S.getD (i - k) 0 =
      ∑ k ∈ Finset.range (L + 1), lam.getD k 0 * S.getD (i - k) 0 := by
    symm
    apply Finset.sum_subset
    · intro k hk
      rw [Finset.mem_range] at hk ⊢
      omega
    · intro k hk hk2
      rw [Finset.mem_range] at hk hk2
      rw [List.getD_eq_default _ _ (by omega), zero_mul]
  rw [hrestrict]
  have hterm : ∀ k ∈ Finset.range (L + 1),
      lam.getD k 0 * S.getD (i - k) 0 =
      ∑ r ∈ Finset.Ico 1 (L2 + 1),
        lam.getD k 0 * (lam2.getD r 0 * S.getD (i - k - r) 0) := by
    intro k hk
    rw [Finset.mem_range] at hk
    have ht : bmDisc S lam2 (i - k) = 0 := hgen2 (i - k) (by omega) (by omega)
    rw [bmDisc_eq_sum] at ht
    have hr : ∑ r ∈ Finset.range (i - k + 1),
        lam2.getD r 0 * S.getD (i - k - r) 0 =
        ∑ r ∈ Finset.range (L2 + 1), lam2.getD r 0 * S.getD (i - k - r) 0 := by
      symm
      apply Finset.sum_subset
      · intro r hr2
        rw [Finset.mem_range] at hr2 ⊢
        omega
      · intro r h1 h2
        rw [Finset.mem_range] at h1 h2
        rw [List.getD_eq_default _ _ (by omega), zero_mul]
    rw [hr, Finset.range_eq_Ico,
      Finset.sum_eq_sum_Ico_succ_bot (by omega)
        (fun r => lam2.getD r 0 * S.getD (i - k - r) 0), h0, one_mul,
      Nat.sub_zero] at ht
    rw [← Finset.mul_sum]
    exact congrArg (fun z => lam.getD k 0 * z) (gf256.eq_of_add_eq_zero ht)
  rw [Finset.sum_congr rfl hterm, Finset.sum_comm]
  apply Finset.sum_eq_zero
  intro r hr
  rw [Finset.mem_Ico] at hr
  have hinner : ∀ k ∈ Finset.range (L + 1),
      lam.getD k 0 * (lam2.getD r 0 * S.getD (i - k - r) 0) =
      lam2.getD r 0 * (lam.getD k 0 * S.getD (i - r - k) 0) := by
    intro k _
    have hidx : i - k - r = i - r - k := by omega
    rw [hidx]
    ring
  rw [Finset.sum_congr rfl hinner, ← Finset.mul_sum]
  have hzero : ∑ k ∈ Finset.range (L + 1),
      lam.getD k 0 * S.getD (i - r - k) 0 = 0 := by
    have hext : ∑ k ∈ Finset.range (L + 1),
        lam.getD k 0 * S.getD (i - r - k) 0 =
        ∑ k ∈ Finset.range (i - r + 1), lam.getD k 0 * S.getD (i - r - k) 0 := by
      apply Finset.sum_subset
      · intro k hk
        rw [Finset.mem_range] at hk ⊢
        omega
      · intro k h1 h2
        rw [Finset.mem_range] at h1 h2
        rw [List.getD_eq_default _ _ (by omega), zero_mul]
    rw [hext, ← bmDisc_eq_sum]
    exact hgen (i - r) (by omega) (by omega)
  rw [hzero, mul_zero]

theorem polyAddA_length (a b : List gf256) :
    (polyAddA a b).length = max a.length b.length := by
  simp only [polyAddA]
  rw [List.length_zipWith, List.length_append, List.length_append,
    List.length_replicate, List.length_replicate]
  omega

theorem scaleD_length (c : gf256) (l : List gf256) :
    (scaleD c l).length = l.length := List.length_map ..

/-- The Berlekamp-Massey loop invariant after i processed syndromes: the
current locator is a minimal-length generator of the syndromes seen so far,
and the auxiliary polynomial is a shifted copy of the locator from the last
length change (or of the initial state if no change happened yet). -/
def bmInv (S : List gf256) (i : Nat) (st : Nat × List gf256 × List gf256) : Prop :=
  st.2.1.getD 0 0 = 1 ∧ st.2.1.length ≤ st.1 + 1 ∧ st.1 ≤ i ∧
  bmGen S st.2.1 st.1 i ∧
  (∀ (lam2 : List gf256) (L2 : Nat), lam2.getD 0 0 = 1 → lam2.length ≤ L2 + 1 →
    bmGen S lam2 L2 i → st.1 ≤ L2) ∧
  ((st.1 = 0 ∧ st.2.1 = [1] ∧ st.2.2 = List.replicate i 0 ++ [1] ∧
      ∀ t < i, S.getD t 0 = 0) ∨
   (∃ m dm lamOld LOld, m < i ∧ 2 * LOld ≤ m ∧ st.1 = m + 1 - LOld ∧
      lamOld.getD 0 0 = 1 ∧ lamOld.length ≤ LOld + 1 ∧
      bmGen S lamOld LOld m ∧ bmDisc S lamOld m = dm ∧ dm ≠ 0 ∧
      st.2.2 = List.replicate (i - 1 - m) 0 ++ scaleD dm⁻¹ lamOld))

theorem bmDisc_update (S lam lamOld : List gf256) (B : List gf256)
    (d dm : gf256) (i m t : Nat) (hm : m < i)
    (hBr : B = List.replicate (i - 1 - m) 0 ++ scaleD dm⁻¹ lamOld) :
    bmDisc S (polyAddA lam (scaleD d (0 :: B))) t =
      bmDisc S lam t +
        d * (if i - m ≤ t then dm⁻¹ * bmDisc S lamOld (t - (i - m)) else 0) := by
  have hform : (0 : gf256) :: B =
      List.replicate (i - m) 0 ++ scaleD dm⁻¹ lamOld := by
    rw [hBr, show i - m = (i - 1 - m) + 1 from by omega, List.replicate_succ,
      List.cons_append]
  rw [bmDisc_polyAddA, bmDisc_scaleD, hform, bmDisc_shift, bmDisc_scaleD]

theorem bmStep_preserves (S : List gf256) (i L : Nat) (lam B : List gf256)
    (h : bmInv S i (L, lam, B)) : bmInv S (i + 1) (bmStep S (L, lam, B) i) := by
  obtain ⟨h0, hlen, hLi, hgen, hmin, hB⟩ := h
  simp only at h0 hlen hLi hgen hmin hB
  have hd_eq : (List.range (L + 1)).foldl
      (fun acc k => acc + (if k ≤ i then lam.getD k 0 * S.getD (i - k) 0 else 0))
      0 = bmDisc S lam i := bmStep_d_eq S lam L i hlen
  have hstep : bmStep S (L, lam, B) i =
      (if bmDisc S lam i = 0 then (L, lam, 0 :: B)
       else if 2 * L ≤ i then
         (i + 1 - L, polyAddA lam (scaleD (bmDisc S lam i) (0 :: B)),
           scaleD (bmDisc S lam i)⁻¹ lam)
       else (L, polyAddA lam (scaleD (bmDisc S lam i) (0 :: B)), 0 :: B)) := by
    simp only [bmStep]
    rw [hd_eq]
  rw [hstep]
  by_cases hd0 : bmDisc S lam i = 0
  · rw [if_pos hd0]
    refine ⟨h0, hlen, by omega, ?_, ?_, ?_⟩
    · intro t ht1 ht2
      by_cases hti : t = i
      · subst hti
        exact hd0
      · exact hgen t ht1 (by omega)
    · intro lam2 L2 g0 glen ggen
      exact hmin lam2 L2 g0 glen (fun t a b => ggen t a (by omega))
    · rcases hB with ⟨hL0, hlam1, hBr, hszero⟩ | ⟨m, dm, lamOld, LOld, hm, h2L,
        hLrel, h0Old, hlenOld, hgenOld, hdm, hdm0, hBr⟩
      · left
        refine ⟨hL0, hlam1, ?_, ?_⟩
        · show (0 : gf256) :: B = _
          rw [hBr, List.replicate_succ, List.cons_append]
        · intro t ht
          by_cases hti : t = i
          · subst hti
            rw [hlam1, bmDisc_one] at hd0
            exact hd0
          · exact hszero t (by omega)
      · right
        refine ⟨m, dm, lamOld, LOld, by omega, h2L, hLrel, h0Old, hlenOld,
          hgenOld, hdm, hdm0, ?_⟩
        show (0 : gf256) :: B = _
        rw [hBr, show i + 1 - 1 - m = (i - 1 - m) + 1 from by omega,
          List.replicate_succ, List.cons_append]
  · rw [if_neg hd0]
    have hBlen : B.length ≤ i - L + 1 := by
      rcases hB with ⟨hL0, _, hBr, _⟩ | ⟨m, dm, lamOld, LOld, hm, h2L, hLrel,
        _, hlenOld, _, _, _, hBr⟩
      · rw [hBr, List.length_append, List.length_replicate]
        simp only [List.length_cons, List.length_nil]
        omega
      · rw [hBr, List.length_append, List.length_replicate, scaleD_length]
        omega
    have hlen2 : (polyAddA lam (scaleD (bmDisc S lam i) (0 :: B))).length ≤
        max (L + 1) (B.length + 1) := by
      rw [polyAddA_length, scaleD_length, List.length_cons]
      omega
    have h02 : (polyAddA lam (scaleD (bmDisc S lam i) (0 :: B))).getD 0 0 = 1 := by
      rw [getD_polyAddA, getD_scaleD, List.getD_cons_zero, mul_zero, add_zero, h0]
    by_cases h2Li : 2 * L ≤ i
    · rw [if_pos h2Li]
      have hmin2 : ∀ (lam2 : List gf256) (L2 : Nat), lam2.getD 0 0 = 1 →
          lam2.length ≤ L2 + 1 → bmGen S lam2 L2 (i + 1) → i + 1 - L ≤ L2 :=
        massey_lower S lam L i hlen hgen hd0
      have hgen2 : bmGen S (polyAddA lam (scaleD (bmDisc S lam i) (0 :: B)))
          (i + 1 - L) (i + 1) := by
        rcases hB with ⟨hL0, hlam1, hBr, hszero⟩ | ⟨m, dm, lamOld, LOld, hm, h2L,
          hLrel, h0Old, hlenOld, hgenOld, hdm, hdm0, hBr⟩
        · intro t ht1 ht2
          omega
        · intro t ht1 ht2
          rw [bmDisc_update S lam lamOld B (bmDisc S lam i) dm i m t hm hBr]
          by_cases hti : t = i
          · rw [hti]
            rw [if_pos (by omega), show i - (i - m) = m from by omega, hdm,
              inv_mul_cancel₀ hdm0, mul_one]
            exact gf256.add_self _
          · have htlt : t < i := by omega
            rw [hgen t (by omega) htlt]
            rw [if_pos (by omega), hgenOld (t - (i - m)) (by omega) (by omega),
              mul_zero, mul_zero, add_zero]
      refine ⟨h02, ?_, by omega, hgen2, hmin2, ?_⟩
      · calc (polyAddA lam (scaleD (bmDisc S lam i) (0 :: B))).length
            ≤ max (L + 1) (B.length + 1) := hlen2
          _ ≤ i + 1 - L + 1 := by omega
      · right
        refine ⟨i, bmDisc S lam i, lam, L, by omega, h2Li, rfl, h0, hlen, hgen,
          rfl, hd0, ?_⟩
        rw [show i + 1 - 1 - i = 0 from by omega, List.replicate_zero,
          List.nil_append]
    · rw [if_neg h2Li]
      have hR1 : ∃ m dm lamOld LOld, m < i ∧ 2 * LOld ≤ m ∧ L = m + 1 - LOld ∧
          lamOld.getD 0 0 = 1 ∧ lamOld.length ≤ LOld + 1 ∧
          bmGen S lamOld LOld m ∧ bmDisc S lamOld m = dm ∧ dm ≠ 0 ∧
          B = List.replicate (i - 1 - m) 0 ++ scaleD dm⁻¹ lamOld := by
        rcases hB with ⟨hL0, _, _, _⟩ | hR
        · omega
        · exact hR
      obtain ⟨m, dm, lamOld, LOld, hm, h2L, hLrel, h0Old, hlenOld, hgenOld,
        hdm, hdm0, hBr⟩ := hR1
      have hgen2 : bmGen S (polyAddA lam (scaleD (bmDisc S lam i) (0 :: B))) L
          (i + 1) := by
        intro t ht1 ht2
        rw [bmDisc_update S lam lamOld B (bmDisc S lam i) dm i m t hm hBr]
        by_cases hti : t = i
        · rw [hti]
          rw [if_pos (by omega), show i - (i - m) = m from by omega, hdm,
            inv_mul_cancel₀ hdm0, mul_one]
          exact gf256.add_self _
        · have htlt : t < i := by omega
          rw [hgen t ht1 htlt]
          by_cases hshift : i - m ≤ t
          · rw [if_pos hshift, hgenOld (t - (i - m)) (by omega) (by omega),
              mul_zero, mul_zero, add_zero]
          · rw [if_neg hshift, mul_zero, add_zero]
      refine ⟨h02, ?_, by omega, hgen2, ?_, ?_⟩
      · calc (polyAddA lam (scaleD (bmDisc S lam i) (0 :: B))).length
            ≤ max (L + 1) (B.length + 1) := hlen2
          _ ≤ L + 1 := by omega
      · intro lam2 L2 g0 glen ggen
        exact hmin lam2 L2 g0 glen (fun t a b => ggen t a (by omega))
      · right
        refine ⟨m, dm, lamOld, LOld, by omega, h2L, hLrel, h0Old, hlenOld,
          hgenOld, hdm, hdm0, ?_⟩
        show (0 : gf256) :: B = _
        rw [hBr, show i + 1 - 1 - m = (i - 1 - m) + 1 from by omega,
          List.replicate_succ, List.cons_append]

theorem bm_inv (S : List gf256) :
    ∀ n, bmInv S n ((List.range n).foldl (bmStep S) (0, [1], [1])) := by
  intro n
  induction n with
  | zero =>
    refine ⟨rfl, by simp, Nat.le_refl 0, fun t _ ht => absurd ht (by omega),
      fun _ _ _ _ _ => Nat.zero_le _, Or.inl ⟨rfl, rfl, by simp, ?_⟩⟩
    intro t ht
    exact absurd ht (by omega)
  | succ n ih =>
    rw [List.range_succ, List.foldl_append, List.foldl_cons, List.foldl_nil]
    exact bmStep_preserves S n ((List.range n).foldl (bmStep S) (0, [1], [1])).1
      ((List.range n).foldl (bmStep S) (0, [1], [1])).2.1
      ((List.range n).foldl (bmStep S) (0, [1], [1])).2.2 ih

theorem key_split (F : Finset Nat) (Xf w : Nat → gf256) (N : Nat) :
    (∑ i ∈ Finset.range N,
      Polynomial.C (∑ j ∈ F, w j * Xf j ^ i) * Polynomial.X ^ i) *
      ∏ k ∈ F, (1 + Polynomial.C (Xf k) * Polynomial.X) =
    (∑ j ∈ F, Polynomial.C (w j) *
      ∏ k ∈ F.erase j, (1 + Polynomial.C (Xf k) * Polynomial.X)) +
    Polynomial.X ^ N *
    ∑ j ∈ F, Polynomial.C (w j) * Polynomial.C (Xf j) ^ N *
      ∏ k ∈ F.erase j, (1 + Polynomial.C (Xf k) * Polynomial.X) := by
  have hS : (∑ i ∈ Finset.range N,
      Polynomial.C (∑ j ∈ F, w j * Xf j ^ i) * Polynomial.X ^ i) =
      ∑ j ∈ F, Polynomial.C (w j) *
        ∑ i ∈ Finset.range N, (Polynomial.C (Xf j) * Polynomial.X) ^ i := by
    rw [Finset.sum_congr rfl (fun i hi => by rw [map_sum, Finset.sum_mul]),
      Finset.sum_comm]
    refine Finset.sum_congr rfl (fun j _ => ?_)
    rw [Finset.mul_sum]
    refine Finset.sum_congr rfl (fun i _ => ?_)
    rw [Polynomial.C_mul, Polynomial.C_pow, mul_pow]
    ring
  have hterm : ∀ j ∈ F,
      (Polynomial.C (w j) *
        ∑ i ∈ Finset.range N, (Polynomial.C (Xf j) * Polynomial.X) ^ i) *
      ∏ k ∈ F, (1 + Polynomial.C (Xf k) * Polynomial.X) =
      Polynomial.C (w j) *
        (∏ k ∈ F.erase j, (1 + Polynomial.C (Xf k) * Polynomial.X)) +
      Polynomial.X ^ N *
        (Polynomial.C (w j) * Polynomial.C (Xf j) ^ N *
        ∏ k ∈ F.erase j, (1 + Polynomial.C (Xf k) * Polynomial.X)) := by
    intro j hj
    rw [← Finset.mul_prod_erase F
      (fun k => 1 + Polynomial.C (Xf k) * Polynomial.X) hj]
    have htel := gf_geom_telescope (Polynomial.C (Xf j) * Polynomial.X) N
    calc (Polynomial.C (w j) *
          ∑ i ∈ Finset.range N, (Polynomial.C (Xf j) * Polynomial.X) ^ i) *
        ((1 + Polynomial.C (Xf j) * Polynomial.X) *
          ∏ k ∈ F.erase j, (1 + Polynomial.C (Xf k) * Polynomial.X))
        = Polynomial.C (w j) *
          ((∑ i ∈ Finset.range N, (Polynomial.C (Xf j) * Polynomial.X) ^ i) *
           (1 + Polynomial.C (Xf j) * Polynomial.X)) *
          ∏ k ∈ F.erase j, (1 + Polynomial.C (Xf k) * Polynomial.X) := by
          ring
      _ = Polynomial.C (w j) *
          (1 + (Polynomial.C (Xf j) * Polynomial.X) ^ N) *
          ∏ k ∈ F.erase j, (1 + Polynomial.C (Xf k) * Polynomial.X) := by
          rw [htel]
      _ = Polynomial.C (w j) *
          (∏ k ∈ F.erase j, (1 + Polynomial.C (Xf k) * Polynomial.X)) +
          Polynomial.X ^ N *
          (Polynomial.C (w j) * Polynomial.C (Xf j) ^ N *
          ∏ k ∈ F.erase j, (1 + Polynomial.C (Xf k) * Polynomial.X)) := by
          rw [mul_pow]
          ring
  rw [hS, Finset.sum_mul, Finset.sum_congr rfl hterm, Finset.sum_add_distrib,
    ← Finset.mul_sum]

theorem tilde_coeff_zero_abs (F : Finset Nat) (a Xv : Nat → gf256) :
    ∀ n, F.card ≤ n →
      (∑ j ∈ F, Polynomial.C (a j) *
        ∏ k ∈ F.erase j,
          (1 + Polynomial.C (Xv k) * Polynomial.X)).coeff n = 0 := by
  intro n hn2
  rw [Polynomial.finset_sum_coeff]
  apply Finset.sum_eq_zero
  intro j hj
  apply Polynomial.coeff_eq_zero_of_natDegree_lt
  have hcard1 : 1 ≤ F.card := Finset.card_pos.mpr ⟨j, hj⟩
  have hcard : (F.erase j).card = F.card - 1 := Finset.card_erase_of_mem hj
  have hdeg1 : ∀ k ∈ F.erase j,
      (fun k => (1 + Polynomial.C (Xv k) * Polynomial.X).natDegree) k ≤
        (fun _ => 1) k := by
    intro k _
    show (1 + Polynomial.C (Xv k) * Polynomial.X).natDegree ≤ 1
    have heq : (1 : Polynomial gf256) + Polynomial.C (Xv k) * Polynomial.X =
        Polynomial.C (Xv k) * Polynomial.X + Polynomial.C 1 := by
      rw [Polynomial.C_1]
      ring
    rw [heq]
    exact Polynomial.natDegree_linear_le
  have hsum := Finset.sum_le_sum hdeg1
  have hprodle := Polynomial.natDegree_prod_le (F.erase j)
    (fun k => 1 + Polynomial.C (Xv k) * Polynomial.X)
  have hconst : ∑ _k ∈ F.erase j, (1 : Nat) = (F.erase j).card := by
    rw [Finset.sum_const, smul_eq_mul, mul_one]
  have hCdeg := Polynomial.natDegree_C_mul_le (a j)
    (∏ k ∈ F.erase j, (1 + Polynomial.C (Xv k) * Polynomial.X))
  omega

theorem vandermonde_weights_zero (F : Finset Nat) (Xf w : Nat → gf256)
    (hX0 : ∀ j ∈ F, Xf j ≠ 0)
    (hinj : ∀ j ∈ F, ∀ k ∈ F, Xf j = Xf k → j = k)
    (hzero : ∀ i < F.card, (∑ j ∈ F, w j * Xf j ^ i) = 0) :
    ∀ j ∈ F, w j = 0 := by
  intro j0 hj0
  have hsplit := key_split F Xf w F.card
  have hSzero : (∑ i ∈ Finset.range F.card,
      Polynomial.C (∑ j ∈ F, w j * Xf j ^ i) * Polynomial.X ^ i) =
      (0 : Polynomial gf256) := by
    apply Finset.sum_eq_zero
    intro i hi
    rw [hzero i (Finset.mem_range.mp hi), Polynomial.C_0, zero_mul]
  rw [hSzero, zero_mul] at hsplit
  have hOm : (∑ j ∈ F, Polynomial.C (w j) *
      ∏ k ∈ F.erase j, (1 + Polynomial.C (Xf k) * Polynomial.X)) =
      (0 : Polynomial gf256) := by
    apply Polynomial.ext
    intro n
    rw [Polynomial.coeff_zero]
    by_cases hn : n < F.card
    · have hc := congrArg (fun P => Polynomial.coeff P n) hsplit.symm
      simp only at hc
      rw [Polynomial.coeff_add, mul_comm (Polynomial.X ^ F.card),
        Polynomial.coeff_mul_X_pow', if_neg (by omega), add_zero] at hc
      exact hc
    · exact tilde_coeff_zero_abs F w Xf n (by omega)
  have heval := congrArg (Polynomial.eval (Xf j0)⁻¹) hOm
  rw [Polynomial.eval_finset_sum, Polynomial.eval_zero] at heval
  have hfac0 : Polynomial.eval (Xf j0)⁻¹
      (1 + Polynomial.C (Xf j0) * Polynomial.X) = 0 := by
    rw [Polynomial.eval_add, Polynomial.eval_one, Polynomial.eval_mul,
      Polynomial.eval_C, Polynomial.eval_X, mul_inv_cancel₀ (hX0 j0 hj0)]
    exact gf256.add_self 1
  have hcollapse : ∀ b ∈ F, b ≠ j0 →
      Polynomial.eval (Xf j0)⁻¹ (Polynomial.C (w b) *
        ∏ k ∈ F.erase b, (1 + Polynomial.C (Xf k) * Polynomial.X)) = 0 := by
    intro b hb hbne
    rw [Polynomial.eval_mul, Polynomial.eval_prod,
      Finset.prod_eq_zero (Finset.mem_erase.mpr ⟨hbne.symm, hj0⟩) hfac0,
      mul_zero]
  rw [Finset.sum_eq_single_of_mem j0 hj0 hcollapse, Polynomial.eval_mul,
    Polynomial.eval_C, Polynomial.eval_prod] at heval
  have hP0 : (∏ k ∈ F.erase j0, Polynomial.eval (Xf j0)⁻¹
      (1 + Polynomial.C (Xf k) * Polynomial.X)) ≠ 0 := by
    rw [Finset.prod_ne_zero_iff]
    intro k hk hzero2
    have hk2 := Finset.mem_erase.mp hk
    rw [Polynomial.eval_add, Polynomial.eval_one, Polynomial.eval_mul,
      Polynomial.eval_C, Polynomial.eval_X] at hzero2
    have h1 : Xf k * (Xf j0)⁻¹ = 1 := by
      linear_combination hzero2 - gf256.two_eq_zero
    have h2 : Xf k = Xf j0 := mul_right_cancel₀ (inv_ne_zero (hX0 j0 hj0))
      (h1.trans (mul_inv_cancel₀ (hX0 j0 hj0)).symm)
    exact hk2.1 (hinj k hk2.2 j0 hj0 h2)
  rcases mul_eq_zero.mp heval with h | h
  · exact h
  · exact absurd h hP0

theorem toPoly_natDegree_le (l : List gf256) (L : Nat) (h : l.length ≤ L + 1) :
    (toPoly l).natDegree ≤ L := by
  rw [Polynomial.natDegree_le_iff_coeff_eq_zero]
  intro m hm
  rw [toPoly_coeff]
  exact List.getD_eq_default _ _ (by omega)

theorem gen_power_sums (F : Finset Nat) (Xf w : Nat → gf256)
    (hX0 : ∀ j ∈ F, Xf j ≠ 0)
    (S : List gf256) (N : Nat) (hSlen : S.length = N)
    (hS : ∀ i, i < N → S.getD i 0 = ∑ j ∈ F, w j * Xf j ^ i)
    (lam : List gf256) (L : Nat) (hlen : lam.length ≤ L + 1)
    (hgen : bmGen S lam L N) :
    ∀ t, L ≤ t → t < N →
      ∑ j ∈ F, (w j * Polynomial.eval (Xf j)⁻¹ (toPoly lam)) * Xf j ^ t = 0 := by
  intro t htL htN
  have hSpoly : toPoly S = ∑ j ∈ F, Polynomial.C (w j) *
      ∑ i ∈ Finset.range N, (Polynomial.C (Xf j) * Polynomial.X) ^ i := by
    rw [toPoly, hSlen]
    rw [Finset.sum_congr rfl (fun i hi => by
      rw [hS i (Finset.mem_range.mp hi), map_sum, Finset.sum_mul]),
      Finset.sum_comm]
    refine Finset.sum_congr rfl (fun j _ => ?_)
    rw [Finset.mul_sum]
    refine Finset.sum_congr rfl (fun i _ => ?_)
    rw [Polynomial.C_mul, Polynomial.C_pow, mul_pow]
    ring
  have hdisc : (toPoly lam * toPoly S).coeff t = 0 := by
    rw [← toPoly_polyMulA, toPoly_coeff]
    exact hgen t htL htN
  rw [hSpoly, Finset.mul_sum, Polynomial.finset_sum_coeff] at hdisc
  have hterm : ∀ j ∈ F,
      (toPoly lam * (Polynomial.C (w j) *
        ∑ i ∈ Finset.range N, (Polynomial.C (Xf j) * Polynomial.X) ^ i)).coeff t =
      (w j * Polynomial.eval (Xf j)⁻¹ (toPoly lam)) * Xf j ^ t := by
    intro j hj
    have hby : (Xf j)⁻¹ * Xf j = 1 := inv_mul_cancel₀ (hX0 j hj)
    have hmodeq := Polynomial.modByMonic_X_sub_C_eq_C_eval (toPoly lam) (Xf j)⁻¹
    have hmod := Polynomial.modByMonic_add_div (toPoly lam)
      (Polynomial.monic_X_sub_C ((Xf j)⁻¹))
    rw [hmodeq] at hmod
    have hfactor : Polynomial.X - Polynomial.C ((Xf j)⁻¹) =
        Polynomial.C ((Xf j)⁻¹) * (1 + Polynomial.C (Xf j) * Polynomial.X) := by
      rw [sub_eq_add_neg, polyGf_neg, mul_add, mul_one, ← mul_assoc,
        ← Polynomial.C_mul, hby, Polynomial.C_1, one_mul, add_comm]
    have hQcoeff : ∀ u, L ≤ u →
        ((toPoly lam) /ₘ (Polynomial.X - Polynomial.C ((Xf j)⁻¹))).coeff u = 0 := by
      intro u hu
      by_cases hQ0 : (toPoly lam) /ₘ (Polynomial.X - Polynomial.C ((Xf j)⁻¹)) = 0
      · rw [hQ0, Polynomial.coeff_zero]
      · have hP0 : toPoly lam ≠ 0 := by
          intro h
          rw [h, Polynomial.zero_divByMonic] at hQ0
          exact hQ0 rfl
        have hdP : (toPoly lam).natDegree ≤ L := toPoly_natDegree_le lam L hlen
        by_cases hL0 : (toPoly lam).natDegree = 0
        · exact absurd ((Polynomial.divByMonic_eq_zero_iff
            (Polynomial.monic_X_sub_C ((Xf j)⁻¹))).mpr (by
              rw [Polynomial.degree_eq_natDegree hP0, hL0,
                Polynomial.degree_X_sub_C]
              decide)) hQ0
        · have hndQ := Polynomial.natDegree_divByMonic (toPoly lam)
            (Polynomial.monic_X_sub_C ((Xf j)⁻¹))
          rw [Polynomial.natDegree_X_sub_C] at hndQ
          apply Polynomial.coeff_eq_zero_of_natDegree_lt
          omega
    have hGcoeff : (∑ i ∈ Finset.range N,
        (Polynomial.C (Xf j) * Polynomial.X) ^ i).coeff t = Xf j ^ t := by
      rw [Polynomial.finset_sum_coeff]
      have hc : ∀ i ∈ Finset.range N,
          ((Polynomial.C (Xf j) * Polynomial.X) ^ i).coeff t =
          if t = i then Xf j ^ i else 0 := by
        intro i _
        rw [mul_pow, ← Polynomial.C_pow, Polynomial.coeff_C_mul,
          Polynomial.coeff_X_pow]
        by_cases hti : t = i
        · rw [if_pos hti, if_pos hti, mul_one]
        · rw [if_neg hti, if_neg hti, mul_zero]
      rw [Finset.sum_congr rfl hc, Finset.sum_ite_eq (Finset.range N) t
        (fun i => Xf j ^ i), if_pos (Finset.mem_range.mpr htN)]
    have hexp : toPoly lam * (Polynomial.C (w j) *
        ∑ i ∈ Finset.range N, (Polynomial.C (Xf j) * Polynomial.X) ^ i) =
        Polynomial.C (w j) *
          Polynomial.C (Polynomial.eval ((Xf j)⁻¹) (toPoly lam)) *
          (∑ i ∈ Finset.range N, (Polynomial.C (Xf j) * Polynomial.X) ^ i) +
        (Polynomial.C (w j) * Polynomial.C ((Xf j)⁻¹) *
          ((toPoly lam) /ₘ (Polynomial.X - Polynomial.C ((Xf j)⁻¹))) *
          ((∑ i ∈ Finset.range N, (Polynomial.C (Xf j) * Polynomial.X) ^ i) *
            (1 + Polynomial.C (Xf j) * Polynomial.X))) := by
      nth_rewrite 1 [← hmod]
      rw [hfactor]
      ring
    rw [hexp, Polynomial.coeff_add, gf_geom_telescope]
    have hfirst : (Polynomial.C (w j) *
        Polynomial.C (Polynomial.eval ((Xf j)⁻¹) (toPoly lam)) *
        ∑ i ∈ Finset.range N,
          (Polynomial.C (Xf j) * Polynomial.X) ^ i).coeff t =
        w j * (Polynomial.eval ((Xf j)⁻¹) (toPoly lam) * Xf j ^ t) := by
      rw [mul_assoc, Polynomial.coeff_C_mul, Polynomial.coeff_C_mul, hGcoeff]
    have hsecond : (Polynomial.C (w j) * Polynomial.C ((Xf j)⁻¹) *
        ((toPoly lam) /ₘ (Polynomial.X - Polynomial.C ((Xf j)⁻¹))) *
        (1 + (Polynomial.C (Xf j) * Polynomial.X) ^ N)).coeff t = 0 := by
      rw [mul_add, mul_one, Polynomial.coeff_add]
      have hA : (Polynomial.C (w j) * Polynomial.C ((Xf j)⁻¹) *
          ((toPoly lam) /ₘ (Polynomial.X - Polynomial.C ((Xf j)⁻¹)))).coeff t =
          0 := by
        rw [mul_assoc, Polynomial.coeff_C_mul, Polynomial.coeff_C_mul,
          hQcoeff t htL, mul_zero, mul_zero]
      have harr : Polynomial.C (w j) * Polynomial.C ((Xf j)⁻¹) *
          ((toPoly lam) /ₘ (Polynomial.X - Polynomial.C ((Xf j)⁻¹))) *
          (Polynomial.C (Xf j) * Polynomial.X) ^ N =
          (Polynomial.C (w j) * Polynomial.C ((Xf j)⁻¹) *
            ((toPoly lam) /ₘ (Polynomial.X - Polynomial.C ((Xf j)⁻¹))) *
            Polynomial.C (Xf j) ^ N) * Polynomial.X ^ N := by
        rw [mul_pow]
        ring
      rw [hA, harr, Polynomial.coeff_mul_X_pow', if_neg (by omega), zero_add]
    rw [hfirst, hsecond, add_zero]
    ring
  rw [Finset.sum_congr rfl hterm] at hdisc
  exact hdisc

theorem polyMulA_pair_length (a b : gf256) :
    ∀ (lam : List gf256), lam ≠ [] →
      (polyMulA lam [a, b]).length = lam.length + 1 := by
  intro lam
  induction lam with
  | nil => intro h; exact absurd rfl h
  | cons c rest ih =>
    intro _
    show (polyAddA (scaleD c [a, b]) (0 :: polyMulA rest [a, b])).length =
      (c :: rest).length + 1
    rw [polyAddA_length, scaleD_length]
    cases rest with
    | nil => rfl
    | cons c2 rest2 =>
      simp only [List.length_cons]
      rw [ih (by simp)]
      simp only [List.length_cons, List.length_nil]
      omega

theorem erasureLocator_fold_length (n : Nat) :
    ∀ (E : List Nat) (acc : List gf256), acc ≠ [] →
      (E.foldl (fun lam j =>
          polyMulA lam [1, gf256.GENERATOR ^ (n - 1 - j)]) acc).length =
        acc.length + E.length := by
  intro E
  induction E with
  | nil => intro acc _; rfl
  | cons j E ih =>
    intro acc hacc
    have hlen := polyMulA_pair_length 1 (gf256.GENERATOR ^ (n - 1 - j)) acc hacc
    have hne : polyMulA acc [1, gf256.GENERATOR ^ (n - 1 - j)] ≠ [] := by
      intro hnil
      rw [hnil] at hlen
      simp at hlen
    rw [List.foldl_cons, ih _ hne, hlen, List.length_cons]
    omega

theorem erasureLocator_length (n : Nat) (E : List Nat) :
    (erasureLocator n E).length = E.length + 1 := by
  rw [erasureLocator, erasureLocator_fold_length n E [1] (by simp)]
  simp only [List.length_cons, List.length_nil]
  omega

theorem locator_prod_coeff_zero (n : Nat) :
    ∀ E : List Nat,
      ((E.map (fun j => 1 +
        Polynomial.C (gf256.GENERATOR ^ (n - 1 - j)) *
          Polynomial.X)).prod).coeff 0 = 1 := by
  intro E
  induction E with
  | nil => simp
  | cons j E ih =>
    rw [List.map_cons, List.prod_cons, Polynomial.mul_coeff_zero, ih, mul_one]
    simp

theorem erasureLocator_getD_zero (n : Nat) (E : List Nat) :
    (erasureLocator n E).getD 0 0 = 1 := by
  rw [← toPoly_coeff, toPoly_erasureLocator, locator_prod_coeff_zero]

theorem locator_factor_ne_zero (a : gf256) :
    (1 : Polynomial gf256) + Polynomial.C a * Polynomial.X ≠ 0 := by
  intro h
  have h0 : ((1 : Polynomial gf256) + Polynomial.C a * Polynomial.X).coeff 0 =
      (0 : Polynomial gf256).coeff 0 := by rw [h]
  simp at h0

theorem locator_factor_natDegree (a : gf256) (ha : a ≠ 0) :
    ((1 : Polynomial gf256) + Polynomial.C a * Polynomial.X).natDegree = 1 := by
  have heq : (1 : Polynomial gf256) + Polynomial.C a * Polynomial.X =
      Polynomial.C a * Polynomial.X + Polynomial.C 1 := by
    rw [Polynomial.C_1]
    ring
  rw [heq]
  exact Polynomial.natDegree_linear ha

theorem locator_poly_natDegree (n : Nat) (E : List Nat) (hnodup : E.Nodup) :
    (toPoly (erasureLocator n E)).natDegree = E.length := by
  rw [toPoly_erasureLocator, ← List.prod_toFinset (fun j => 1 +
    Polynomial.C (gf256.GENERATOR ^ (n - 1 - j)) * Polynomial.X) hnodup]
  rw [Polynomial.natDegree_prod _ _ (fun j _ => locator_factor_ne_zero _)]
  have hterm : ∀ j ∈ E.toFinset,
      ((1 : Polynomial gf256) +
        Polynomial.C (gf256.GENERATOR ^ (n - 1 - j)) *
          Polynomial.X).natDegree = 1 :=
    fun j _ => locator_factor_natDegree _ (pow_ne_zero _ (by decide))
  rw [Finset.sum_congr rfl hterm, Finset.sum_const, smul_eq_mul, mul_one,
    List.toFinset_card_of_nodup hnodup]

theorem locator_poly_leading (n : Nat) (E : List Nat) (hnodup : E.Nodup) :
    (toPoly (erasureLocator n E)).coeff E.length ≠ 0 := by
  have hne : toPoly (erasureLocator n E) ≠ 0 := by
    intro h
    have h0 : (toPoly (erasureLocator n E)).coeff 0 =
        (0 : Polynomial gf256).coeff 0 := by rw [h]
    rw [toPoly_coeff, erasureLocator_getD_zero, Polynomial.coeff_zero] at h0
    exact one_ne_zero h0
  have hlc := Polynomial.leadingCoeff_ne_zero.mpr hne
  unfold Polynomial.leadingCoeff at hlc
  rw [locator_poly_natDegree n E hnodup] at hlc
  exact hlc

theorem true_locator_gen (ecc : Nat) (c buf : List gf256) (E : List Nat)
    (hlen : buf.length = c.length)
    (hnodup : E.Nodup)
    (hEpos : ∀ j ∈ E, j < c.length)
    (hc : is_correct ecc c = true)
    (hagree : ∀ j, j ∉ E → buf.getD j 0 = c.getD j 0) :
    bmGen (syndromes ecc buf) (erasureLocator c.length E) E.length ecc := by
  intro t htL htN
  rw [bmDisc, ← toPoly_coeff, toPoly_polyMulA, mul_comm, ← toPoly_polyMulA,
    omega_split ecc c buf E hlen hnodup hEpos hc hagree, Polynomial.coeff_add]
  have h1 := tilde_coeff_zero_abs E.toFinset
    (fun j => buf.getD j 0 + c.getD j 0)
    (fun k => gf256.GENERATOR ^ (c.length - 1 - k)) t
    (by rw [List.toFinset_card_of_nodup hnodup]; exact htL)
  rw [h1, zero_add, mul_comm (Polynomial.X ^ ecc), Polynomial.coeff_mul_X_pow',
    if_neg (by omega)]

theorem syndromes_not_all_zero (ecc : Nat) (c buf : List gf256) (E : List Nat)
    (hn : c.length ≤ 255)
    (hlen : buf.length = c.length)
    (hnodup : E.Nodup)
    (hEpos : ∀ j ∈ E, j < c.length)
    (hEcount : E.length ≤ ecc)
    (hc : is_correct ecc c = true)
    (hagree : ∀ j, j ∉ E → buf.getD j 0 = c.getD j 0)
    (hdiff : ∀ j ∈ E, buf.getD j 0 ≠ c.getD j 0)
    (hEne : E ≠ []) :
    ((syndromes ecc buf).all fun s => decide (s = 0)) = false := by
  rw [Bool.eq_false_iff]
  intro hall
  have hzero : ∀ i, i < ecc → (syndromes ecc buf).getD i 0 = 0 := by
    intro i hi
    have hmem : (syndromes ecc buf).getD i 0 ∈ syndromes ecc buf := by
      rw [List.getD_eq_getElem _ 0 (by rw [syndromes_length]; exact hi)]
      exact List.getElem_mem _
    have := List.all_eq_true.mp hall _ hmem
    simpa using this
  have hFcard : E.toFinset.card = E.length := List.toFinset_card_of_nodup hnodup
  have hw := vandermonde_weights_zero E.toFinset
    (fun j => gf256.GENERATOR ^ (c.length - 1 - j))
    (fun j => buf.getD j 0 + c.getD j 0)
    (fun j _ => pow_ne_zero _ (by decide))
    (fun j hj k hk hXjk => by
      have hjlt := hEpos j (List.mem_toFinset.mp hj)
      have hklt := hEpos k (List.mem_toFinset.mp hk)
      have := GENERATOR_pow_inj (by omega) (by omega) hXjk
      omega)
    (fun i hi => by
      rw [hFcard] at hi
      rw [← syndrome_as_sum ecc c buf E hlen hEpos hc hagree i (by omega),
        ← getD_syndromes ecc buf i (by omega)]
      exact hzero i (by omega))
  obtain ⟨j, hj⟩ := List.exists_mem_of_ne_nil E hEne
  have hdj := hw j (List.mem_toFinset.mpr hj)
  exact hdiff j hj (gf256.eq_of_add_eq_zero hdj)

theorem bm_finds_locator (ecc : Nat) (c buf : List gf256) (E : List Nat)
    (hn : c.length ≤ 255)
    (hlen : buf.length = c.length)
    (hnodup : E.Nodup)
    (hEpos : ∀ j ∈ E, j < c.length)
    (hEcount : 2 * E.length ≤ ecc)
    (hc : is_correct ecc c = true)
    (hagree : ∀ j, j ∉ E → buf.getD j 0 = c.getD j 0)
    (hdiff : ∀ j ∈ E, buf.getD j 0 ≠ c.getD j 0) :
    bm ecc (syndromes ecc buf) = (E.length, erasureLocator c.length E) := by
  have hinv := bm_inv (syndromes ecc buf) ecc
  set st := (List.range ecc).foldl (bmStep (syndromes ecc buf)) (0, [1], [1])
    with hst
  obtain ⟨h0, hlamlen, hLecc, hgen, hmin, hB⟩ := hinv
  clear hB
  have hFcard : E.toFinset.card = E.length := List.toFinset_card_of_nodup hnodup
  have hG0 : gf256.GENERATOR ≠ 0 := by decide
  have hX0 : ∀ j ∈ E.toFinset,
      gf256.GENERATOR ^ (c.length - 1 - j) ≠ (0 : gf256) :=
    fun j _ => pow_ne_zero _ hG0
  have hXinj : ∀ j ∈ E.toFinset, ∀ k ∈ E.toFinset,
      gf256.GENERATOR ^ (c.length - 1 - j) =
        gf256.GENERATOR ^ (c.length - 1 - k) → j = k := by
    intro j hj k hk hXjk
    have hjlt := hEpos j (List.mem_toFinset.mp hj)
    have hklt := hEpos k (List.mem_toFinset.mp hk)
    have := GENERATOR_pow_inj (by omega) (by omega) hXjk
    omega
  have hd0 : ∀ j ∈ E.toFinset, buf.getD j 0 + c.getD j 0 ≠ (0 : gf256) := by
    intro j hj hz
    exact hdiff j (List.mem_toFinset.mp hj) (gf256.eq_of_add_eq_zero hz)
  have hgenTrue : bmGen (syndromes ecc buf) (erasureLocator c.length E)
      E.length ecc :=
    true_locator_gen ecc c buf E hlen hnodup hEpos hc hagree
  have hLe : st.1 ≤ E.length :=
    hmin (erasureLocator c.length E) E.length
      (erasureLocator_getD_zero c.length E)
      (by rw [erasureLocator_length])
      hgenTrue
  have hps := gen_power_sums E.toFinset
    (fun j => gf256.GENERATOR ^ (c.length - 1 - j))
    (fun j => buf.getD j 0 + c.getD j 0)
    hX0 (syndromes ecc buf) ecc (syndromes_length ecc buf)
    (fun i hi => by
      rw [getD_syndromes ecc buf i hi]
      exact syndrome_as_sum ecc c buf E hlen hEpos hc hagree i hi)
    st.2.1 st.1 hlamlen hgen
  have hweights := vandermonde_weights_zero E.toFinset
    (fun j => gf256.GENERATOR ^ (c.length - 1 - j))
    (fun j => (buf.getD j 0 + c.getD j 0) *
      Polynomial.eval (gf256.GENERATOR ^ (c.length - 1 - j))⁻¹
        (toPoly st.2.1) *
      (gf256.GENERATOR ^ (c.length - 1 - j)) ^ st.1)
    hX0 hXinj
    (fun i hi => by
      rw [hFcard] at hi
      have hterm : ∀ j ∈ E.toFinset,
          (buf.getD j 0 + c.getD j 0) *
            Polynomial.eval (gf256.GENERATOR ^ (c.length - 1 - j))⁻¹
              (toPoly st.2.1) *
            (gf256.GENERATOR ^ (c.length - 1 - j)) ^ st.1 *
            (gf256.GENERATOR ^ (c.length - 1 - j)) ^ i =
          ((buf.getD j 0 + c.getD j 0) *
            Polynomial.eval (gf256.GENERATOR ^ (c.length - 1 - j))⁻¹
              (toPoly st.2.1)) *
            (gf256.GENERATOR ^ (c.length - 1 - j)) ^ (st.1 + i) := by
        intro j _
        rw [pow_add]
        ring
      rw [Finset.sum_congr rfl hterm]
      exact hps (st.1 + i) (by omega) (by omega))
  have heval0 : ∀ j ∈ E.toFinset,
      Polynomial.eval (gf256.GENERATOR ^ (c.length - 1 - j))⁻¹
        (toPoly st.2.1) = 0 := by
    intro j hj
    have hwj := hweights j hj
    have hpow : (gf256.GENERATOR ^ (c.length - 1 - j)) ^ st.1 ≠ (0 : gf256) :=
      pow_ne_zero _ (hX0 j hj)
    rcases mul_eq_zero.mp hwj with h1 | h1
    · rcases mul_eq_zero.mp h1 with h2 | h2
      · exact absurd h2 (hd0 j hj)
      · exact h2
    · exact absurd h1 hpow
  have hinjOn : Set.InjOn
      (fun j => (gf256.GENERATOR ^ (c.length - 1 - j))⁻¹) ↑E.toFinset := by
    intro j hj k hk hjk
    exact hXinj j (Finset.mem_coe.mp hj) k (Finset.mem_coe.mp hk)
      (inv_injective hjk)
  have hcard0 : (E.toFinset.image
      (fun j => (gf256.GENERATOR ^ (c.length - 1 - j))⁻¹)).card = E.length := by
    rw [Finset.card_image_of_injOn hinjOn, hFcard]
  have hlam0coeff : (toPoly st.2.1).coeff 0 = 1 := by
    rw [toPoly_coeff, h0]
  have heL : E.length ≤ st.1 := by
    by_contra hlt
    have hdeg := toPoly_natDegree_le st.2.1 st.1 hlamlen
    have hzero := Polynomial.eq_zero_of_natDegree_lt_card_of_eval_eq_zero'
      (toPoly st.2.1)
      (E.toFinset.image (fun j => (gf256.GENERATOR ^ (c.length - 1 - j))⁻¹))
      (fun y hy => by
        obtain ⟨j, hj, rfl⟩ := Finset.mem_image.mp hy
        exact heval0 j hj)
      (by rw [hcard0]; omega)
    rw [hzero, Polynomial.coeff_zero] at hlam0coeff
    exact one_ne_zero hlam0coeff.symm
  have hLeq : st.1 = E.length := le_antisymm hLe heL
  have hDdeg : (toPoly st.2.1 - toPoly (erasureLocator c.length E)).natDegree
      ≤ E.length := by
    have h1 := toPoly_natDegree_le st.2.1 st.1 hlamlen
    have h2 := locator_poly_natDegree c.length E hnodup
    have h3 := Polynomial.natDegree_sub_le (toPoly st.2.1)
      (toPoly (erasureLocator c.length E))
    omega
  have hzero_not_mem : (0 : gf256) ∉ E.toFinset.image
      (fun j => (gf256.GENERATOR ^ (c.length - 1 - j))⁻¹) := by
    intro h
    obtain ⟨j, hj, hj0⟩ := Finset.mem_image.mp h
    exact inv_ne_zero (hX0 j hj) hj0
  have hDzero : toPoly st.2.1 - toPoly (erasureLocator c.length E) = 0 := by
    apply Polynomial.eq_zero_of_natDegree_lt_card_of_eval_eq_zero' _
      (insert (0 : gf256) (E.toFinset.image
        (fun j => (gf256.GENERATOR ^ (c.length - 1 - j))⁻¹)))
    · intro y hy
      rw [Polynomial.eval_sub]
      rcases Finset.mem_insert.mp hy with hy0 | hy1
      · subst hy0
        rw [← Polynomial.coeff_zero_eq_eval_zero,
          ← Polynomial.coeff_zero_eq_eval_zero, hlam0coeff, toPoly_coeff,
          erasureLocator_getD_zero, sub_self]
      · obtain ⟨j, hj, rfl⟩ := Finset.mem_image.mp hy1
        have hfac : 1 + gf256.GENERATOR ^ (c.length - 1 - j) *
            (gf256.GENERATOR ^ (c.length - 1 - j))⁻¹ = (0 : gf256) := by
          rw [mul_inv_cancel₀ (hX0 j hj)]
          exact gf256.add_self 1
        have hloc : Polynomial.eval
            (gf256.GENERATOR ^ (c.length - 1 - j))⁻¹
            (toPoly (erasureLocator c.length E)) = 0 := by
          rw [toPoly_eval, locator_eval c E hnodup]
          exact Finset.prod_eq_zero hj hfac
        rw [heval0 j hj, hloc, sub_zero]
    · rw [Finset.card_insert_of_not_mem hzero_not_mem, hcard0]
      omega
  have hpolyeq : toPoly st.2.1 = toPoly (erasureLocator c.length E) :=
    sub_eq_zero.mp hDzero
  have hlamlen2 : st.2.1.length = E.length + 1 := by
    have hle : st.2.1.length ≤ E.length + 1 := by
      rw [← hLeq]
      exact hlamlen
    by_contra hne2
    have hlt : st.2.1.length ≤ E.length := by omega
    have hcoeff : (toPoly st.2.1).coeff E.length = 0 := by
      rw [toPoly_coeff]
      exact List.getD_eq_default _ _ (by omega)
    rw [hpolyeq] at hcoeff
    exact locator_poly_leading c.length E hnodup hcoeff
  have hlameq : st.2.1 = erasureLocator c.length E := by
    apply List.ext_getElem
    · rw [hlamlen2, erasureLocator_length]
    · intro i h1 h2
      rw [← List.getD_eq_getElem _ 0 h1, ← List.getD_eq_getElem _ 0 h2,
        ← toPoly_coeff, ← toPoly_coeff, hpolyeq]
  have hbm : bm ecc (syndromes ecc buf) = (st.1, st.2.1) := by
    rw [hst]
    rfl
  rw [hbm, hLeq, hlameq]

theorem chien_locator (c : List gf256) (E : List Nat)
    (hn : c.length ≤ 255) (hnodup : E.Nodup)
    (hEpos : ∀ j ∈ E, j < c.length) :
    chienRoots c.length (erasureLocator c.length E) =
      (List.range c.length).filter (fun i => decide (c.length - 1 - i ∈ E)) := by
  rw [chienRoots]
  apply List.filter_congr
  intro i hi
  rw [List.mem_range] at hi
  rw [decide_eq_decide, locator_eval c E hnodup]
  constructor
  · intro hz
    obtain ⟨k, hkF, hfac⟩ := Finset.prod_eq_zero_iff.mp hz
    have hkE := List.mem_toFinset.mp hkF
    have hklt := hEpos k hkE
    have hGi0 : (gf256.GENERATOR : gf256) ^ i ≠ 0 := pow_ne_zero _ (by decide)
    have h1 : gf256.GENERATOR ^ (c.length - 1 - k) *
        (gf256.GENERATOR ^ i)⁻¹ = 1 := by
      linear_combination hfac - gf256.two_eq_zero
    have h2 : gf256.GENERATOR ^ (c.length - 1 - k) = gf256.GENERATOR ^ i := by
      have h3 := mul_inv_cancel₀ hGi0
      exact mul_right_cancel₀ (inv_ne_zero hGi0) (h1.trans h3.symm)
    have h4 := GENERATOR_pow_inj (by omega) (by omega) h2
    have h5 : c.length - 1 - i = k := by omega
    rw [h5]
    exact hkE
  · intro hmem
    have hklt := hEpos _ hmem
    have hfac : 1 + gf256.GENERATOR ^ (c.length - 1 - (c.length - 1 - i)) *
        (gf256.GENERATOR ^ i)⁻¹ = (0 : gf256) := by
      rw [show c.length - 1 - (c.length - 1 - i) = i from by omega,
        mul_inv_cancel₀ (pow_ne_zero _ (by decide))]
      exact gf256.add_self 1
    exact Finset.prod_eq_zero (List.mem_toFinset.mpr hmem) hfac

theorem chien_count (nn : Nat) (E : List Nat) (hnodup : E.Nodup)
    (hEpos : ∀ j ∈ E, j < nn) :
    ((List.range nn).filter (fun i => decide (nn - 1 - i ∈ E))).length =
      E.length := by
  have hfnodup : ((List.range nn).filter
      (fun i => decide (nn - 1 - i ∈ E))).Nodup :=
    List.Nodup.filter _ (List.nodup_range nn)
  rw [← List.toFinset_card_of_nodup hfnodup]
  have hset : ((List.range nn).filter
      (fun i => decide (nn - 1 - i ∈ E))).toFinset =
      E.toFinset.image (fun j => nn - 1 - j) := by
    ext i
    rw [List.mem_toFinset, List.mem_filter, List.mem_range, Finset.mem_image]
    constructor
    · rintro ⟨hilt, hiE⟩
      have hmem : nn - 1 - i ∈ E := of_decide_eq_true hiE
      refine ⟨nn - 1 - i, List.mem_toFinset.mpr hmem, ?_⟩
      have := hEpos _ hmem
      omega
    · rintro ⟨j, hj, rfl⟩
      have hjE := List.mem_toFinset.mp hj
      have hjlt := hEpos j hjE
      refine ⟨by omega, ?_⟩
      rw [show nn - 1 - (nn - 1 - j) = j from by omega]
      exact decide_eq_true hjE
  rw [hset, Finset.card_image_of_injOn, List.toFinset_card_of_nodup hnodup]
  intro j hj k hk hjk
  have hjlt := hEpos j (List.mem_toFinset.mp (Finset.mem_coe.mp hj))
  have hklt := hEpos k (List.mem_toFinset.mp (Finset.mem_coe.mp hk))
  have hjk2 : nn - 1 - j = nn - 1 - k := hjk
  omega

theorem range_filter_hit (nn t : Nat) (ht : t < nn) (p : Nat → Bool) :
    (List.range nn).filter (fun i => decide (nn - 1 - i = t) && p i) =
      if p (nn - 1 - t) then [nn - 1 - t] else [] := by
  have hcong : ∀ i ∈ List.range nn,
      (decide (nn - 1 - i = t) && p i) =
        (decide (i = nn - 1 - t) && p (nn - 1 - t)) := by
    intro i hi
    rw [List.mem_range] at hi
    by_cases h : i = nn - 1 - t
    · subst h
      rw [decide_eq_true (show nn - 1 - (nn - 1 - t) = t from by omega),
        decide_eq_true (show nn - 1 - t = nn - 1 - t from rfl)]
    · rw [decide_eq_false (show ¬(nn - 1 - i = t) from by omega),
        decide_eq_false h, Bool.false_and, Bool.false_and]
  rw [List.filter_congr hcong]
  by_cases hp : p (nn - 1 - t) = true
  · rw [if_pos hp]
    have hcong2 : ∀ i ∈ List.range nn,
        (decide (i = nn - 1 - t) && p (nn - 1 - t)) =
          decide (i = nn - 1 - t) := by
      intro i _
      rw [hp, Bool.and_true]
    rw [List.filter_congr hcong2, List.filter_eq,
      List.count_eq_one_of_mem (List.nodup_range nn)
        (List.mem_range.mpr (by omega))]
    rfl
  · rw [if_neg hp]
    have hp2 : p (nn - 1 - t) = false := Bool.eq_false_iff.mpr hp
    have hcong2 : ∀ i ∈ List.range nn,
        (decide (i = nn - 1 - t) && p (nn - 1 - t)) = false := by
      intro i _
      rw [hp2, Bool.and_false]
    rw [List.filter_congr hcong2]
    exact List.filter_false _

theorem forney_chien_restores (ecc : Nat) (c buf : List gf256) (E : List Nat)
    (hn : c.length ≤ 255)
    (hlen : buf.length = c.length)
    (hnodup : E.Nodup)
    (hEpos : ∀ j ∈ E, j < c.length)
    (hEcount : E.length ≤ ecc)
    (hc : is_correct ecc c = true)
    (hagree : ∀ j, j ∉ E → buf.getD j 0 = c.getD j 0) :
    forneyApply ecc c.length (syndromes ecc buf) (erasureLocator c.length E)
      (chienRoots c.length (erasureLocator c.length E)) buf = c := by
  have hfold : forneyApply ecc c.length (syndromes ecc buf)
      (erasureLocator c.length E)
      (chienRoots c.length (erasureLocator c.length E)) buf =
      (chienRoots c.length (erasureLocator c.length E)).foldl
        (fun b i => b.set (c.length - 1 - i) (b.getD (c.length - 1 - i) 0 +
          (polyEvalA ((polyMulA (syndromes ecc buf)
              (erasureLocator c.length E)).take ecc)
            (gf256.GENERATOR ^ i)⁻¹ *
          (polyEvalA (derivA (erasureLocator c.length E))
            (gf256.GENERATOR ^ i)⁻¹)⁻¹ *
          gf256.GENERATOR ^ i))) buf := rfl
  rw [hfold, chien_locator c E hn hnodup hEpos]
  have hposs : ∀ i ∈ (List.range c.length).filter
      (fun i => decide (c.length - 1 - i ∈ E)),
      c.length - 1 - i < buf.length := by
    intro i hi
    have hi2 := (List.mem_filter.mp hi).1
    rw [List.mem_range] at hi2
    rw [hlen]
    omega
  apply List.ext_getElem
  · calc (((List.range c.length).filter
          (fun i => decide (c.length - 1 - i ∈ E))).foldl
          (fun b i => b.set (c.length - 1 - i) (b.getD (c.length - 1 - i) 0 +
            (polyEvalA ((polyMulA (syndromes ecc buf)
                (erasureLocator c.length E)).take ecc)
              (gf256.GENERATOR ^ i)⁻¹ *
            (polyEvalA (derivA (erasureLocator c.length E))
              (gf256.GENERATOR ^ i)⁻¹)⁻¹ *
            gf256.GENERATOR ^ i))) buf).length
        = buf.length :=
          fold_set_length c.length
            (fun i => polyEvalA ((polyMulA (syndromes ecc buf)
                (erasureLocator c.length E)).take ecc)
              (gf256.GENERATOR ^ i)⁻¹ *
            (polyEvalA (derivA (erasureLocator c.length E))
              (gf256.GENERATOR ^ i)⁻¹)⁻¹ *
            gf256.GENERATOR ^ i)
            ((List.range c.length).filter
              (fun i => decide (c.length - 1 - i ∈ E))) buf
      _ = c.length := hlen
  · intro t h1 h2
    have hgd := fold_set_getD c.length
      (fun i => polyEvalA ((polyMulA (syndromes ecc buf)
          (erasureLocator c.length E)).take ecc)
        (gf256.GENERATOR ^ i)⁻¹ *
      (polyEvalA (derivA (erasureLocator c.length E))
        (gf256.GENERATOR ^ i)⁻¹)⁻¹ *
      gf256.GENERATOR ^ i)
      ((List.range c.length).filter
        (fun i => decide (c.length - 1 - i ∈ E))) buf t hposs
    rw [← List.getD_eq_getElem _ 0 h1, ← List.getD_eq_getElem _ 0 h2]
    refine Eq.trans hgd ?_
    have ht : t < c.length := h2
    rw [List.filter_filter,
      range_filter_hit c.length t ht (fun i => decide (c.length - 1 - i ∈ E)),
      show c.length - 1 - (c.length - 1 - t) = t from by omega]
    by_cases htE : t ∈ E
    · rw [if_pos (show (decide (t ∈ E)) = true from decide_eq_true htE)]
      rw [List.map_cons, List.map_nil, List.sum_cons, List.sum_nil, add_zero]
      have hY := forney_magnitude ecc c buf E hn hlen hnodup hEpos hEcount hc
        hagree t htE
      calc buf.getD t 0 +
          (polyEvalA ((polyMulA (syndromes ecc buf)
              (erasureLocator c.length E)).take ecc)
            (gf256.GENERATOR ^ (c.length - 1 - t))⁻¹ *
          (polyEvalA (derivA (erasureLocator c.length E))
            (gf256.GENERATOR ^ (c.length - 1 - t))⁻¹)⁻¹ *
          gf256.GENERATOR ^ (c.length - 1 - t))
          = buf.getD t 0 + (buf.getD t 0 + c.getD t 0) :=
            congrArg (fun z => buf.getD t 0 + z) hY
        _ = c.getD t 0 := by
            linear_combination buf.getD t 0 * gf256.two_eq_zero
    · rw [if_neg (show ¬(decide (t ∈ E)) = true from by
        rw [decide_eq_false htE]
        exact Bool.false_ne_true)]
      rw [List.map_nil, List.sum_nil, add_zero]
      exact hagree t htE

theorem correct_errors_ok_core (ecc : Nat) (c buf : List gf256) (E : List Nat)
    (hn : c.length ≤ 255)
    (hlen : buf.length = c.length)
    (hnodup : E.Nodup)
    (hEpos : ∀ j ∈ E, j < c.length)
    (hEcount : E.length ≤ ecc / 2)
    (hc : is_correct ecc c = true)
    (hagree : ∀ j, j ∉ E → buf.getD j 0 = c.getD j 0)
    (hdiff : ∀ j ∈ E, buf.getD j 0 ≠ c.getD j 0) :
    correct_errors ecc buf = Except.ok (E.length, c) := by
  have hEcount2 : 2 * E.length ≤ ecc := by omega
  by_cases hE : E = []
  · subst hE
    have hbc : buf = c := by
      apply List.ext_getElem
      · rw [hlen]
      · intro t h1 h2
        rw [← List.getD_eq_getElem _ 0 h1, ← List.getD_eq_getElem _ 0 h2]
        exact hagree t (by simp)
    rw [hbc]
    simp only [correct_errors]
    rw [if_pos (show ((syndromes ecc c).all fun s => decide (s = 0)) = true
      from hc)]
    rfl
  · have hEcount1 : E.length ≤ ecc := by omega
    have hbmeq := bm_finds_locator ecc c buf E hn hlen hnodup hEpos hEcount2 hc
      hagree hdiff
    have hnz := syndromes_not_all_zero ecc c buf E hn hlen hnodup hEpos
      hEcount1 hc hagree hdiff hE
    simp only [correct_errors]
    rw [if_neg (show ¬((syndromes ecc buf).all fun s => decide (s = 0)) = true
      from by
        rw [hnz]
        exact Bool.false_ne_true)]
    rw [hbmeq]
    simp only []
    rw [if_neg (show ¬(E.length > ecc / 2) from by omega)]
    rw [hlen]
    have hroots_len : (chienRoots c.length (erasureLocator c.length E)).length =
        E.length := by
      rw [chien_locator c E hn hnodup hEpos]
      exact chien_count c.length E hnodup hEpos
    rw [if_neg (show ¬((chienRoots c.length
        (erasureLocator c.length E)).length ≠ E.length) from by
      rw [hroots_len]
      exact fun h => h rfl)]
    rw [forney_chien_restores ecc c buf E hn hlen hnodup hEpos hEcount1 hc
      hagree]
    rw [if_pos hc]

/-- Claim C2: for a valid codeword c (of length at most the field order
minus one), corrupting a duplicate-free set E of at most ECC/2 positions,
each position's symbol actually changed, and calling correct_errors on the
corrupted buffer restores the codeword exactly and returns Ok with the
number of corrupted positions. -/
theorem correct_errors_ok (ecc : Nat) (c buf : List gf256) (E : List Nat)
    (hn : c.length ≤ 255)
    (hlen : buf.length = c.length)
    (hnodup : E.Nodup)
    (hEpos : ∀ j ∈ E, j < c.length)
    (hEcount : E.length ≤ ecc / 2)
    (hc : is_correct ecc c = true)
    (hagree : ∀ j, j ∉ E → buf.getD j 0 = c.getD j 0)
    (hdiff : ∀ j ∈ E, buf.getD j 0 ≠ c.getD j 0) :
    correct_errors ecc buf = Except.ok (E.length, c) :=
  correct_errors_ok_core ecc c buf E hn hlen hnodup hEpos hEcount hc hagree
    hdiff

set_option maxRecDepth 100000 in
/-- Witness for C2: a 3-symbol codeword with ECC = 2, position 0 corrupted
with an unknown error, is restored exactly with Ok 1. -/
theorem correct_errors_ok_witness :
    correct_errors 2
      ((encode 2 [gf256.mk 5 (by norm_num), gf256.mk 0 (by norm_num),
        gf256.mk 0 (by norm_num)]).set 0 (gf256.mk 9 (by norm_num))) =
    Except.ok (1, encode 2 [gf256.mk 5 (by norm_num), gf256.mk 0 (by norm_num),
      gf256.mk 0 (by norm_num)]) := by
  have h := correct_errors_ok 2
    (encode 2 [gf256.mk 5 (by norm_num), gf256.mk 0 (by norm_num),
      gf256.mk 0 (by norm_num)])
    ((encode 2 [gf256.mk 5 (by norm_num), gf256.mk 0 (by norm_num),
      gf256.mk 0 (by norm_num)]).set 0 (gf256.mk 9 (by norm_num)))
    [0]
    (by decide)
    (by decide)
    (by decide)
    (by decide)
    (by decide)
    (by decide)
    (fun j hj => getD_set_zero_ne _ _ j (fun h0 => hj (by
      rw [h0]
      exact List.mem_cons_self ..)))
    (by decide)
  exact h

/-- Claim C6: for every shortened buffer length n with ECC < n ≤ 255 (the
shortened message has length n - ECC, so the limits n - DATA and
(n - DATA)/2 of the claim coincide with ECC and ECC/2), the round-trip,
erasure-correction and error-correction properties all hold at that
length. -/
theorem shortened_code_properties (ecc n : Nat) (_hn1 : ecc + 1 ≤ n)
    (hn2 : n ≤ 255) :
    (∀ buf : List gf256, buf.length = n →
      is_correct ecc (encode ecc buf) = true ∧
      correct_errors ecc (encode ecc buf) = Except.ok (0, encode ecc buf)) ∧
    (∀ (c buf : List gf256) (E : List Nat), c.length = n →
      buf.length = c.length → E.Nodup → (∀ j ∈ E, j < c.length) →
      E.length ≤ ecc → is_correct ecc c = true →
      (∀ j, j ∉ E → buf.getD j 0 = c.getD j 0) →
      correct_erasures ecc buf E = Except.ok (E.length, c)) ∧
    (∀ (c buf : List gf256) (E : List Nat), c.length = n →
      buf.length = c.length → E.Nodup → (∀ j ∈ E, j < c.length) →
      E.length ≤ ecc / 2 → is_correct ecc c = true →
      (∀ j, j ∉ E → buf.getD j 0 = c.getD j 0) →
      (∀ j ∈ E, buf.getD j 0 ≠ c.getD j 0) →
      correct_errors ecc buf = Except.ok (E.length, c)) := by
  refine ⟨?_, ?_, ?_⟩
  · intro buf _
    obtain ⟨h1, h2, _⟩ := encode_roundtrip_core ecc buf
    exact ⟨h1, h2⟩
  · intro c buf E hcl hlen hnodup hEpos hEcount hc hagree
    exact correct_erasures_ok_core ecc c buf E (by omega) hlen hnodup hEpos
      hEcount hc hagree
  · intro c buf E hcl hlen hnodup hEpos hEcount hc hagree hdiff
    exact correct_errors_ok_core ecc c buf E (by omega) hlen hnodup hEpos
      hEcount hc hagree hdiff

/-- Witness for C6 at ECC = 2 and shortened length n = 3. -/
theorem shortened_code_properties_witness :
    (2 + 1 ≤ 3) ∧ (3 ≤ 255) ∧
    ((∀ buf : List gf256, buf.length = 3 →
      is_correct 2 (encode 2 buf) = true ∧
      correct_errors 2 (encode 2 buf) = Except.ok (0, encode 2 buf)) ∧
    (∀ (c buf : List gf256) (E : List Nat), c.length = 3 →
      buf.length = c.length → E.Nodup → (∀ j ∈ E, j < c.length) →
      E.length ≤ 2 → is_correct 2 c = true →
      (∀ j, j ∉ E → buf.getD j 0 = c.getD j 0) →
      correct_erasures 2 buf E = Except.ok (E.length, c)) ∧
    (∀ (c buf : List gf256) (E : List Nat), c.length = 3 →
      buf.length = c.length → E.Nodup → (∀ j ∈ E, j < c.length) →
      E.length ≤ 2 / 2 → is_correct 2 c = true →
      (∀ j, j ∉ E → buf.getD j 0 = c.getD j 0) →
      (∀ j ∈ E, buf.getD j 0 ≠ c.getD j 0) →
      correct_errors 2 buf = Except.ok (E.length, c))) :=
  ⟨by decide, by decide, shortened_code_properties 2 3 (by decide) (by decide)⟩
